import Mathlib

/-!
Draw pool of the OTClient graphics framework.

A shallow embedding of `src/framework/graphics/pool.h` and
`src/framework/graphics/pool.cpp`: the draw buffer, the pool with its
ambient state, the batching operation `Pool::add`, hash accumulation,
change detection and the pool factory. The last part embeds the house list
and the door map of `src/client/houses.cpp`.

Conventions of the embedding.

* `size_t` values (hashes, map keys, list indices) are natural numbers; the
  code only stores, compares and passes them to the hash helpers.
* `int` values (`DrawBuffer::m_i`, the `pos` argument of the mutators) are
  integers; the one increment of the code (`++buffer->m_i`) is undefined at
  `INT_MAX` and the embedding has no result there.
* Shared pointers to `DrawBuffer` are indices into a heap (a list of draw
  buffers) that is threaded through `add`; `make_shared` appends a new cell.
* An operation whose C++ behaviour is undefined (a null pointer dereferenced,
  a vector indexed out of range, an invalid downcast) returns `none`.
* Declarations that the two files use but that live in headers outside the
  sources (hash helpers, `Rect`, `Color`, `Matrix3`, `Texture`, the virtual
  members of `DrawMethod`, `Timer`) are parameters gathered in `Ext`, or
  small records documented where they are declared.
-/

namespace OTClient

/-! ## Types declared outside the two files -/

/-- Pool layers, the `enum class PoolType` of pool.h. -/
inductive PoolType where
  | MAP
  | CREATURE_INFORMATION
  | LIGHT
  | TEXT
  | FOREGROUND
  | UNKNOW
  deriving DecidableEq, Repr

/-- Modelled from the spec: the composition modes of the painter (the enum is
declared in a header outside the sources; pool.cpp names `NORMAL` and
`LIGHT`). -/
inductive CompositionMode where
  | NORMAL
  | MULTIPLY
  | ADD
  | REPLACE
  | DESTINATION_BLENDING
  | LIGHT
  deriving DecidableEq, Repr

/-- Modelled from the spec: the blend equations of the painter (the enum is
declared in a header outside the sources; pool.h and pool.cpp name `ADD`). -/
inductive BlendEquation where
  | ADD
  | MAX
  | MIN
  | SUBTRACT
  | REVER_SUBTRACT
  deriving DecidableEq, Repr

/-- Modelled from the spec: the draw modes (declared outside the sources;
pool.cpp names `TRIANGLES`). -/
inductive DrawMode where
  | NONE
  | TRIANGLES
  | TRIANGLE_STRIP
  deriving DecidableEq, Repr

/-- Modelled from the spec: a point, with the null point `{}` at the origin. -/
structure Point where
  x : Int
  y : Int
  deriving DecidableEq, Repr

/-- Modelled from the spec: a rectangle given by its corners. -/
structure Rect where
  x1 : Int
  y1 : Int
  x2 : Int
  y2 : Int
  deriving DecidableEq, Repr

/-- Modelled from the spec: the empty rectangle, the value-initialised `Rect`
that `resetClipRect` stores (`m_state.clipRect = {}`). -/
def Rect.empty : Rect := ⟨0, 0, -1, -1⟩

/-- Modelled from the spec: a colour, observed through `rgba()`. -/
structure Color where
  rgba : Nat
  deriving DecidableEq, Repr

/-- Modelled from the spec: the constant `Color::white`. -/
def Color.white : Color := ⟨0xFFFFFFFF⟩

/-- Modelled from the spec: a 3x3 transform matrix, by its nine cells. -/
structure Matrix3 where
  cells : List ℚ
  deriving DecidableEq, Repr

/-- Modelled from the spec: what pool.cpp asks of a texture: its identity
(`getId`, `getUniqueId`), `isEmpty`, `isOpaque` and `canSuperimposed`. -/
structure Texture where
  id : Nat
  uniqueId : Nat
  isEmpty : Bool
  isOpaque : Bool
  canSuperimposed : Bool
  deriving DecidableEq, Repr

/-- Modelled from the spec: a shader program, observed through
`getProgramId`. -/
structure PainterShaderProgram where
  programId : Nat
  deriving DecidableEq, Repr

/-- Modelled from the spec: the `DrawTextureRect` part of a draw method, the
two members that `Pool::add` reads after its downcast. -/
structure DrawTextureRect where
  m_destP : Point
  m_src : Rect
  deriving DecidableEq, Repr

/-- Modelled from the spec: a draw method object. `addr` is the identity of
the heap object the caller allocated, `payload` stands for the parameters
its virtual members read, and `rect` is the `DrawTextureRect` view of the
object, present exactly when its dynamic type is `DrawTextureRect`. -/
structure DrawMethod where
  addr : Nat
  payload : Nat
  rect : Option DrawTextureRect
  deriving DecidableEq, Repr

/-- Modelled from the spec: the virtual `hasRefPoint()`: the textured-rectangle
variant is the one with a reference point (the one `Pool::add` downcasts to
`DrawTextureRect`). -/
def DrawMethod.hasRefPoint (m : DrawMethod) : Bool := m.rect.isSome

/-- Modelled from the spec: `Timer` of framework/core/timer.h, a start tick
read against the clock. -/
structure Timer where
  m_startTicks : Int
  deriving DecidableEq, Repr

/-- Modelled from the spec: ticks elapsed on a timer when the clock shows
`now`. -/
def Timer.ticksElapsed (now : Int) (t : Timer) : Int := now - t.m_startTicks

/-- Modelled from the spec: restarting a timer when the clock shows `now`. -/
def Timer.restart (now : Int) (_t : Timer) : Timer := ⟨now⟩

/-- Modelled from the spec: `Painter::PainterState`; `Pool::add` initialises
its first eight members and `setShaderProgram` also writes `action`. -/
structure PainterState where
  transformMatrix : Matrix3
  color : Color
  opacity : ℚ
  compositionMode : CompositionMode
  blendEquation : BlendEquation
  clipRect : Rect
  texture : Option Texture
  shaderProgram : Option PainterShaderProgram
  action : Option Nat
  deriving DecidableEq, Repr

/-- Modelled from the spec: `operator==` of `PainterState`, equality of the
eight members the snapshot is built from (a `std::function` cannot be
compared, so `action` takes no part). -/
def PainterState.same (a b : PainterState) : Bool :=
  decide (a.transformMatrix = b.transformMatrix) && decide (a.color = b.color) &&
  decide (a.opacity = b.opacity) && decide (a.compositionMode = b.compositionMode) &&
  decide (a.blendEquation = b.blendEquation) && decide (a.clipRect = b.clipRect) &&
  decide (a.texture = b.texture) && decide (a.shaderProgram = b.shaderProgram)

/-- Modelled from the spec: `_DrawState`, the ambient state `m_state` of a
pool, with the members pool.h and pool.cpp access. -/
structure DrawState where
  opacity : ℚ
  compositionMode : CompositionMode
  blendEquation : BlendEquation
  clipRect : Rect
  shaderProgram : Option PainterShaderProgram
  action : Option Nat
  deriving DecidableEq, Repr

/-- Modelled from the spec: a value-initialised `_DrawState`. -/
def DrawState.initial : DrawState :=
  ⟨1, CompositionMode.NORMAL, BlendEquation.ADD, Rect.empty, none, none⟩

/-- Modelled from the spec: a frame buffer as far as `Pool::create` drives
it: blending can be disabled and a composition mode selected. -/
structure FrameBuffer where
  useAlphaWriting : Bool
  blendDisabled : Bool
  compositionMode : CompositionMode
  deriving DecidableEq, Repr

/-- Modelled from the spec: `g_framebuffers.createFrameBuffer(flag)`. -/
def createFrameBuffer (useAlphaWriting : Bool) : FrameBuffer :=
  ⟨useAlphaWriting, false, CompositionMode.NORMAL⟩

/-- External functions of the two files: the `stdext` hash helpers, the hash
and validity of rectangles and matrices, the default matrix, and the two
virtual members of a draw method (`updateHash` and `add`). They are
parameters of the embedding. -/
structure Ext where
  hash_union : Nat → Nat → Nat
  hash_combine_uint : Nat → Nat → Nat
  hash_combine_float : Nat → ℚ → Nat
  hash_combine_mode : Nat → CompositionMode → Nat
  hash_combine_blend : Nat → BlendEquation → Nat
  rect_isValid : Rect → Bool
  rect_hash : Rect → Nat
  matrix_hash : Matrix3 → Nat
  DEFAULT_MATRIX_3 : Matrix3
  method_updateHash : DrawMethod → Nat → Nat
  method_add : DrawMethod → List Nat → List Nat

/-! ## pool.h -/

/-- The class `DrawBuffer`: cursor, reference point, recorded hashes and the
coordinate store (a shared pointer, `none` when null). -/
structure DrawBuffer where
  m_i : Int
  m_ref : Point
  m_hashs : List Nat
  m_coords : Option (List Nat)
  deriving DecidableEq, Repr

/-- A draw buffer as `std::make_shared<DrawBuffer>()` builds it. -/
def DrawBuffer.create : DrawBuffer := ⟨0, ⟨0, 0⟩, [], none⟩

/-- The member `bool isValid() { return m_i > -1; }`. -/
def DrawBuffer.isValid (b : DrawBuffer) : Bool := decide (b.m_i > -1)

/-- The member `void invalidate() { m_i = -1; m_hashs.clear(); }`. -/
def DrawBuffer.invalidate (b : DrawBuffer) : DrawBuffer :=
  { b with m_i := -1, m_hashs := [] }

/-- The member `validate(p)`: a changed reference point is stored and
invalidates the buffer; the result is the validity afterwards. -/
def DrawBuffer.validate (b : DrawBuffer) (p : Point) : Bool × DrawBuffer :=
  let b1 := if b.m_ref ≠ p then ({ b with m_ref := p }).invalidate else b
  (b1.isValid, b1)

/-- Modelled from the spec: a draw object: state snapshot, draw mode, pending
methods and an optional shared draw buffer (an index into the heap). -/
structure DrawObject where
  state : PainterState
  drawMode : DrawMode
  drawMethods : List DrawMethod
  buffer : Option Nat
  deriving DecidableEq, Repr

/-- The members a `PoolFramed` adds to a pool. -/
structure PoolFramed where
  m_framebuffer : FrameBuffer
  m_dest : Rect
  m_src : Rect
  m_beforeDraw : Option Nat
  m_afterDraw : Option Nat
  deriving DecidableEq, Repr

/-- The class `Pool`. `framed` holds the members of the derived class
`PoolFramed` when the object is one. `m_drawObjectPointer` is the map from
state hash to object index, kept as an association list. -/
structure Pool where
  m_enabled : Bool
  m_forceGrouping : Bool
  m_autoUpdate : Bool
  m_state : DrawState
  m_type : PoolType
  m_refreshTime : Timer
  m_status : Nat × Nat
  m_objects : List DrawObject
  m_drawObjectPointer : List (Nat × Nat)
  framed : Option PoolFramed
  deriving DecidableEq, Repr

/-- A pool as `new Pool` builds it when the clock shows `now`. -/
def Pool.new (now : Int) : Pool :=
  { m_enabled := true, m_forceGrouping := false, m_autoUpdate := false,
    m_state := DrawState.initial, m_type := PoolType.UNKNOW,
    m_refreshTime := ⟨now⟩, m_status := (0, 0), m_objects := [],
    m_drawObjectPointer := [], framed := none }

/-- A pool as `new PoolFramed{ frameBuffer }` builds it. -/
def PoolFramed.new (now : Int) (fb : FrameBuffer) : Pool :=
  { Pool.new now with framed := some ⟨fb, Rect.empty, Rect.empty, none, none⟩ }

/-- The getter `getType`. -/
def Pool.getType (p : Pool) : PoolType := p.m_type

/-- The virtual `hasFrameBuffer`: false in `Pool`, true in `PoolFramed`. -/
def Pool.hasFrameBuffer (p : Pool) : Bool := p.framed.isSome

/-- The virtual `toPoolFramed`: null in `Pool`, `this` in `PoolFramed`. -/
def Pool.toPoolFramed (p : Pool) : Option Pool :=
  if p.framed.isSome then some p else none

/-- The member `resetOpacity`. -/
def Pool.resetOpacity (p : Pool) : Pool :=
  { p with m_state := { p.m_state with opacity := 1 } }

/-- The member `resetClipRect`. -/
def Pool.resetClipRect (p : Pool) : Pool :=
  { p with m_state := { p.m_state with clipRect := Rect.empty } }

/-- The member `resetShaderProgram`. -/
def Pool.resetShaderProgram (p : Pool) : Pool :=
  { p with m_state := { p.m_state with shaderProgram := none } }

/-- The member `resetCompositionMode`. -/
def Pool.resetCompositionMode (p : Pool) : Pool :=
  { p with m_state := { p.m_state with compositionMode := CompositionMode.NORMAL } }

/-- The member `resetBlendEquation`. -/
def Pool.resetBlendEquation (p : Pool) : Pool :=
  { p with m_state := { p.m_state with blendEquation := BlendEquation.ADD } }

/-- The member `flush`. -/
def Pool.flush (p : Pool) : Pool := { p with m_drawObjectPointer := [] }

/-- The member `updateStatus`, when the clock shows `now`. -/
def Pool.updateStatus (now : Int) (p : Pool) : Pool :=
  { p with m_status := (p.m_status.2, p.m_status.2),
           m_refreshTime := p.m_refreshTime.restart now }

/-! ## pool.cpp -/

/-- The factory `Pool::create`, when the clock shows `now`. -/
def Pool.create (now : Int) (type : PoolType) : Pool :=
  let pool :=
    if type = PoolType.MAP ∨ type = PoolType.LIGHT ∨ type = PoolType.FOREGROUND then
      let frameBuffer := createFrameBuffer true
      if type = PoolType.MAP then
        PoolFramed.new now { frameBuffer with blendDisabled := true }
      else if type = PoolType.LIGHT then
        { PoolFramed.new now { frameBuffer with compositionMode := CompositionMode.LIGHT } with
          m_forceGrouping := true }
      else
        PoolFramed.new now frameBuffer
    else
      { Pool.new now with m_forceGrouping := true }
  { pool with m_type := type }

/-- The member `Pool::resetState`. -/
def Pool.resetState (p : Pool) : Pool :=
  let p1 := p.resetOpacity
  let p2 := p1.resetClipRect
  let p3 := p2.resetShaderProgram
  let p4 := p3.resetBlendEquation
  let p5 := p4.resetCompositionMode
  { p5 with m_autoUpdate := false, m_status := (p5.m_status.1, 0), m_drawObjectPointer := [] }

/-- The member `Pool::hasModification`, when the clock shows `now`: the
returned flag and the pool afterwards. -/
def Pool.hasModification (now : Int) (p : Pool) (autoUpdateStatus : Bool) : Bool × Pool :=
  let hasModification : Bool :=
    decide (p.m_status.1 ≠ p.m_status.2) ||
      (p.m_autoUpdate && decide (p.m_refreshTime.ticksElapsed now > 50))
  if hasModification && autoUpdateStatus then (hasModification, p.updateStatus now)
  else (hasModification, p)

/-- The state-hash block of `Pool::updateHash`: the members of the snapshot
that differ from their default are folded into `stateHash`, in the order of
the source. -/
def stateHashOf (E : Ext) (state : PainterState) (stateHash : Nat) : Nat :=
  let h1 := if state.blendEquation ≠ BlendEquation.ADD then
      E.hash_combine_blend stateHash state.blendEquation else stateHash
  let h2 := if E.rect_isValid state.clipRect then
      E.hash_union h1 (E.rect_hash state.clipRect) else h1
  let h3 := if state.color ≠ Color.white then
      E.hash_combine_uint h2 state.color.rgba else h2
  let h4 := if state.compositionMode ≠ CompositionMode.NORMAL then
      E.hash_combine_mode h3 state.compositionMode else h3
  let h5 := if state.opacity < 1 then E.hash_combine_float h4 state.opacity else h4
  let h6 := match state.shaderProgram with
    | some sh => E.hash_combine_uint h5 sh.programId
    | none => h5
  let h7 := match state.texture with
    | some t => E.hash_combine_uint h6 (if !t.isEmpty then t.id else t.uniqueId)
    | none => h6
  if state.transformMatrix ≠ E.DEFAULT_MATRIX_3 then
    E.hash_union h7 (E.matrix_hash state.transformMatrix) else h7

/-- The member `Pool::updateHash`: the pool afterwards and the two
accumulators `stateHash` and `methodhash`, passed by reference in the
source. -/
def Pool.updateHash (E : Ext) (p : Pool) (state : PainterState) (method : DrawMethod)
    (stateHash methodhash : Nat) : Pool × Nat × Nat :=
  let p1 := if state.shaderProgram.isSome then { p with m_autoUpdate := true } else p
  let stateHash1 := stateHashOf E state stateHash
  let p2 := { p1 with m_status := (p1.m_status.1, E.hash_union p1.m_status.2 stateHash1) }
  let methodhash1 := E.method_updateHash method methodhash
  let p3 := { p2 with m_status := (p2.m_status.1, E.hash_union p2.m_status.2 methodhash1) }
  (p3, stateHash1, methodhash1)

/-- Overwrites the state of the object that `m_objects[pos - 1]` designates;
no result when that index is outside the vector. -/
def Pool.editObject (p : Pool) (pos : Int) (f : PainterState → PainterState) : Option Pool :=
  if pos - 1 < 0 then none
  else
    match p.m_objects[(pos - 1).toNat]? with
    | none => none
    | some o =>
      some { p with m_objects := p.m_objects.set (pos - 1).toNat { o with state := f o.state } }

/-- The member `Pool::setCompositionMode`. -/
def Pool.setCompositionMode (E : Ext) (p : Pool) (mode : CompositionMode) (pos : Int) :
    Option Pool :=
  if pos = -1 then some { p with m_state := { p.m_state with compositionMode := mode } }
  else
    (p.editObject pos fun s => { s with compositionMode := mode }).map fun q =>
      { q with m_status := (q.m_status.1, E.hash_combine_mode q.m_status.2 mode) }

/-- The member `Pool::setBlendEquation`. -/
def Pool.setBlendEquation (E : Ext) (p : Pool) (equation : BlendEquation) (pos : Int) :
    Option Pool :=
  if pos = -1 then some { p with m_state := { p.m_state with blendEquation := equation } }
  else
    (p.editObject pos fun s => { s with blendEquation := equation }).map fun q =>
      { q with m_status := (q.m_status.1, E.hash_combine_blend q.m_status.2 equation) }

/-- The member `Pool::setClipRect`. -/
def Pool.setClipRect (E : Ext) (p : Pool) (clipRect : Rect) (pos : Int) : Option Pool :=
  if pos = -1 then some { p with m_state := { p.m_state with clipRect := clipRect } }
  else
    (p.editObject pos fun s => { s with clipRect := clipRect }).map fun q =>
      { q with m_status := (q.m_status.1, E.hash_combine_uint q.m_status.2 (E.rect_hash clipRect)) }

/-- The member `Pool::setOpacity`. -/
def Pool.setOpacity (E : Ext) (p : Pool) (opacity : ℚ) (pos : Int) : Option Pool :=
  if pos = -1 then some { p with m_state := { p.m_state with opacity := opacity } }
  else
    (p.editObject pos fun s => { s with opacity := opacity }).map fun q =>
      { q with m_status := (q.m_status.1, E.hash_combine_float q.m_status.2 opacity) }

/-- The member `Pool::setShaderProgram`. -/
def Pool.setShaderProgram (p : Pool) (shaderProgram : Option PainterShaderProgram) (pos : Int)
    (action : Option Nat) : Option Pool :=
  let shader := shaderProgram
  if pos = -1 then
    some { p with m_state := { p.m_state with shaderProgram := shader, action := action } }
  else
    let p1 := if shader.isSome then { p with m_autoUpdate := true } else p
    p1.editObject pos fun s => { s with shaderProgram := shader, action := action }

/-- The pool and the heap of draw buffers its shared pointers refer to. -/
structure World where
  heap : List DrawBuffer
  pool : Pool
  deriving DecidableEq, Repr

/-- The largest `int`. -/
def INT_MAX : Int := 2147483647

/-- Lookup in the map `m_drawObjectPointer` (`pointer.find(stateHash)`). -/
def mapFind (m : List (Nat × Nat)) (key : Nat) : Option Nat :=
  match m with
  | [] => none
  | (k, v) :: rest => if k = key then some v else mapFind rest key

/-- Assignment in the map (`pointer[stateHash] = value`). -/
def mapAssign (m : List (Nat × Nat)) (key value : Nat) : List (Nat × Nat) :=
  (key, value) :: m.filter fun kv => decide (kv.1 ≠ key)

/-- The effect of a grouped call on the valid or invalid buffer of the object
found in the map (pool.cpp lines 68 to 76): the cursor advances; at the end
of the recorded hashes the method hash is appended and the geometry emitted;
inside them a different recorded hash invalidates the buffer; an invalid
buffer is left as it is. -/
def DrawBuffer.advance (E : Ext) (buffer : DrawBuffer) (method : DrawMethod)
    (methodHash : Nat) : Option DrawBuffer :=
  if buffer.isValid then
    if buffer.m_i = INT_MAX then none
    else if buffer.m_i + 1 = (buffer.m_hashs.length : Int) then
      match buffer.m_coords with
      | none => none
      | some coords =>
        some { buffer with
          m_i := buffer.m_i + 1, m_hashs := buffer.m_hashs ++ [methodHash],
          m_coords := some (E.method_add method coords) }
    else
      match buffer.m_hashs[(buffer.m_i + 1).toNat]? with
      | none => none
      | some h =>
        if h ≠ methodHash then some ({ buffer with m_i := buffer.m_i + 1 }).invalidate
        else some { buffer with m_i := buffer.m_i + 1 }
  else some buffer

/-- The grouped path of `Pool::add` when the state hash is found in the map
at `idx` (pool.cpp lines 67 to 76): the heap afterwards, the buffer of the
object written back. -/
def addFound (E : Ext) (heap : List DrawBuffer) (list : List DrawObject) (idx : Nat)
    (method : DrawMethod) (methodHash : Nat) : Option (List DrawBuffer) :=
  match list[idx]? with
  | none => none
  | some obj =>
    match obj.buffer with
    | none => none
    | some b =>
      match heap[b]? with
      | none => none
      | some buffer => (buffer.advance E method methodHash).map fun buffer1 => heap.set b buffer1

/-- The heap after pool.cpp lines 80 to 82: a missing draw buffer is
allocated. -/
def allocHeap (heap : List DrawBuffer) (drawBuffer : Option Nat) : List DrawBuffer :=
  match drawBuffer with
  | some _ => heap
  | none => heap ++ [DrawBuffer.create]

/-- The draw buffer in use after pool.cpp lines 80 to 82. -/
def allocId (heap : List DrawBuffer) (drawBuffer : Option Nat) : Nat :=
  match drawBuffer with
  | some b => b
  | none => heap.length

/-- The effect of registering a buffer for a new draw object (pool.cpp lines
84 to 93): a buffer without recorded hashes gets a cleared (or new)
coordinate store, the method hash and the geometry; the cursor is reset. -/
def DrawBuffer.seed (E : Ext) (buffer : DrawBuffer) (method : DrawMethod)
    (methodHash : Nat) : DrawBuffer :=
  { (if buffer.m_hashs.isEmpty then
      { buffer with m_coords := some (E.method_add method []),
                    m_hashs := buffer.m_hashs ++ [methodHash] }
     else buffer) with m_i := 0 }

/-- The grouped path of `Pool::add` when the state hash is not in the map
(pool.cpp lines 78 to 95). -/
def addNew (E : Ext) (heap : List DrawBuffer) (p : Pool) (state : PainterState)
    (stateHash : Nat) (method : DrawMethod) (methodHash : Nat) (drawBuffer : Option Nat) :
    Option World :=
  match (allocHeap heap drawBuffer)[allocId heap drawBuffer]? with
  | none => none
  | some buffer =>
    some { heap := (allocHeap heap drawBuffer).set (allocId heap drawBuffer)
             (buffer.seed E method methodHash),
           pool := { p with
             m_drawObjectPointer := mapAssign p.m_drawObjectPointer stateHash p.m_objects.length,
             m_objects := p.m_objects ++
               [⟨state, DrawMode.TRIANGLES, [], some (allocId heap drawBuffer)⟩] } }

/-- The test of the occlusion scan (pool.cpp lines 113 and 114) for one
pending method `prevMtd` against the new method `methodT`; no result when a
null texture is dereferenced. -/
def occludes (sameState : Bool) (stateTexture prevTexture : Option Texture)
    (prevMtd methodT : DrawTextureRect) : Option Bool :=
  if prevMtd.m_destP = methodT.m_destP then
    if sameState && decide (prevMtd.m_src = methodT.m_src) then some true
    else
      match stateTexture with
      | none => none
      | some t =>
        if t.isOpaque then
          match prevTexture with
          | none => none
          | some pt => some pt.canSuperimposed
        else some false
  else some false

/-- The occlusion scan (pool.cpp lines 111 to 119): the pending methods with
the first occluded one erased; no result when a pending method is not a
`DrawTextureRect` (invalid downcast) or a null texture is dereferenced. -/
def eraseOccluded (sameState : Bool) (stateTexture prevTexture : Option Texture)
    (methodT : DrawTextureRect) : List DrawMethod → Option (List DrawMethod)
  | [] => some []
  | itm :: rest =>
    match itm.rect with
    | none => none
    | some prevMtd =>
      match occludes sameState stateTexture prevTexture prevMtd methodT with
      | none => none
      | some true => some rest
      | some false => (eraseOccluded sameState stateTexture prevTexture methodT rest).map
          fun l => itm :: l

/-- The scan of the last draw object that a method with reference point
triggers (pool.cpp lines 107 to 120): its pending methods afterwards. -/
def scanPending (prevObj : DrawObject) (state : PainterState) (method : DrawMethod) :
    Option (List DrawMethod) :=
  if method.hasRefPoint then
    match method.rect with
    | none => none
    | some methodT =>
      eraseOccluded (prevObj.state.same state) state.texture prevObj.state.texture methodT
        prevObj.drawMethods
  else some prevObj.drawMethods

/-- The ungrouped path of `Pool::add` (pool.cpp lines 102 to 129): the list
of draw objects afterwards. -/
def addUngrouped (list : List DrawObject) (state : PainterState) (method : DrawMethod)
    (drawMode : DrawMode) : Option (List DrawObject) :=
  match list.getLast? with
  | none => some (list ++ [⟨state, drawMode, [method], none⟩])
  | some prevObj =>
    match scanPending prevObj state method with
    | none => none
    | some methods =>
      if prevObj.state.same state then
        some (list.dropLast ++
          [{ prevObj with drawMode := DrawMode.TRIANGLES, drawMethods := methods ++ [method] }])
      else
        some (list.dropLast ++ [{ prevObj with drawMethods := methods }] ++
          [⟨state, drawMode, [method], none⟩])

/-- The snapshot `Pool::add` builds from the ambient state, the painter's
transform matrix and the colour and texture of the call. -/
def Pool.snapshot (p : Pool) (transformMatrix : Matrix3) (color : Color)
    (texture : Option Texture) : PainterState :=
  { transformMatrix := transformMatrix, color := color, opacity := p.m_state.opacity,
    compositionMode := p.m_state.compositionMode, blendEquation := p.m_state.blendEquation,
    clipRect := p.m_state.clipRect, texture := texture,
    shaderProgram := p.m_state.shaderProgram, action := none }

/-- The body of `Pool::add` after the hashes are computed (pool.cpp lines 62
to 129): `p` is the pool after `updateHash`, `state` the snapshot. -/
def addBody (E : Ext) (heap : List DrawBuffer) (p : Pool) (state : PainterState)
    (stateHash methodHash : Nat) (method : DrawMethod) (drawMode : DrawMode)
    (drawBuffer : Option Nat) : Option World :=
  if p.m_forceGrouping || drawBuffer.isSome then
    match mapFind p.m_drawObjectPointer stateHash with
    | some idx =>
      (addFound E heap p.m_objects idx method methodHash).map fun heap1 =>
        { heap := heap1, pool := p }
    | none => addNew E heap p state stateHash method methodHash drawBuffer
  else
    (addUngrouped p.m_objects state method drawMode).map fun list =>
      { heap := heap, pool := { p with m_objects := list } }

/-- The head of `Pool::add` (pool.cpp lines 50 to 60): the auto-update flag
is raised when a shader is bound, then `updateHash` runs on zeroed
accumulators. -/
def Pool.hashed (E : Ext) (p : Pool) (state : PainterState) (method : DrawMethod) :
    Pool × Nat × Nat :=
  (if state.shaderProgram.isSome then { p with m_autoUpdate := true } else p).updateHash
    E state method 0 0

/-- The member `Pool::add`. `transformMatrix` is what
`g_painter->getTransformMatrixRef()` returns at the call; `drawBuffer` is the
optional shared pointer, an index into the heap. -/
def add (E : Ext) (w : World) (transformMatrix : Matrix3) (color : Color)
    (texture : Option Texture) (method : DrawMethod) (drawMode : DrawMode)
    (drawBuffer : Option Nat) : Option World :=
  addBody E w.heap
    (w.pool.hashed E (w.pool.snapshot transformMatrix color texture) method).1
    (w.pool.snapshot transformMatrix color texture)
    (w.pool.hashed E (w.pool.snapshot transformMatrix color texture) method).2.1
    (w.pool.hashed E (w.pool.snapshot transformMatrix color texture) method).2.2
    method drawMode drawBuffer

/-! ## Sequences of calls -/

/-- The arguments of one call of `Pool::add`, with the transform matrix the
painter holds at the call. -/
structure Call where
  transformMatrix : Matrix3
  color : Color
  texture : Option Texture
  method : DrawMethod
  drawMode : DrawMode
  drawBuffer : Option Nat
  deriving DecidableEq, Repr

/-- One call of `Pool::add`. -/
def addCall (E : Ext) (w : World) (c : Call) : Option World :=
  add E w c.transformMatrix c.color c.texture c.method c.drawMode c.drawBuffer

/-- A sequence of calls of `Pool::add`, in order. -/
def addAll (E : Ext) (w : World) : List Call → Option World
  | [] => some w
  | c :: cs =>
    match addCall E w c with
    | none => none
    | some w1 => addAll E w1 cs

/-- The start of a frame as the orchestrator prepares it: the state-to-index
map cleared (`flush`) and the draw-object list emptied. -/
def beginFrame (w : World) : World :=
  { w with pool := { w.pool.flush with m_objects := [] } }

/-- The snapshot an `add` call takes under the ambient state `st`. -/
def snapshotOf (st : DrawState) (c : Call) : PainterState :=
  { transformMatrix := c.transformMatrix, color := c.color, opacity := st.opacity,
    compositionMode := st.compositionMode, blendEquation := st.blendEquation,
    clipRect := st.clipRect, texture := c.texture,
    shaderProgram := st.shaderProgram, action := none }

/-! ## Grouped calls on one buffer -/

/-- The state hash `add` computes for a call under the ambient state `st`. -/
def Call.key (E : Ext) (st : DrawState) (c : Call) : Nat :=
  stateHashOf E (snapshotOf st c) 0

/-- The method hash `add` computes for a call. -/
def Call.methodHash (E : Ext) (c : Call) : Nat := E.method_updateHash c.method 0

/-- The pool after the head of `add` (pool.cpp lines 50 to 60) for a call:
auto-update raised under a bound shader, both hashes folded into the
accumulated hash. -/
def Pool.afterHash (E : Ext) (p : Pool) (c : Call) : Pool :=
  { p with
    m_autoUpdate := p.m_autoUpdate || p.m_state.shaderProgram.isSome,
    m_status := (p.m_status.1,
      E.hash_union (E.hash_union p.m_status.2 (Call.key E p.m_state c))
        (Call.methodHash E c)) }

/-- The effect on a draw buffer of a run of grouped calls that find its draw
object in the map. -/
def advanceAll (E : Ext) (buffer : DrawBuffer) : List Call → Option DrawBuffer
  | [] => some buffer
  | c :: cs =>
    match buffer.advance E c.method (Call.methodHash E c) with
    | none => none
    | some buffer1 => advanceAll E buffer1 cs

/-- The coordinate store after the methods of the calls have emitted their
geometry into it, in call order. -/
def emitAll (E : Ext) (coords : List Nat) (cs : List Call) : List Nat :=
  cs.foldl (fun g c => E.method_add c.method g) coords

/-! ## Quiet frames and the relation between a frame and its repetition -/

/-- A call was quiet on the heap: no draw buffer was allocated and no valid
draw buffer became invalid. -/
def quietStep (h h1 : List DrawBuffer) : Bool :=
  decide (h1.length = h.length) &&
    (List.range h.length).all fun i =>
      match h[i]?, h1[i]? with
      | some b, some b1 => !b.isValid || b1.isValid
      | _, _ => true

/-- Every call of the run completes and is quiet. -/
def Quiet (E : Ext) : World → List Call → Bool
  | _, [] => true
  | w, c :: cs =>
    match addCall E w c with
    | none => false
    | some w1 => quietStep w.heap w1.heap && Quiet E w1 cs

/-- The draw buffer at heap index `i` is the buffer of a draw object of the
pool. -/
def touched (p : Pool) (i : Nat) : Prop := ∃ o ∈ p.m_objects, o.buffer = some i

/-- The relation between the world `wa` of a first frame and the world `wb`
of its repetition after the same number of calls, `H1` being the heap the
first frame ends with: the pools agree on list, map, ambient state and
grouping flag; every buffer of `wb` has the hashes, geometry and reference
point it has in `H1`; the cursor of a buffer in use by a draw object is the
one in `wa`, where the buffer is valid, and the cursor of any other buffer is
the one in `H1`. -/
def FrameRel (H1 : List DrawBuffer) (wa wb : World) : Prop :=
  wb.pool.m_objects = wa.pool.m_objects ∧
  wb.pool.m_drawObjectPointer = wa.pool.m_drawObjectPointer ∧
  wb.pool.m_state = wa.pool.m_state ∧
  wb.pool.m_forceGrouping = wa.pool.m_forceGrouping ∧
  wa.heap.length = H1.length ∧ wb.heap.length = H1.length ∧
  ∀ i bb, wb.heap[i]? = some bb →
    ∃ b1, H1[i]? = some b1 ∧ bb.m_hashs = b1.m_hashs ∧ bb.m_coords = b1.m_coords ∧
      bb.m_ref = b1.m_ref ∧
      (touched wa.pool i → ∃ ba, wa.heap[i]? = some ba ∧ bb.m_i = ba.m_i ∧ ba.isValid = true) ∧
      (¬ touched wa.pool i → bb.m_i = b1.m_i)

/-- The hashes and geometry of every buffer of a heap. -/
def contents (h : List DrawBuffer) : List (List Nat × Option (List Nat)) :=
  h.map fun b => (b.m_hashs, b.m_coords)

/-! ## Frames with ambient mutations -/

/-- One step of a frame: an ambient mutation (a mutator called with
`pos = -1`) or a call of `add`. -/
inductive Op where
  | setOpacity (opacity : ℚ)
  | setClipRect (clipRect : Rect)
  | setCompositionMode (mode : CompositionMode)
  | setBlendEquation (equation : BlendEquation)
  | setShaderProgram (shaderProgram : Option PainterShaderProgram) (action : Option Nat)
  | add (c : Call)
  deriving DecidableEq, Repr

/-- Runs one step on the pool and its heap. -/
def runOp (E : Ext) (w : World) : Op → Option World
  | Op.setOpacity o => (w.pool.setOpacity E o (-1)).map fun q => { w with pool := q }
  | Op.setClipRect r => (w.pool.setClipRect E r (-1)).map fun q => { w with pool := q }
  | Op.setCompositionMode m =>
    (w.pool.setCompositionMode E m (-1)).map fun q => { w with pool := q }
  | Op.setBlendEquation e => (w.pool.setBlendEquation E e (-1)).map fun q => { w with pool := q }
  | Op.setShaderProgram sh a =>
    (w.pool.setShaderProgram sh (-1) a).map fun q => { w with pool := q }
  | Op.add c => addCall E w c

/-- Runs the steps of a frame in order. -/
def runOps (E : Ext) (w : World) : List Op → Option World
  | [] => some w
  | op :: ops =>
    match runOp E w op with
    | none => none
    | some w1 => runOps E w1 ops

/-- A step that binds no shader: every step but `setShaderProgram` with a
non-null program. -/
def Op.bindsNoShader : Op → Bool
  | Op.setShaderProgram (some _) _ => false
  | _ => true

/-- The ambient state after a step, read off the mutators. -/
def stepState (st : DrawState) : Op → DrawState
  | Op.setOpacity o => { st with opacity := o }
  | Op.setClipRect r => { st with clipRect := r }
  | Op.setCompositionMode m => { st with compositionMode := m }
  | Op.setBlendEquation e => { st with blendEquation := e }
  | Op.setShaderProgram sh a => { st with shaderProgram := sh, action := a }
  | Op.add _ => st

/-- The (state hash, method hash) pairs of the `add` calls of a frame that
starts under the ambient state `st`, in call order. -/
def hashPairs (E : Ext) (st : DrawState) : List Op → List (Nat × Nat)
  | [] => []
  | Op.add c :: ops =>
    (stateHashOf E (snapshotOf st c) 0, E.method_updateHash c.method 0) :: hashPairs E st ops
  | op :: ops => hashPairs E (stepState st op) ops

/-- Folds (state hash, method hash) pairs into an accumulated hash, as
`updateHash` does call after call. -/
def foldPairs (E : Ext) (acc : Nat) (pairs : List (Nat × Nat)) : Nat :=
  pairs.foldl (fun a sm => E.hash_union (E.hash_union a sm.1) sm.2) acc

/-! ## Pending methods of the ungrouped path -/

/-- A texture that occludes what was drawn with it before: opaque and open to
superimposition (the second alternative of the occlusion test, for a call
whose state equals that of the draw object). -/
def coversItself : Option Texture → Bool
  | some t => t.isOpaque && t.canSuperimposed
  | none => false

/-- Two pending textured rectangles of one draw object are apart when the
later one, added under the state of the object, would not have occluded the
earlier one: their destinations differ, or their sources differ and the
texture of the object does not cover itself. -/
def pendingApart (tex : Option Texture) (x y : DrawMethod) : Bool :=
  match x.rect, y.rect with
  | some rx, some ry =>
    !(decide (rx.m_destP = ry.m_destP)) ||
      (!(decide (rx.m_src = ry.m_src)) && !(coversItself tex))
  | _, _ => true

/-- The pending methods of a draw object are pairwise apart. -/
def DrawObject.pendingOk (o : DrawObject) : Prop :=
  o.drawMethods.Pairwise fun x y => pendingApart o.state.texture x y = true

/-- Every draw object of the pool has pairwise apart pending methods: the
invariant of the occlusion scan, true of an empty list and kept by `add`. -/
def Pool.pendingOk (p : Pool) : Prop := ∀ o ∈ p.m_objects, o.pendingOk

/-- The pending methods without the first textured rectangle drawn at
`destP`. -/
def eraseFirstDest (destP : Point) : List DrawMethod → List DrawMethod
  | [] => []
  | x :: rest =>
    if x.rect.map (fun r => r.m_destP) = some destP then rest
    else x :: eraseFirstDest destP rest

/-! ## Sample externals and inputs -/

/-- A concrete choice of the external functions, used to evaluate the
embedding on sample inputs. -/
def sampleExt : Ext where
  hash_union seed h := (seed * 31 + h + 7) % 18446744073709551616
  hash_combine_uint seed v := (seed * 31 + v + 7) % 18446744073709551616
  hash_combine_float seed v := (seed * 31 + v.num.toNat + v.den + 7) % 18446744073709551616
  hash_combine_mode seed m :=
    (seed * 31 + (match m with
      | CompositionMode.NORMAL => 0
      | CompositionMode.MULTIPLY => 1
      | CompositionMode.ADD => 2
      | CompositionMode.REPLACE => 3
      | CompositionMode.DESTINATION_BLENDING => 4
      | CompositionMode.LIGHT => 5) + 7) % 18446744073709551616
  hash_combine_blend seed e :=
    (seed * 31 + (match e with
      | BlendEquation.ADD => 0
      | BlendEquation.MAX => 1
      | BlendEquation.MIN => 2
      | BlendEquation.SUBTRACT => 3
      | BlendEquation.REVER_SUBTRACT => 4) + 7) % 18446744073709551616
  rect_isValid r := decide (r.x1 ≤ r.x2) && decide (r.y1 ≤ r.y2)
  rect_hash r := (r.x1.toNat * 31 + r.y1.toNat) * 31 + r.x2.toNat + r.y2.toNat
  matrix_hash m := m.cells.length
  DEFAULT_MATRIX_3 := ⟨[1, 0, 0, 0, 1, 0, 0, 0, 1]⟩
  method_updateHash m h := (h * 31 + m.payload + 7) % 18446744073709551616
  method_add m coords := coords ++ [m.payload]

/-- The identity transform, the default matrix of `sampleExt`. -/
def identityMatrix : Matrix3 := ⟨[1, 0, 0, 0, 1, 0, 0, 0, 1]⟩

/-- A glyph-like draw method without reference point: address and payload. -/
def glyph (addr payload : Nat) : DrawMethod := ⟨addr, payload, none⟩

/-- A textured-rectangle draw method with reference point. -/
def texRect (addr payload : Nat) (destP : Point) (src : Rect) : DrawMethod :=
  ⟨addr, payload, some ⟨destP, src⟩⟩

/-- A call of `add` with the identity transform, white colour, no texture
and the default draw mode. -/
def plainCall (method : DrawMethod) (drawBuffer : Option Nat) : Call :=
  ⟨identityMatrix, Color.white, none, method, DrawMode.TRIANGLES, drawBuffer⟩

/-- A call of `add` of a textured rectangle with its texture. -/
def texCall (texture : Texture) (method : DrawMethod) : Call :=
  ⟨identityMatrix, Color.white, some texture, method, DrawMode.TRIANGLES, none⟩

/-- A sample frame: ambient mutations and three `add` calls. -/
def sampleOps : List Op :=
  [Op.setOpacity 0,
   Op.add (texCall ⟨7, 70, false, true, true⟩ (texRect 1 11 ⟨0, 0⟩ ⟨0, 0, 31, 31⟩)),
   Op.setShaderProgram none none,
   Op.setClipRect ⟨0, 0, 9, 9⟩,
   Op.add (plainCall (glyph 2 65) none),
   Op.setCompositionMode CompositionMode.MULTIPLY,
   Op.add (plainCall (glyph 3 66) (some 0))]

/-- A MAP pool with one caller-owned draw buffer on the heap. -/
def sampleMapWorld : World := ⟨[DrawBuffer.create], Pool.create 0 PoolType.MAP⟩

/-- The world after the sample frame has run once on the reset MAP pool. -/
def sampleFrame1 : World :=
  (runOps sampleExt { sampleMapWorld with pool := sampleMapWorld.pool.resetState }
    sampleOps).getD sampleMapWorld

/-- The world after `hasModification(true)`, `resetState` and the sample
frame a second time. -/
def sampleFrame2 : World :=
  (runOps sampleExt
    { sampleFrame1 with pool := (sampleFrame1.pool.hasModification 10 true).2.resetState }
    sampleOps).getD sampleMapWorld

/-- An opaque texture. -/
def opaqueTexture : Texture := ⟨7, 70, false, true, false⟩

/-- A translucent texture that can be superimposed. -/
def glassTexture : Texture := ⟨8, 80, false, false, true⟩

/-- An empty MAP pool (no forced grouping) with an empty heap. -/
def emptyMapWorld : World := ⟨[], Pool.create 0 PoolType.MAP⟩

/-- Two textured rectangles with one destination and one source, allocated
separately. -/
def tileA : DrawMethod := texRect 1 11 ⟨32, 32⟩ ⟨0, 0, 31, 31⟩

/-- The second of the two equal textured rectangles. -/
def tileB : DrawMethod := texRect 2 11 ⟨32, 32⟩ ⟨0, 0, 31, 31⟩

/-- The MAP world after `tileA` was added with the glass texture. -/
def mapAfterTileA : World :=
  (addCall sampleExt emptyMapWorld (texCall glassTexture tileA)).getD emptyMapWorld

/-- The MAP world after `tileA` and then `tileB` were added with the glass
texture. -/
def mapAfterTileB : World :=
  (addCall sampleExt mapAfterTileA (texCall glassTexture tileB)).getD emptyMapWorld

/-- Three textured rectangles with one destination and three sources. -/
def tileX : DrawMethod := texRect 3 12 ⟨32, 32⟩ ⟨32, 0, 63, 31⟩

/-- The second of the three rectangles, drawn like the first with the glass
texture. -/
def tileG : DrawMethod := texRect 4 13 ⟨32, 32⟩ ⟨64, 0, 95, 31⟩

/-- The third of the three rectangles, drawn with the opaque texture. -/
def tileO : DrawMethod := texRect 5 14 ⟨32, 32⟩ ⟨0, 32, 31, 63⟩

/-- The MAP world after `tileA` (glass texture) and then `tileO` (opaque
texture) were added. -/
def mapAfterTileO : World :=
  (addCall sampleExt mapAfterTileA (texCall opaqueTexture tileO)).getD emptyMapWorld

/-- Four glyph draws, supplied with the caller-owned draw buffer at heap
index 0. -/
def callA : Call := plainCall (glyph 10 65) (some 0)

/-- The glyph B on buffer 0. -/
def callB : Call := plainCall (glyph 11 66) (some 0)

/-- The glyph C on buffer 0. -/
def callC : Call := plainCall (glyph 12 67) (some 0)

/-- The glyph X on buffer 0. -/
def callX : Call := plainCall (glyph 13 88) (some 0)

/-- A TEXT pool (forced grouping) and a heap with one caller-owned, newly
created draw buffer. -/
def textWorld : World := ⟨[DrawBuffer.create], Pool.create 0 PoolType.TEXT⟩

/-- The TEXT world after a first frame has drawn A, B, C on buffer 0. -/
def textAfterABC : World :=
  (addAll sampleExt textWorld [callA, callB, callC]).getD textWorld

/-- The draw buffer the frame A, B, C records: cursor 2, the three method
hashes, the three geometry chunks. -/
def bufferABC : DrawBuffer := ⟨2, ⟨0, 0⟩, [72, 73, 74], some [65, 66, 67]⟩

/-- A TEXT pool (forced grouping) with an empty heap: no caller-owned
buffer. -/
def textWorldNoBuffer : World := ⟨[], Pool.create 0 PoolType.TEXT⟩

/-- The glyph A drawn without a supplied buffer. -/
def callA0 : Call := plainCall (glyph 10 65) none

/-- The glyph B drawn without a supplied buffer. -/
def callB0 : Call := plainCall (glyph 11 66) none

/-- The TEXT world after a first frame has drawn A, B without supplied
buffer. -/
def textAfterAB0 : World :=
  (addAll sampleExt textWorldNoBuffer [callA0, callB0]).getD textWorldNoBuffer

/-! ## Reference definition of the state hash -/

/-- The contributions to the state hash, following the wording of the
specification: one entry for every member of the snapshot that differs from
its default, in the order blend equation, clip rect, colour, composition
mode, opacity, shader program id, texture identity, transform matrix.
`opacityCounts` is the test that makes an opacity non-default; the identity
of a texture is its id, or its unique id when the texture is empty. -/
def stateContributions (E : Ext) (opacityCounts : ℚ → Bool) (s : PainterState) :
    List (Nat → Nat) :=
  (if s.blendEquation ≠ BlendEquation.ADD
    then [fun h => E.hash_combine_blend h s.blendEquation] else []) ++
  (if E.rect_isValid s.clipRect = true
    then [fun h => E.hash_union h (E.rect_hash s.clipRect)] else []) ++
  (if s.color ≠ Color.white then [fun h => E.hash_combine_uint h s.color.rgba] else []) ++
  (if s.compositionMode ≠ CompositionMode.NORMAL
    then [fun h => E.hash_combine_mode h s.compositionMode] else []) ++
  (if opacityCounts s.opacity = true
    then [fun h => E.hash_combine_float h s.opacity] else []) ++
  (match s.shaderProgram with
    | some sh => [fun h => E.hash_combine_uint h sh.programId]
    | none => []) ++
  (match s.texture with
    | some t => [fun h => E.hash_combine_uint h (if t.isEmpty = true then t.uniqueId else t.id)]
    | none => []) ++
  (if s.transformMatrix ≠ E.DEFAULT_MATRIX_3
    then [fun h => E.hash_union h (E.matrix_hash s.transformMatrix)] else [])

/-- The state hash as the specification words it: every opacity different
from 1 contributes. -/
def stateHashSpec (E : Ext) (s : PainterState) : Nat :=
  (stateContributions E (fun o => decide (o ≠ 1)) s).foldl (fun h f => f h) 0

/-- The reference state hash: the opacity contributes when it is below 1. -/
def stateHashRef (E : Ext) (s : PainterState) : Nat :=
  (stateContributions E (fun o => decide (o < 1)) s).foldl (fun h f => f h) 0

/-- The snapshot with every member at its default, for the externals `E`. -/
def defaultSnapshot (E : Ext) : PainterState :=
  { transformMatrix := E.DEFAULT_MATRIX_3, color := Color.white, opacity := 1,
    compositionMode := CompositionMode.NORMAL, blendEquation := BlendEquation.ADD,
    clipRect := Rect.empty, texture := none, shaderProgram := none, action := none }

/-- A shader program. -/
def sampleShader : PainterShaderProgram := ⟨5⟩

/-- The draw object that holds `tileA` after it was added with the glass
texture to the empty MAP pool. -/
def tileAObject : DrawObject :=
  ⟨emptyMapWorld.pool.snapshot identityMatrix Color.white (some glassTexture),
    DrawMode.TRIANGLES, [tileA], none⟩

/-- A textured rectangle at another destination, drawn with the opaque
texture. -/
def tileFar : DrawMethod := texRect 6 15 ⟨64, 64⟩ ⟨0, 0, 31, 31⟩

/-- The MAP world after `tileA` (glass texture) and then `tileFar` (opaque
texture, another destination) were added. -/
def mapAfterTileFar : World :=
  (addCall sampleExt mapAfterTileA (texCall opaqueTexture tileFar)).getD emptyMapWorld

/-- A TEXT pool with one caller-owned draw buffer that was invalidated after
it had recorded the frame A, B, C. -/
def invalidatedWorld : World := ⟨[bufferABC.invalidate], Pool.create 0 PoolType.TEXT⟩

/-- The world after the frame A, B, C has run on the invalidated buffer. -/
def regeneratedWorld : World :=
  (addAll sampleExt invalidatedWorld [callA, callB, callC]).getD invalidatedWorld

/-- The glyph C drawn without a supplied buffer. -/
def callC0 : Call := plainCall (glyph 12 67) none

/-! ## Grouped draw objects and their state hashes -/

/-- The distinct values of a sequence, in order of first occurrence. -/
def firstOccurrences : List Nat → List Nat
  | [] => []
  | k :: ks => k :: (firstOccurrences ks).filter fun x => decide (x ≠ k)

/-- The state hashes that have an object after one more is seen: a hash
without object gets one at the end. -/
def noteKey (K : List Nat) (k : Nat) : List Nat := if k ∈ K then K else K ++ [k]

/-- The state hash of a draw object: the hash `updateHash` computes from its
state snapshot. -/
def DrawObject.key (E : Ext) (o : DrawObject) : Nat := stateHashOf E o.state 0

/-- A grouped frame with two state hashes: glyphs (no texture) and tiles
(glass texture), interleaved, none with a supplied buffer. -/
def mixedCalls : List Call :=
  [callA0, texCall glassTexture tileA, callB0, texCall glassTexture tileB, callC0]

/-- The TEXT world after the mixed frame. -/
def textAfterMixed : World :=
  (addAll sampleExt textWorldNoBuffer mixedCalls).getD textWorldNoBuffer

/-! ## Histories of a pool -/

/-- One operation of a client on a pool and on the draw buffers around it: a
caller allocates a draw buffer (`std::make_shared<DrawBuffer>()`), calls
`validate` on the buffer at a heap index, or calls a member of the pool. -/
inductive Event where
  | newBuffer
  | validate (b : Nat) (p : Point)
  | add (c : Call)
  | setOpacity (opacity : ℚ) (pos : Int)
  | setClipRect (clipRect : Rect) (pos : Int)
  | setCompositionMode (mode : CompositionMode) (pos : Int)
  | setBlendEquation (equation : BlendEquation) (pos : Int)
  | setShaderProgram (shaderProgram : Option PainterShaderProgram) (pos : Int)
      (action : Option Nat)
  | resetState
  | flush
  | hasModification (now : Int) (autoUpdateStatus : Bool)
  deriving DecidableEq, Repr

/-- Runs one operation; no result when the operation has undefined behaviour
(a mutator with a position outside the draw-object list, `validate` on a
heap index without buffer, an `add` without result). -/
def perform (E : Ext) (w : World) : Event → Option World
  | Event.newBuffer => some { w with heap := w.heap ++ [DrawBuffer.create] }
  | Event.validate b p =>
    match w.heap[b]? with
    | none => none
    | some buffer => some { w with heap := w.heap.set b (buffer.validate p).2 }
  | Event.add c => addCall E w c
  | Event.setOpacity o pos => (w.pool.setOpacity E o pos).map fun q => { w with pool := q }
  | Event.setClipRect r pos => (w.pool.setClipRect E r pos).map fun q => { w with pool := q }
  | Event.setCompositionMode m pos =>
    (w.pool.setCompositionMode E m pos).map fun q => { w with pool := q }
  | Event.setBlendEquation e pos =>
    (w.pool.setBlendEquation E e pos).map fun q => { w with pool := q }
  | Event.setShaderProgram sh pos a =>
    (w.pool.setShaderProgram sh pos a).map fun q => { w with pool := q }
  | Event.resetState => some { w with pool := w.pool.resetState }
  | Event.flush => some { w with pool := w.pool.flush }
  | Event.hasModification now a => some { w with pool := (w.pool.hasModification now a).2 }

/-- Runs a history of operations in order. -/
def performAll (E : Ext) (w : World) : List Event → Option World
  | [] => some w
  | ev :: evs =>
    match perform E w ev with
    | none => none
    | some w1 => performAll E w1 evs

/-- The cursor of a draw buffer is inside its recorded hashes when the buffer
is valid. -/
def DrawBuffer.cursorOk (b : DrawBuffer) : Prop :=
  b.isValid = true → 0 ≤ b.m_i ∧ b.m_i < (b.m_hashs.length : Int)

/-- Every index stored in the state-to-index map is inside the draw-object
list and designates an object with a draw buffer whose cursor is inside its
recorded hashes when the buffer is valid. -/
def IndexSafe (w : World) : Prop :=
  ∀ k idx, mapFind w.pool.m_drawObjectPointer k = some idx →
    ∃ obj b buf, w.pool.m_objects[idx]? = some obj ∧ obj.buffer = some b ∧
      w.heap[b]? = some buf ∧ buf.cursorOk

/-- The second pool has the map of the first and, at every index of the
first, a draw object with the same buffer. -/
def Pool.keepsShape (p q : Pool) : Prop :=
  q.m_drawObjectPointer = p.m_drawObjectPointer ∧
  ∀ (i : Nat) (obj : DrawObject), p.m_objects[i]? = some obj →
    ∃ obj1 : DrawObject, q.m_objects[i]? = some obj1 ∧ obj1.buffer = obj.buffer

/-- A history on a TEXT pool: a caller allocates a buffer, draws A and B on
it, binds an opacity to the first draw object, validates the buffer at its
reference point, asks for modifications and draws C. -/
def sampleHistory : List Event :=
  [Event.newBuffer, Event.add callA, Event.add callB, Event.setOpacity 0 1,
   Event.validate 0 ⟨0, 0⟩, Event.hasModification 5 true, Event.add callC]

/-- The world after the sample history. -/
def textAfterHistory : World :=
  (performAll sampleExt textWorldNoBuffer sampleHistory).getD textWorldNoBuffer

/-! ## Pending methods of the ungrouped path -/

/-- The pending methods of a draw-object list, object after object. -/
def pendingMethods : List DrawObject → List DrawMethod
  | [] => []
  | o :: os => o.drawMethods ++ pendingMethods os

/-- No draw object has the state of its successor, by the comparison
`prevObj.state == state` of the ungrouped path. -/
def noMergeable (l : List DrawObject) : Prop :=
  List.Chain' (fun a b => a.state.same b.state = false) l

/-- An ungrouped frame on a MAP pool: two equal tiles, a third one, a change
of the ambient opacity, and two more. -/
def ungroupedOps : List Op :=
  [Op.add (texCall glassTexture tileA), Op.add (texCall glassTexture tileB),
   Op.add (texCall glassTexture tileX), Op.setOpacity 0,
   Op.add (texCall glassTexture tileG), Op.add (texCall opaqueTexture tileO)]

/-- The MAP world after the ungrouped frame. -/
def mapAfterUngrouped : World :=
  (runOps sampleExt emptyMapWorld ungroupedOps).getD emptyMapWorld

/-! ## Invalid draw buffers -/

/-- An invalid draw buffer has no recorded hashes. -/
def DrawBuffer.tidy (b : DrawBuffer) : Prop := b.isValid = false → b.m_hashs = []

/-- A history on a TEXT pool in which a draw buffer is invalidated twice: by
`validate` at another reference point after the glyphs A and B, and, after a
flush and the glyphs A, B again, by the glyph X where B was recorded. -/
def invalidatingHistory : List Event :=
  [Event.newBuffer, Event.add callA, Event.add callB, Event.validate 0 ⟨3, 4⟩,
   Event.flush, Event.add callA, Event.add callB, Event.flush, Event.add callA,
   Event.add callX]

/-- The world after the invalidating history. -/
def textAfterInvalidating : World :=
  (performAll sampleExt textWorldNoBuffer invalidatingHistory).getD textWorldNoBuffer

/-! ## houses.cpp -/

/-- Modelled from the spec: an item as far as `House::addDoor` uses it (the
class `Item` is declared outside the sources): the identity of the object a
shared pointer refers to, and the door id that `setDoorId` stores and
`getDoorId` returns. -/
structure Item where
  addr : Nat
  m_doorId : Nat
  deriving DecidableEq, Repr

/-- The accessor `getDoorId`. -/
def Item.getDoorId (i : Item) : Nat := i.m_doorId

/-- The accessor `setDoorId`. -/
def Item.setDoorId (i : Item) (doorId : Nat) : Item := { i with m_doorId := doorId }

/-- Modelled from the spec: a house as far as houses.cpp uses it (the class
`House` is declared in houses.h, outside the sources): the identity of the
object, its id (`getId`), the door map `m_doors` from door id to item pointer
(the address of the item, `none` for `nullptr`) and the `uint32_t` counter
`m_lastDoorId`. -/
structure House where
  addr : Nat
  id : Nat
  m_doors : List (Nat × Option Nat)
  m_lastDoorId : Nat
  deriving DecidableEq, Repr

/-- The accessor `getId`. -/
def House.getId (h : House) : Nat := h.id

/-- The number of values of a `uint32_t`. -/
def UINT32_SIZE : Nat := 4294967296

/-- Lookup in the door map: `none` when the key has no entry, `some none` for
an entry holding `nullptr`. -/
def doorFind (m : List (Nat × Option Nat)) (key : Nat) : Option (Option Nat) :=
  match m with
  | [] => none
  | (k, v) :: rest => if k = key then some v else doorFind rest key

/-- Assignment in the door map (`m_doors[key] = value`). -/
def doorAssign (m : List (Nat × Option Nat)) (key : Nat) (value : Option Nat) :
    List (Nat × Option Nat) :=
  (key, value) :: m.filter fun kv => decide (kv.1 ≠ key)

/-- The member `House::addDoor` (houses.cpp lines 54 to 59): the house and the
door afterwards. A null door changes nothing; otherwise the door gets the
counter as id (`setDoorId(m_lastDoorId)`) and is stored under the incremented
counter (`m_doors[++m_lastDoorId]`). -/
def House.addDoor (h : House) (door : Option Item) : House × Option Item :=
  match door with
  | none => (h, none)
  | some d =>
    ({ h with
        m_doors := doorAssign h.m_doors ((h.m_lastDoorId + 1) % UINT32_SIZE) (some d.addr),
        m_lastDoorId := (h.m_lastDoorId + 1) % UINT32_SIZE },
     some (d.setDoorId h.m_lastDoorId))

/-- The member `House::removeDoorById` (houses.cpp lines 61 to 67): no result
when the exception is thrown. -/
def House.removeDoorById (h : House) (doorId : Nat) : Option House :=
  if doorId ≥ h.m_lastDoorId then none
  else some { h with m_doors := doorAssign h.m_doors doorId none }

/-- The member list of a `HouseManager`: `m_houses`, a list of pointers to
houses. A list element stands for a non-null pointer: the only insertion,
`addHouse`, dereferences the pointer first. -/
structure HouseManager where
  m_houses : List House
  deriving DecidableEq, Repr

/-- The search `std::find_if` of `findHouse` on a list: the position of the
first house with the id, `none` for `end()`. -/
def findHouseIn : List House → Nat → Option Nat
  | [], _ => none
  | h :: rest, houseId =>
    if h.getId = houseId then some 0 else (findHouseIn rest houseId).map fun i => i + 1

/-- The member `HouseManager::findHouse` (houses.cpp lines 196 to 200). -/
def HouseManager.findHouse (m : HouseManager) (houseId : Nat) : Option Nat :=
  findHouseIn m.m_houses houseId

/-- The member `HouseManager::addHouse` (houses.cpp lines 107 to 111): no
result when the pointer is null (`house->getId()`). -/
def HouseManager.addHouse (m : HouseManager) (house : Option House) : Option HouseManager :=
  match house with
  | none => none
  | some h =>
    if m.findHouse h.getId = none then some { m with m_houses := m.m_houses ++ [h] }
    else some m

/-- The member `HouseManager::removeHouse` (houses.cpp lines 113 to 118). -/
def HouseManager.removeHouse (m : HouseManager) (houseId : Nat) : HouseManager :=
  match m.findHouse houseId with
  | some i => { m with m_houses := m.m_houses.eraseIdx i }
  | none => m

/-- The member `HouseManager::getHouse` (houses.cpp lines 120 to 124): `none`
for `nullptr`. -/
def HouseManager.getHouse (m : HouseManager) (houseId : Nat) : Option House :=
  match m.findHouse houseId with
  | some i => m.m_houses[i]?
  | none => none

/-- A call on a house manager. -/
inductive HouseOp where
  | addHouse (house : Option House)
  | removeHouse (houseId : Nat)
  deriving DecidableEq, Repr

/-- Runs one call on a house manager. -/
def runHouseOp (m : HouseManager) : HouseOp → Option HouseManager
  | HouseOp.addHouse house => m.addHouse house
  | HouseOp.removeHouse houseId => some (m.removeHouse houseId)

/-- Runs a sequence of calls on a house manager, in order. -/
def runHouseOps (m : HouseManager) : List HouseOp → Option HouseManager
  | [] => some m
  | op :: ops =>
    match runHouseOp m op with
    | none => none
    | some m1 => runHouseOps m1 ops

/-- A house without doors. -/
def plainHouse (addr id : Nat) : House := ⟨addr, id, [], 0⟩

/-- A sequence of calls: three houses, a fourth with the id of the first, the
second removed, a house with the id of the second. -/
def sampleHouseOps : List HouseOp :=
  [HouseOp.addHouse (some (plainHouse 1 10)), HouseOp.addHouse (some (plainHouse 2 20)),
   HouseOp.addHouse (some (plainHouse 3 30)), HouseOp.addHouse (some (plainHouse 4 10)),
   HouseOp.removeHouse 20, HouseOp.addHouse (some (plainHouse 5 20))]

/-- The house manager after the sample sequence. -/
def sampleHouses : HouseManager := ⟨[plainHouse 1 10, plainHouse 3 30, plainHouse 5 20]⟩

/-- A door that no house holds yet. -/
def sampleDoor : Item := ⟨77, 0⟩

/-- A second door that no house holds yet. -/
def otherDoor : Item := ⟨78, 0⟩

/-- The house 10 after `addDoor` of the sample door. -/
def houseWithDoor : House := ((plainHouse 1 10).addDoor (some sampleDoor)).1

/-- The house 10 after `addDoor` of the sample door and then of the other
door. -/
def houseWithTwoDoors : House := (houseWithDoor.addDoor (some otherDoor)).1

/-! ## Theorems -/

/-! ### Change detection -/

/-- The flag `hasModification` returns, as an expression of the pool. -/
theorem hasModification_fst (now : Int) (p : Pool) (autoUpdateStatus : Bool) :
    (p.hasModification now autoUpdateStatus).1 =
      (decide (p.m_status.1 ≠ p.m_status.2) ||
        (p.m_autoUpdate && decide (p.m_refreshTime.ticksElapsed now > 50))) := by
  simp only [Pool.hasModification]
  split <;> rfl

/-- The pool `hasModification` leaves, by the returned flag and the argument. -/
theorem hasModification_snd (now : Int) (p : Pool) (autoUpdateStatus : Bool) :
    (p.hasModification now autoUpdateStatus).2 =
      if ((p.hasModification now autoUpdateStatus).1 && autoUpdateStatus) = true
      then p.updateStatus now else p := by
  rw [hasModification_fst]
  simp only [Pool.hasModification]
  split <;> rfl

/-- C1: for every pool state, clock reading and value of `autoUpdateStatus`,
`hasModification` returns true exactly when the committed hash differs from
the accumulated hash, or auto-update is set and more than 50 ticks have
elapsed on the refresh timer; with equal hashes and exactly 50 elapsed ticks
it returns false, whatever the auto-update flag. -/
theorem hasModification_iff (now : Int) (p : Pool) (autoUpdateStatus : Bool) :
    ((p.hasModification now autoUpdateStatus).1 = true ↔
      (p.m_status.1 ≠ p.m_status.2 ∨
        (p.m_autoUpdate = true ∧ p.m_refreshTime.ticksElapsed now > 50))) ∧
    (∀ h : Nat,
      (({ p with m_status := (h, h), m_refreshTime := ⟨now - 50⟩ } : Pool).hasModification
        now autoUpdateStatus).1 = false) := by
  constructor
  · rw [hasModification_fst]
    simp [Bool.or_eq_true, Bool.and_eq_true]
  · intro h
    rw [hasModification_fst]
    simp [Timer.ticksElapsed]

/-- C2: `hasModification` commits exactly when it returns true and was called
with `autoUpdateStatus = true`: then only the committed hash and the refresh
timer change, the committed hash becomes the accumulated one and the timer
shows 0 elapsed ticks; in every other case the pool is unchanged. After any
call with `autoUpdateStatus = true` the two hashes are equal. -/
theorem hasModification_commit (now : Int) (p : Pool) (autoUpdateStatus : Bool) :
    (((p.hasModification now autoUpdateStatus).1 = true ∧ autoUpdateStatus = true) →
      (p.hasModification now autoUpdateStatus).2 =
          { p with m_status := (p.m_status.2, p.m_status.2), m_refreshTime := ⟨now⟩ } ∧
        (p.hasModification now autoUpdateStatus).2.m_status.1 = p.m_status.2 ∧
        (p.hasModification now autoUpdateStatus).2.m_status.2 = p.m_status.2 ∧
        (p.hasModification now autoUpdateStatus).2.m_refreshTime.ticksElapsed now = 0) ∧
    (¬ ((p.hasModification now autoUpdateStatus).1 = true ∧ autoUpdateStatus = true) →
      (p.hasModification now autoUpdateStatus).2 = p) ∧
    ((p.hasModification now true).2.m_status.1 = (p.hasModification now true).2.m_status.2) := by
  refine ⟨?_, ?_, ?_⟩
  · rintro ⟨h1, h2⟩
    rw [hasModification_snd, h1, h2]
    simp [Pool.updateStatus, Timer.restart, Timer.ticksElapsed]
  · intro h
    rw [hasModification_snd]
    have hc : ¬ ((p.hasModification now autoUpdateStatus).1 && autoUpdateStatus) = true := by
      simpa [Bool.and_eq_true] using h
    rw [if_neg hc]
  · rw [hasModification_snd]
    by_cases hc : (p.hasModification now true).1 = true
    · simp [hc, Pool.updateStatus]
    · have hf : (p.hasModification now true).1 = false := by simpa using hc
      rw [hf]
      rw [hasModification_fst] at hf
      simp only [Bool.or_eq_false_iff, decide_eq_false_iff_not, not_not] at hf
      simpa using hf.1

/-! ### Reset -/

/-- C3: after `resetState` the ambient opacity is 1, the ambient clip rect is
the empty rect, the composition mode is NORMAL, the blend equation is ADD,
the shader binding is null, auto-update is false, the accumulated hash is 0
and the state-to-index map is empty, while the draw-object list (objects,
states, pending methods, buffer references) and the committed hash are those
before the call. The operation takes no heap, so no buffer is touched. -/
theorem resetState_effect (p : Pool) :
    p.resetState.m_state.opacity = 1 ∧
    p.resetState.m_state.clipRect = Rect.empty ∧
    p.resetState.m_state.compositionMode = CompositionMode.NORMAL ∧
    p.resetState.m_state.blendEquation = BlendEquation.ADD ∧
    p.resetState.m_state.shaderProgram = none ∧
    p.resetState.m_autoUpdate = false ∧
    p.resetState.m_status.2 = 0 ∧
    p.resetState.m_drawObjectPointer = [] ∧
    p.resetState.m_objects = p.m_objects ∧
    p.resetState.m_status.1 = p.m_status.1 :=
  ⟨rfl, rfl, rfl, rfl, rfl, rfl, rfl, rfl, rfl, rfl⟩

/-! ### Factory -/

/-- C10: for every pool type `t`, `create(t)` returns a pool of type `t`; it
is a framed pool (`hasFrameBuffer` true, `toPoolFramed` non-null) exactly
when `t` is MAP, LIGHT or FOREGROUND; its force-grouping flag is set exactly
when `t` is LIGHT or not a framed type, that is, it is clear exactly for MAP
and FOREGROUND. -/
theorem create_flavor (now : Int) (t : PoolType) :
    (Pool.create now t).getType = t ∧
    ((Pool.create now t).hasFrameBuffer = true ↔
      (t = PoolType.MAP ∨ t = PoolType.LIGHT ∨ t = PoolType.FOREGROUND)) ∧
    ((Pool.create now t).toPoolFramed ≠ none ↔
      (t = PoolType.MAP ∨ t = PoolType.LIGHT ∨ t = PoolType.FOREGROUND)) ∧
    ((Pool.create now t).m_forceGrouping = true ↔
      (t = PoolType.LIGHT ∨
        ¬ (t = PoolType.MAP ∨ t = PoolType.LIGHT ∨ t = PoolType.FOREGROUND))) ∧
    ((Pool.create now t).m_forceGrouping = false ↔
      (t = PoolType.MAP ∨ t = PoolType.FOREGROUND)) := by
  cases t <;>
    simp [Pool.create, Pool.getType, Pool.hasFrameBuffer, Pool.toPoolFramed, PoolFramed.new,
      Pool.new]

/-! ### Hash accumulation -/

/-- What `updateHash` at the head of `add` returns and leaves in the pool. -/
theorem hashed_eq (E : Ext) (p : Pool) (state : PainterState) (method : DrawMethod) :
    p.hashed E state method =
      ({ p with
          m_autoUpdate := p.m_autoUpdate || state.shaderProgram.isSome,
          m_status := (p.m_status.1,
            E.hash_union (E.hash_union p.m_status.2 (stateHashOf E state 0))
              (E.method_updateHash method 0)) },
        stateHashOf E state 0, E.method_updateHash method 0) := by
  unfold Pool.hashed Pool.updateHash
  cases hs : state.shaderProgram.isSome <;> simp

/-- The body of `add` changes the draw-object list and the map only. -/
theorem addBody_frame (E : Ext) (heap : List DrawBuffer) (p : Pool) (state : PainterState)
    (stateHash methodHash : Nat) (method : DrawMethod) (drawMode : DrawMode)
    (drawBuffer : Option Nat) (w1 : World)
    (h : addBody E heap p state stateHash methodHash method drawMode drawBuffer = some w1) :
    w1.pool = { p with m_objects := w1.pool.m_objects,
                       m_drawObjectPointer := w1.pool.m_drawObjectPointer } := by
  unfold addBody at h
  split at h
  · split at h
    · cases hf : addFound E heap p.m_objects _ method methodHash with
      | none => rw [hf] at h; exact absurd h (by simp)
      | some heap1 =>
        rw [hf] at h
        simp only [Option.map_some', Option.some.injEq] at h
        subst h
        rfl
    · unfold addNew at h
      split at h
      · exact absurd h (by simp)
      · simp only [Option.some.injEq] at h
        subst h
        rfl
  · cases hf : addUngrouped p.m_objects state method drawMode with
    | none => rw [hf] at h; exact absurd h (by simp)
    | some l =>
      rw [hf] at h
      simp only [Option.map_some', Option.some.injEq] at h
      subst h
      rfl

/-- A call of `add` leaves the ambient state and the committed hash alone,
folds the state hash and then the method hash into the accumulated hash, and
raises the auto-update flag exactly when a shader is bound. -/
theorem addCall_pool (E : Ext) (w w1 : World) (c : Call) (h : addCall E w c = some w1) :
    w1.pool.m_state = w.pool.m_state ∧
    w1.pool.m_status.1 = w.pool.m_status.1 ∧
    w1.pool.m_status.2 =
      E.hash_union (E.hash_union w.pool.m_status.2 (stateHashOf E (snapshotOf w.pool.m_state c) 0))
        (E.method_updateHash c.method 0) ∧
    w1.pool.m_autoUpdate = (w.pool.m_autoUpdate || w.pool.m_state.shaderProgram.isSome) ∧
    w1.pool.m_forceGrouping = w.pool.m_forceGrouping := by
  unfold addCall add at h
  have hf := addBody_frame _ _ _ _ _ _ _ _ _ _ h
  rw [hashed_eq] at hf
  rw [hf]
  exact ⟨rfl, rfl, rfl, rfl, rfl⟩

/-- The pairs of a frame do not depend on the stored shader action. -/
theorem hashPairs_action (E : Ext) (ops : List Op) (st : DrawState) (a : Option Nat) :
    hashPairs E { st with action := a } ops = hashPairs E st ops := by
  induction ops generalizing st with
  | nil => rfl
  | cons op ops ih =>
    cases op with
    | add c => simp only [hashPairs, snapshotOf]; rw [ih]
    | setOpacity o => exact ih { st with opacity := o }
    | setClipRect r => exact ih { st with clipRect := r }
    | setCompositionMode m => exact ih { st with compositionMode := m }
    | setBlendEquation e => exact ih { st with blendEquation := e }
    | setShaderProgram sh a1 => rfl

/-- One step of a frame on the pool: the ambient state, the committed hash,
the accumulated hash and, when no shader is bound, the auto-update flag. -/
theorem runOp_pool (E : Ext) (w w1 : World) (op : Op) (h : runOp E w op = some w1) :
    w1.pool.m_state = stepState w.pool.m_state op ∧
    w1.pool.m_status.1 = w.pool.m_status.1 ∧
    w1.pool.m_status.2 = foldPairs E w.pool.m_status.2 (hashPairs E w.pool.m_state [op]) ∧
    (w.pool.m_state.shaderProgram = none → w1.pool.m_autoUpdate = w.pool.m_autoUpdate) ∧
    (op.bindsNoShader = true → w.pool.m_state.shaderProgram = none →
      w1.pool.m_state.shaderProgram = none) := by
  cases op with
  | add c =>
    have hp := addCall_pool E w w1 c h
    refine ⟨hp.1, hp.2.1, ?_, ?_, ?_⟩
    · rw [hp.2.2.1]; rfl
    · intro hs; rw [hp.2.2.2.1, hs]; simp
    · intro _ hs; rw [hp.1]; exact hs
  | setOpacity o =>
    simp only [runOp, Pool.setOpacity, if_true, Option.map_some', Option.some.injEq] at h
    subst h
    exact ⟨rfl, rfl, rfl, fun _ => rfl, fun _ hs => hs⟩
  | setClipRect r =>
    simp only [runOp, Pool.setClipRect, if_true, Option.map_some', Option.some.injEq] at h
    subst h
    exact ⟨rfl, rfl, rfl, fun _ => rfl, fun _ hs => hs⟩
  | setCompositionMode m =>
    simp only [runOp, Pool.setCompositionMode, if_true, Option.map_some',
      Option.some.injEq] at h
    subst h
    exact ⟨rfl, rfl, rfl, fun _ => rfl, fun _ hs => hs⟩
  | setBlendEquation e =>
    simp only [runOp, Pool.setBlendEquation, if_true, Option.map_some', Option.some.injEq] at h
    subst h
    exact ⟨rfl, rfl, rfl, fun _ => rfl, fun _ hs => hs⟩
  | setShaderProgram sh a =>
    simp only [runOp, Pool.setShaderProgram, if_true, Option.map_some', Option.some.injEq] at h
    subst h
    refine ⟨rfl, rfl, rfl, fun _ => rfl, ?_⟩
    intro hb _
    cases sh with
    | none => rfl
    | some x => simp [Op.bindsNoShader] at hb

/-- Splitting the pairs of a frame at its first step. -/
theorem foldPairs_cons (E : Ext) (acc : Nat) (st : DrawState) (op : Op) (ops : List Op) :
    foldPairs E acc (hashPairs E st (op :: ops)) =
      foldPairs E (foldPairs E acc (hashPairs E st [op])) (hashPairs E (stepState st op) ops) := by
  cases op <;> simp [hashPairs, foldPairs, stepState]

/-- A frame without shader on the pool: the committed hash and the
auto-update flag are kept, and the accumulated hash is the fold of the
(state hash, method hash) pairs of its `add` calls. -/
theorem runOps_pool (E : Ext) (ops : List Op) (w w1 : World)
    (hno : ∀ op ∈ ops, op.bindsNoShader = true)
    (hs : w.pool.m_state.shaderProgram = none)
    (h : runOps E w ops = some w1) :
    w1.pool.m_status.1 = w.pool.m_status.1 ∧
    w1.pool.m_status.2 = foldPairs E w.pool.m_status.2 (hashPairs E w.pool.m_state ops) ∧
    w1.pool.m_autoUpdate = w.pool.m_autoUpdate := by
  induction ops generalizing w with
  | nil =>
    simp only [runOps, Option.some.injEq] at h
    subst h
    exact ⟨rfl, rfl, rfl⟩
  | cons op ops ih =>
    simp only [runOps] at h
    cases hop : runOp E w op with
    | none => rw [hop] at h; exact absurd h (by simp)
    | some wm =>
      rw [hop] at h
      have hstep := runOp_pool E w wm op hop
      have hno1 : op.bindsNoShader = true := hno op (List.mem_cons_self _ _)
      have hrest := ih wm (fun o ho => hno o (List.mem_cons_of_mem _ ho))
        (hstep.2.2.2.2 hno1 hs) h
      refine ⟨hrest.1.trans hstep.2.1, ?_, hrest.2.2.trans (hstep.2.2.2.1 hs)⟩
      rw [hrest.2.1, foldPairs_cons, hstep.2.2.1, hstep.1]

/-- C9: for every pool, heap and frame (ambient mutations with `pos = -1` and
`add` calls) in which no shader is bound: after `resetState`, the frame,
`hasModification(true)`, `resetState` and the identical frame again,
`hasModification` returns false; and the accumulated hash after each of the
two runs is the fold, from 0, of the ordered (state hash, method hash) pairs
of the `add` calls, an expression in which the draw-object list, the map, the
buffers and the grouping mode of the starting pool do not occur. -/
theorem repeat_frame_no_modification (E : Ext) (now1 now2 : Int) (w w1 w2 : World)
    (ops : List Op) (autoUpdateStatus : Bool)
    (hno : ∀ op ∈ ops, op.bindsNoShader = true)
    (h1 : runOps E { w with pool := w.pool.resetState } ops = some w1)
    (h2 : runOps E { w1 with pool := (w1.pool.hasModification now1 true).2.resetState } ops
      = some w2) :
    (w2.pool.hasModification now2 autoUpdateStatus).1 = false ∧
    w1.pool.m_status.2 = foldPairs E 0 (hashPairs E DrawState.initial ops) ∧
    w2.pool.m_status.2 = foldPairs E 0 (hashPairs E DrawState.initial ops) := by
  have key : ∀ q : Pool, hashPairs E q.resetState.m_state ops =
      hashPairs E DrawState.initial ops := by
    intro q
    exact hashPairs_action E ops DrawState.initial q.m_state.action
  have r1 := runOps_pool E ops _ w1 hno rfl h1
  have r2 := runOps_pool E ops _ w2 hno rfl h2
  have e1 : w1.pool.m_status.2 = foldPairs E 0 (hashPairs E DrawState.initial ops) := by
    rw [r1.2.1]
    show foldPairs E 0 (hashPairs E w.pool.resetState.m_state ops) = _
    rw [key]
  have e2 : w2.pool.m_status.2 = foldPairs E 0 (hashPairs E DrawState.initial ops) := by
    rw [r2.2.1]
    show foldPairs E 0
      (hashPairs E (w1.pool.hasModification now1 true).2.resetState.m_state ops) = _
    rw [key]
  refine ⟨?_, e1, e2⟩
  have hfirst : w2.pool.m_status.1 = w1.pool.m_status.2 := by
    rw [r2.1]
    show (w1.pool.hasModification now1 true).2.m_status.1 = _
    rw [hasModification_snd]
    by_cases hc : (w1.pool.hasModification now1 true).1 = true
    · simp [hc, Pool.updateStatus]
    · have hf : (w1.pool.hasModification now1 true).1 = false := by simpa using hc
      rw [hf]
      rw [hasModification_fst] at hf
      simp only [Bool.or_eq_false_iff, decide_eq_false_iff_not, not_not] at hf
      simpa using hf.1
  have hauto : w2.pool.m_autoUpdate = false := r2.2.2
  rw [hasModification_fst, hfirst, e2, ← e1, hauto]
  simp

/-- The hypotheses of C9 hold on the sample frame run on a MAP pool. -/
theorem repeat_frame_no_modification_witness :
    (sampleFrame2.pool.hasModification 99 true).1 = false ∧
    sampleFrame1.pool.m_status.2 = foldPairs sampleExt 0
      (hashPairs sampleExt DrawState.initial sampleOps) ∧
    sampleFrame2.pool.m_status.2 = foldPairs sampleExt 0
      (hashPairs sampleExt DrawState.initial sampleOps) :=
  repeat_frame_no_modification sampleExt 10 99 sampleMapWorld sampleFrame1 sampleFrame2
    sampleOps true (by decide) (by decide) (by decide)

/-! ### Ungrouped path -/

/-- Equal snapshots, in the sense of `operator==`, have equal textures. -/
theorem same_texture (a b : PainterState) (h : a.same b = true) : a.texture = b.texture := by
  simp only [PainterState.same, Bool.and_eq_true, decide_eq_true_eq] at h
  exact h.1.2

/-- A snapshot equals itself. -/
theorem same_self (a : PainterState) : a.same a = true := by
  simp [PainterState.same]

/-- The comparison of snapshots is transitive on its first argument. -/
theorem same_trans (a b c : PainterState) (h1 : a.same b = true) (h2 : b.same c = true) :
    a.same c = true := by
  simp only [PainterState.same, Bool.and_eq_true, decide_eq_true_eq] at h1 h2 ⊢
  obtain ⟨⟨⟨⟨⟨⟨⟨a1, a2⟩, a3⟩, a4⟩, a5⟩, a6⟩, a7⟩, a8⟩ := h1
  obtain ⟨⟨⟨⟨⟨⟨⟨b1, b2⟩, b3⟩, b4⟩, b5⟩, b6⟩, b7⟩, b8⟩ := h2
  exact ⟨⟨⟨⟨⟨⟨⟨a1.trans b1, a2.trans b2⟩, a3.trans b3⟩, a4.trans b4⟩, a5.trans b5⟩,
    a6.trans b6⟩, a7.trans b7⟩, a8.trans b8⟩

/-- The shapes of a successful ungrouped `add`: a first draw object; a merge
into the last draw object after its scan; or a new draw object after the
scan of the last one. -/
theorem addUngrouped_cases (list list1 : List DrawObject) (state : PainterState)
    (method : DrawMethod) (drawMode : DrawMode)
    (h : addUngrouped list state method drawMode = some list1) :
    (list = [] ∧ list1 = [⟨state, drawMode, [method], none⟩]) ∨
    (∃ init prev methods, list = init ++ [prev] ∧
      scanPending prev state method = some methods ∧
      ((prev.state.same state = true ∧
          list1 = init ++ [{ prev with drawMode := DrawMode.TRIANGLES,
                                       drawMethods := methods ++ [method] }]) ∨
       (prev.state.same state = false ∧
          list1 = init ++ [{ prev with drawMethods := methods }] ++
            [⟨state, drawMode, [method], none⟩]))) := by
  unfold addUngrouped at h
  cases hl : list.getLast? with
  | none =>
    rw [hl] at h
    simp only [Option.some.injEq] at h
    have hnil : list = [] := List.getLast?_eq_none_iff.mp hl
    left
    subst hnil
    exact ⟨rfl, h.symm⟩
  | some prev =>
    rw [hl] at h
    simp only at h
    right
    have hsplit : list.dropLast ++ [prev] = list :=
      List.dropLast_append_getLast? prev (by simp [hl])
    cases hscan : scanPending prev state method with
    | none => rw [hscan] at h; exact absurd h (by simp)
    | some methods =>
      rw [hscan] at h
      simp only at h
      refine ⟨list.dropLast, prev, methods, hsplit.symm, hscan, ?_⟩
      cases hsame : prev.state.same state with
      | true =>
        rw [hsame] at h
        simp only [if_true, Option.some.injEq] at h
        exact Or.inl ⟨rfl, h.symm⟩
      | false =>
        rw [hsame] at h
        simp only [Bool.false_eq_true, if_false, Option.some.injEq] at h
        exact Or.inr ⟨rfl, h.symm⟩

/-- An `add` without buffer on a pool without forced grouping is the
ungrouped path on the draw-object list; the heap is not touched. -/
theorem add_ungrouped (E : Ext) (w w1 : World) (tm : Matrix3) (color : Color)
    (texture : Option Texture) (method : DrawMethod) (drawMode : DrawMode)
    (hung : w.pool.m_forceGrouping = false)
    (h : add E w tm color texture method drawMode none = some w1) :
    addUngrouped w.pool.m_objects (w.pool.snapshot tm color texture) method drawMode
      = some w1.pool.m_objects ∧
    w1.heap = w.heap ∧ w1.pool.m_forceGrouping = false ∧
    w1.pool.m_state = w.pool.m_state := by
  unfold add at h
  rw [hashed_eq] at h
  unfold addBody at h
  simp only [hung, Option.isSome_none, Bool.or_self, Bool.false_eq_true, if_false] at h
  cases hu : addUngrouped w.pool.m_objects (w.pool.snapshot tm color texture) method drawMode with
  | none => rw [hu] at h; exact absurd h (by simp)
  | some l =>
    rw [hu] at h
    simp only [Option.map_some', Option.some.injEq] at h
    subst h
    exact ⟨rfl, rfl, rfl, rfl⟩

/-- The snapshot depends on the pool through its ambient state only. -/
theorem snapshot_congr (p q : Pool) (h : q.m_state = p.m_state) (tm : Matrix3) (color : Color)
    (texture : Option Texture) : q.snapshot tm color texture = p.snapshot tm color texture := by
  unfold Pool.snapshot
  rw [h]

/-- The scan returns a sublist of the pending methods. -/
theorem eraseOccluded_sublist (ss : Bool) (t1 t2 : Option Texture) (r : DrawTextureRect)
    (l l1 : List DrawMethod) (h : eraseOccluded ss t1 t2 r l = some l1) : l1.Sublist l := by
  induction l generalizing l1 with
  | nil =>
    simp only [eraseOccluded, Option.some.injEq] at h
    subst h
    exact List.Sublist.refl _
  | cons x rest ih =>
    unfold eraseOccluded at h
    cases hx : x.rect with
    | none => rw [hx] at h; exact absurd h (by simp)
    | some rx =>
      rw [hx] at h
      simp only at h
      cases ho : occludes ss t1 t2 rx r with
      | none => rw [ho] at h; exact absurd h (by simp)
      | some b =>
        rw [ho] at h
        cases b with
        | true =>
          simp only [Option.some.injEq] at h
          subst h
          exact List.sublist_cons_self _ _
        | false =>
          simp only at h
          cases hr : eraseOccluded ss t1 t2 r rest with
          | none => rw [hr] at h; exact absurd h (by simp)
          | some l2 =>
            rw [hr] at h
            simp only [Option.map_some', Option.some.injEq] at h
            subst h
            exact (ih l2 hr).cons₂ x

/-- The scan of a method returns a sublist of the pending methods. -/
theorem scanPending_sublist (prev : DrawObject) (state : PainterState) (method : DrawMethod)
    (methods : List DrawMethod) (h : scanPending prev state method = some methods) :
    methods.Sublist prev.drawMethods := by
  unfold scanPending at h
  split at h
  · cases hr : method.rect with
    | none => rw [hr] at h; exact absurd h (by simp)
    | some r =>
      rw [hr] at h
      exact eraseOccluded_sublist _ _ _ _ _ _ h
  · simp only [Option.some.injEq] at h
    subst h
    exact List.Sublist.refl _

/-- A pending rectangle that the scan of a call under the state of its draw
object reports as occluded has the destination of the call and either its
source or a texture that covers itself. -/
theorem occludes_same_true (T : Option Texture) (rx r : DrawTextureRect)
    (h : occludes true T T rx r = some true) :
    rx.m_destP = r.m_destP ∧ (rx.m_src = r.m_src ∨ coversItself T = true) := by
  unfold occludes at h
  by_cases hd : rx.m_destP = r.m_destP
  · refine ⟨hd, ?_⟩
    by_cases hsrc : rx.m_src = r.m_src
    · exact Or.inl hsrc
    · right
      simp only [hd, if_true, Bool.true_and, decide_eq_true_eq, hsrc, if_false] at h
      cases T with
      | none => exact absurd h (by simp)
      | some t =>
        simp only at h
        cases ho : t.isOpaque with
        | true =>
          rw [ho] at h
          simp only [if_true, Option.some.injEq] at h
          simp [coversItself, ho, h]
        | false =>
          rw [ho] at h
          simp at h
  · simp [hd] at h

/-- A pending rectangle that the scan of a call under the state of its draw
object passes over is apart from the call. -/
theorem occludes_same_false (T : Option Texture) (x m : DrawMethod) (rx r : DrawTextureRect)
    (hx : x.rect = some rx) (hm : m.rect = some r)
    (h : occludes true T T rx r = some false) : pendingApart T x m = true := by
  unfold occludes at h
  unfold pendingApart
  rw [hx, hm]
  by_cases hd : rx.m_destP = r.m_destP
  · by_cases hsrc : rx.m_src = r.m_src
    · simp [hd, hsrc] at h
    · simp only [hd, if_true, Bool.true_and, decide_eq_true_eq, hsrc, if_false] at h
      cases T with
      | none => exact absurd h (by simp)
      | some t =>
        simp only at h
        cases ho : t.isOpaque with
        | true =>
          rw [ho] at h
          simp only [if_true, Option.some.injEq] at h
          simp [coversItself, ho, h, hsrc]
        | false => simp [coversItself, ho, hsrc]
  · simp [hd]

/-- After the scan of a call under the state of the draw object, every
remaining pending method is apart from the new method. -/
theorem eraseOccluded_apart (T : Option Texture) (m : DrawMethod) (r : DrawTextureRect)
    (hm : m.rect = some r) (l l1 : List DrawMethod)
    (hp : l.Pairwise fun x y => pendingApart T x y = true)
    (h : eraseOccluded true T T r l = some l1) :
    ∀ x ∈ l1, pendingApart T x m = true := by
  induction l generalizing l1 with
  | nil =>
    simp only [eraseOccluded, Option.some.injEq] at h
    subst h
    intro x hx
    exact absurd hx (List.not_mem_nil x)
  | cons x rest ih =>
    unfold eraseOccluded at h
    rw [List.pairwise_cons] at hp
    cases hx : x.rect with
    | none => rw [hx] at h; exact absurd h (by simp)
    | some rx =>
      rw [hx] at h
      simp only at h
      cases ho : occludes true T T rx r with
      | none => rw [ho] at h; exact absurd h (by simp)
      | some b =>
        rw [ho] at h
        cases b with
        | true =>
          simp only [Option.some.injEq] at h
          subst h
          intro y hy
          have hxy := hp.1 y hy
          have hocc := occludes_same_true T rx r ho
          unfold pendingApart at hxy ⊢
          rw [hm]
          rw [hx] at hxy
          cases hyr : y.rect with
          | none => rfl
          | some ry =>
            rw [hyr] at hxy
            simp only [Bool.or_eq_true, Bool.not_eq_true', decide_eq_false_iff_not,
              Bool.and_eq_true] at hxy ⊢
            by_cases hd : ry.m_destP = r.m_destP
            · right
              have hd2 : rx.m_destP = ry.m_destP := hocc.1.trans hd.symm
              rcases hxy with hxy | hxy
              · exact absurd hd2 hxy
              · refine ⟨?_, hxy.2⟩
                intro hs
                rcases hocc.2 with h3 | h3
                · exact hxy.1 (h3.trans hs.symm)
                · rw [hxy.2] at h3
                  exact absurd h3 (by simp)
            · exact Or.inl hd
        | false =>
          simp only at h
          cases hr : eraseOccluded true T T r rest with
          | none => rw [hr] at h; exact absurd h (by simp)
          | some l2 =>
            rw [hr] at h
            simp only [Option.map_some', Option.some.injEq] at h
            subst h
            intro y hy
            rcases List.mem_cons.mp hy with hy | hy
            · subst hy
              exact occludes_same_false T y m rx r hx hm ho
            · exact ih l2 hp.2 hr y hy

/-- The ungrouped path keeps the pending methods of every draw object
pairwise apart. -/
theorem addUngrouped_pendingOk (list list1 : List DrawObject) (state : PainterState)
    (method : DrawMethod) (drawMode : DrawMode)
    (hinv : ∀ o ∈ list, o.pendingOk)
    (h : addUngrouped list state method drawMode = some list1) :
    ∀ o ∈ list1, o.pendingOk := by
  rcases addUngrouped_cases list list1 state method drawMode h with
    ⟨-, h1⟩ | ⟨init, prev, methods, hl, hscan, hcase⟩
  · subst h1
    intro o ho
    simp only [List.mem_singleton] at ho
    subst ho
    exact List.pairwise_singleton _ _
  · have hprev : prev.pendingOk := hinv prev (by rw [hl]; simp)
    have hinit : ∀ o ∈ init, o.pendingOk := fun o ho => hinv o (by rw [hl]; simp [ho])
    have hsub := scanPending_sublist prev state method methods hscan
    have hmeth : methods.Pairwise fun x y => pendingApart prev.state.texture x y = true :=
      List.Pairwise.sublist hsub hprev
    rcases hcase with ⟨hsame, h1⟩ | ⟨-, h1⟩
    · subst h1
      intro o ho
      rcases List.mem_append.mp ho with ho | ho
      · exact hinit o ho
      · simp only [List.mem_singleton] at ho
        subst ho
        show (methods ++ [method]).Pairwise fun x y => pendingApart prev.state.texture x y = true
        rw [List.pairwise_append]
        refine ⟨hmeth, List.pairwise_singleton _ _, ?_⟩
        intro x hx y hy
        simp only [List.mem_singleton] at hy
        subst hy
        cases hr : y.rect with
        | none =>
          unfold pendingApart
          rw [hr]
          cases x.rect <;> rfl
        | some r =>
          unfold scanPending at hscan
          simp only [DrawMethod.hasRefPoint, hr, Option.isSome_some, if_true] at hscan
          rw [← same_texture _ _ hsame, hsame] at hscan
          exact eraseOccluded_apart prev.state.texture y r hr prev.drawMethods methods hprev
            hscan x hx
    · subst h1
      intro o ho
      rcases List.mem_append.mp ho with ho | ho
      · rcases List.mem_append.mp ho with ho | ho
        · exact hinit o ho
        · simp only [List.mem_singleton] at ho
          subst ho
          exact hmeth
      · simp only [List.mem_singleton] at ho
        subst ho
        exact List.pairwise_singleton _ _

/-- The body of `add` keeps the pending methods of every draw object pairwise
apart, on the grouped and on the ungrouped path. -/
theorem addBody_pendingOk (E : Ext) (heap : List DrawBuffer) (p : Pool) (state : PainterState)
    (stateHash methodHash : Nat) (method : DrawMethod) (drawMode : DrawMode)
    (drawBuffer : Option Nat) (w1 : World) (hinv : p.pendingOk)
    (h : addBody E heap p state stateHash methodHash method drawMode drawBuffer = some w1) :
    w1.pool.pendingOk := by
  unfold addBody at h
  split at h
  · split at h
    · cases hf : addFound E heap p.m_objects _ method methodHash with
      | none => rw [hf] at h; exact absurd h (by simp)
      | some heap1 =>
        rw [hf] at h
        simp only [Option.map_some', Option.some.injEq] at h
        subst h
        exact hinv
    · unfold addNew at h
      split at h
      · exact absurd h (by simp)
      · simp only [Option.some.injEq] at h
        subst h
        intro o ho
        rcases List.mem_append.mp ho with ho | ho
        · exact hinv o ho
        · simp only [List.mem_singleton] at ho
          subst ho
          exact List.Pairwise.nil
  · cases hf : addUngrouped p.m_objects state method drawMode with
    | none => rw [hf] at h; exact absurd h (by simp)
    | some l =>
      rw [hf] at h
      simp only [Option.map_some', Option.some.injEq] at h
      subst h
      exact addUngrouped_pendingOk _ _ _ _ _ hinv hf

/-- Every call of `add` keeps the invariant of the occlusion scan; the pool
`create` returns has it, its list being empty. -/
theorem add_pendingOk (E : Ext) (w w1 : World) (tm : Matrix3) (color : Color)
    (texture : Option Texture) (method : DrawMethod) (drawMode : DrawMode)
    (drawBuffer : Option Nat) (hinv : w.pool.pendingOk)
    (h : add E w tm color texture method drawMode drawBuffer = some w1) :
    w1.pool.pendingOk := by
  unfold add at h
  refine addBody_pendingOk _ _ _ _ _ _ _ _ _ _ ?_ h
  rw [hashed_eq]
  exact hinv

/-- The pool `create` returns has the invariant of the occlusion scan. -/
theorem create_pendingOk (now : Int) (t : PoolType) : (Pool.create now t).pendingOk := by
  intro o ho
  cases t <;> simp [Pool.create, PoolFramed.new, Pool.new] at ho

/-- A position-based edit of a stored state that keeps the texture (as the
five mutators do) keeps the invariant of the occlusion scan. -/
theorem editObject_pendingOk (p q : Pool) (pos : Int) (f : PainterState → PainterState)
    (hf : ∀ st, (f st).texture = st.texture) (hinv : p.pendingOk)
    (h : p.editObject pos f = some q) : q.pendingOk := by
  unfold Pool.editObject at h
  split at h
  · exact absurd h (by simp)
  · cases ho : p.m_objects[(pos - 1).toNat]? with
    | none => rw [ho] at h; exact absurd h (by simp)
    | some o =>
      rw [ho] at h
      simp only [Option.some.injEq] at h
      subst h
      intro o1 ho1
      rcases List.mem_or_eq_of_mem_set ho1 with hmem | heq
      · exact hinv o1 hmem
      · subst heq
        have hold : o.pendingOk := hinv o (List.getElem?_mem ho)
        unfold DrawObject.pendingOk at hold ⊢
        simp only [hf]
        exact hold

/-- The scan of a second method with the destination and source of the last
pending method, under the state of the draw object, erases exactly that last
method when the methods before it are apart from it. -/
theorem eraseOccluded_last (T : Option Texture) (m1 : DrawMethod) (r1 r2 : DrawTextureRect)
    (hm1 : m1.rect = some r1) (hd : r1.m_destP = r2.m_destP) (hs : r1.m_src = r2.m_src)
    (l res : List DrawMethod) (hap : ∀ x ∈ l, pendingApart T x m1 = true)
    (h : eraseOccluded true T T r2 (l ++ [m1]) = some res) : res = l := by
  induction l generalizing res with
  | nil =>
    simp only [List.nil_append] at h
    unfold eraseOccluded at h
    rw [hm1] at h
    simp only [occludes, hd, if_true, Bool.true_and, hs, decide_True] at h
    simpa using h.symm
  | cons x rest ih =>
    simp only [List.cons_append] at h
    unfold eraseOccluded at h
    cases hx : x.rect with
    | none => rw [hx] at h; exact absurd h (by simp)
    | some rx =>
      rw [hx] at h
      simp only at h
      cases ho : occludes true T T rx r2 with
      | none => rw [ho] at h; exact absurd h (by simp)
      | some b =>
        rw [ho] at h
        cases b with
        | true =>
          exfalso
          have hocc := occludes_same_true T rx r2 ho
          have hxa := hap x (List.mem_cons_self _ _)
          unfold pendingApart at hxa
          rw [hx, hm1] at hxa
          simp only [Bool.or_eq_true, Bool.not_eq_true', decide_eq_false_iff_not,
            Bool.and_eq_true] at hxa
          rcases hxa with hxa | hxa
          · exact hxa (hocc.1.trans hd.symm)
          · rcases hocc.2 with h3 | h3
            · exact hxa.1 (h3.trans hs.symm)
            · rw [hxa.2] at h3
              exact absurd h3 (by simp)
        | false =>
          simp only at h
          cases hr : eraseOccluded true T T r2 (rest ++ [m1]) with
          | none => rw [hr] at h; exact absurd h (by simp)
          | some l2 =>
            rw [hr] at h
            simp only [Option.map_some', Option.some.injEq] at h
            subst h
            rw [ih l2 (fun y hy => hap y (List.mem_cons_of_mem _ hy)) hr]

/-- After a successful ungrouped `add` the new method is the last pending
method of the last draw object, whose state equals the snapshot; every other
pending method was pending before; from an empty list there is nothing
else. -/
theorem addUngrouped_last (list list1 : List DrawObject) (state : PainterState)
    (method : DrawMethod) (drawMode : DrawMode)
    (h : addUngrouped list state method drawMode = some list1) :
    ∃ init1 o1 L, list1 = init1 ++ [o1] ∧ o1.drawMethods = L ++ [method] ∧
      o1.state.same state = true ∧
      (∀ x ∈ L, ∃ o ∈ list, x ∈ o.drawMethods) ∧
      (∀ o1 ∈ init1, ∀ x ∈ o1.drawMethods, ∃ o ∈ list, x ∈ o.drawMethods) ∧
      (list = [] → init1 = [] ∧ L = []) := by
  rcases addUngrouped_cases list list1 state method drawMode h with
    ⟨h0, h1⟩ | ⟨init, prev, methods, hl, hscan, hcase⟩
  · subst h0 h1
    refine ⟨[], ⟨state, drawMode, [method], none⟩, [], rfl, rfl, same_self _, ?_, ?_,
      fun _ => ⟨rfl, rfl⟩⟩
    · intro x hx; exact absurd hx (List.not_mem_nil x)
    · intro o ho; exact absurd ho (List.not_mem_nil o)
  · have hsub := scanPending_sublist prev state method methods hscan
    have hne : list ≠ [] := by rw [hl]; simp
    have hold : ∀ o ∈ init, ∀ x ∈ o.drawMethods, ∃ o2 ∈ list, x ∈ o2.drawMethods :=
      fun o ho x hx => ⟨o, by rw [hl]; simp [ho], hx⟩
    have hmeth : ∀ x ∈ methods, ∃ o2 ∈ list, x ∈ o2.drawMethods :=
      fun x hx => ⟨prev, by rw [hl]; simp, hsub.subset hx⟩
    rcases hcase with ⟨hsame, h1⟩ | ⟨-, h1⟩
    · subst h1
      exact ⟨init, { prev with drawMode := DrawMode.TRIANGLES,
                               drawMethods := methods ++ [method] }, methods, rfl, rfl, hsame,
        hmeth, hold, fun h0 => absurd h0 hne⟩
    · subst h1
      refine ⟨init ++ [{ prev with drawMethods := methods }],
        ⟨state, drawMode, [method], none⟩, [], rfl, rfl, same_self _,
        ?_, ?_, fun h0 => absurd h0 hne⟩
      · intro x hx; exact absurd hx (List.not_mem_nil x)
      · intro o ho x hx
        rcases List.mem_append.mp ho with ho | ho
        · exact hold o ho x hx
        · simp only [List.mem_singleton] at ho
          subst ho
          exact hmeth x hx

/-- C7: on a pool without forced grouping whose pending methods satisfy the
invariant of the occlusion scan (true of the empty list and kept by every
`add`), two consecutive `add` calls without buffer of textured rectangles
with equal state snapshots, equal destination and equal source leave the
first method (a new heap object, distinct from the second) in no pending
list, the second method last in the pending list of the last draw object, and
as many draw objects as after the first call; from an empty list there is
exactly one draw object, whose pending list is exactly the second method. -/
theorem occlusion_elision (E : Ext) (w w1 w2 : World) (tm1 tm2 : Matrix3) (c1 c2 : Color)
    (t1 t2 : Option Texture) (m1 m2 : DrawMethod) (dm1 dm2 : DrawMode)
    (r1 r2 : DrawTextureRect)
    (hung : w.pool.m_forceGrouping = false)
    (hinv : w.pool.pendingOk)
    (hr1 : m1.rect = some r1) (hr2 : m2.rect = some r2)
    (hsnap : (w.pool.snapshot tm1 c1 t1).same (w.pool.snapshot tm2 c2 t2) = true)
    (hd : r1.m_destP = r2.m_destP) (hs : r1.m_src = r2.m_src)
    (hfresh : ∀ o ∈ w.pool.m_objects, m1 ∉ o.drawMethods) (hne : m1 ≠ m2)
    (h1 : add E w tm1 c1 t1 m1 dm1 none = some w1)
    (h2 : add E w1 tm2 c2 t2 m2 dm2 none = some w2) :
    (∀ o ∈ w2.pool.m_objects, m1 ∉ o.drawMethods) ∧
    (∃ o, w2.pool.m_objects.getLast? = some o ∧ o.drawMethods.getLast? = some m2) ∧
    w2.pool.m_objects.length = w1.pool.m_objects.length ∧
    (w.pool.m_objects = [] → ∃ o, w2.pool.m_objects = [o] ∧ o.drawMethods = [m2]) := by
  obtain ⟨hu1, -, hung1, hst1⟩ := add_ungrouped E w w1 tm1 c1 t1 m1 dm1 hung h1
  obtain ⟨hu2, -, -, -⟩ := add_ungrouped E w1 w2 tm2 c2 t2 m2 dm2 hung1 h2
  rw [snapshot_congr w.pool w1.pool hst1] at hu2
  have hinv1 := addUngrouped_pendingOk _ _ _ _ _ hinv hu1
  obtain ⟨init1, o1, L, hl1, hL, hsame1, hLold, hinitold, hempty⟩ :=
    addUngrouped_last _ _ _ _ _ hu1
  have hsame2 : o1.state.same (w.pool.snapshot tm2 c2 t2) = true :=
    same_trans _ _ _ hsame1 hsnap
  have hm1L : m1 ∉ L := fun hx => by
    obtain ⟨o, ho, hxo⟩ := hLold m1 hx
    exact hfresh o ho hxo
  rcases addUngrouped_cases _ _ _ _ _ hu2 with ⟨h0, -⟩ | ⟨init, prev, methods, hl, hscan, hcase⟩
  · rw [hl1] at h0
    exact absurd h0 (by simp)
  · have hsplit := List.append_inj' (hl1.symm.trans hl) rfl
    obtain ⟨hinit, hprev⟩ := hsplit
    simp only [List.cons.injEq, and_true] at hprev
    subst hinit hprev
    have ho1 : o1.pendingOk := hinv1 o1 (by rw [hl1]; simp)
    unfold DrawObject.pendingOk at ho1
    rw [hL, List.pairwise_append] at ho1
    have hap : ∀ x ∈ L, pendingApart o1.state.texture x m1 = true :=
      fun x hx => ho1.2.2 x hx m1 (List.mem_singleton_self _)
    unfold scanPending at hscan
    simp only [DrawMethod.hasRefPoint, hr2, Option.isSome_some, if_true] at hscan
    rw [hsame2, ← same_texture _ _ hsame2, hL] at hscan
    have hmeth := eraseOccluded_last o1.state.texture m1 r1 r2 hr1 hd hs L methods hap hscan
    subst hmeth
    rcases hcase with ⟨-, hl2⟩ | ⟨hfalse, -⟩
    · rw [hl2, hl1]
      refine ⟨?_, ?_, by simp, ?_⟩
      · intro o ho hmem
        rcases List.mem_append.mp ho with ho | ho
        · obtain ⟨o3, ho3, hx3⟩ := hinitold o ho m1 hmem
          exact hfresh o3 ho3 hx3
        · simp only [List.mem_singleton] at ho
          subst ho
          rcases List.mem_append.mp hmem with hmem | hmem
          · exact hm1L hmem
          · exact hne (List.mem_singleton.mp hmem)
      · exact ⟨_, List.getLast?_concat _, List.getLast?_concat _⟩
      · intro h0
        obtain ⟨hi, hLe⟩ := hempty h0
        subst hi hLe
        exact ⟨_, rfl, rfl⟩
    · rw [hsame2] at hfalse
      exact absurd hfalse (by simp)

/-- The hypotheses of C7 hold for two equal tiles added to an empty MAP pool. -/
theorem occlusion_elision_witness :
    (∀ o ∈ mapAfterTileB.pool.m_objects, tileA ∉ o.drawMethods) ∧
    (∃ o, mapAfterTileB.pool.m_objects.getLast? = some o ∧
      o.drawMethods.getLast? = some tileB) ∧
    mapAfterTileB.pool.m_objects.length = mapAfterTileA.pool.m_objects.length ∧
    (emptyMapWorld.pool.m_objects = [] →
      ∃ o, mapAfterTileB.pool.m_objects = [o] ∧ o.drawMethods = [tileB]) :=
  occlusion_elision sampleExt emptyMapWorld mapAfterTileA mapAfterTileB identityMatrix
    identityMatrix Color.white Color.white (some glassTexture) (some glassTexture) tileA tileB
    DrawMode.TRIANGLES DrawMode.TRIANGLES ⟨⟨32, 32⟩, ⟨0, 0, 31, 31⟩⟩ ⟨⟨32, 32⟩, ⟨0, 0, 31, 31⟩⟩
    (by decide) (create_pendingOk 0 PoolType.MAP) (by decide) (by decide) (by decide)
    (by decide) (by decide) (by decide) (by decide) (by decide) (by decide)

/-- With an opaque new texture over a superimposable previous one the scan
erases the first pending rectangle drawn at the destination of the call. -/
theorem eraseOccluded_opaque (ss : Bool) (tex2 tex1 : Texture) (r2 : DrawTextureRect)
    (hop : tex2.isOpaque = true) (hsup : tex1.canSuperimposed = true)
    (l methods : List DrawMethod)
    (h : eraseOccluded ss (some tex2) (some tex1) r2 l = some methods) :
    methods = eraseFirstDest r2.m_destP l := by
  induction l generalizing methods with
  | nil =>
    simp only [eraseOccluded, Option.some.injEq] at h
    subst h
    rfl
  | cons x rest ih =>
    unfold eraseOccluded at h
    cases hx : x.rect with
    | none => rw [hx] at h; exact absurd h (by simp)
    | some rx =>
      rw [hx] at h
      simp only at h
      have hocc : occludes ss (some tex2) (some tex1) rx r2 =
          some (decide (rx.m_destP = r2.m_destP)) := by
        unfold occludes
        by_cases hd : rx.m_destP = r2.m_destP
        · by_cases hc : (ss && decide (rx.m_src = r2.m_src)) = true
          · simp [hd, hc]
          · simp [hd, hc, hop, hsup]
        · simp [hd]
      rw [hocc] at h
      unfold eraseFirstDest
      by_cases hd : rx.m_destP = r2.m_destP
      · simp only [hd, decide_True, Option.some.injEq] at h
        subst h
        simp [hx, hd]
      · simp only [hd, decide_False] at h
        cases hr : eraseOccluded ss (some tex2) (some tex1) r2 rest with
        | none => rw [hr] at h; exact absurd h (by simp)
        | some l2 =>
          rw [hr] at h
          simp only [Option.map_some', Option.some.injEq] at h
          subst h
          rw [ih l2 hr]
          simp [hx, hd]

/-- When no earlier pending rectangle is drawn at the destination of the last
one, the first rectangle at that destination is the last one. -/
theorem eraseFirstDest_last (d : Point) (m1 : DrawMethod) (r1 : DrawTextureRect)
    (hm1 : m1.rect = some r1) (hd : r1.m_destP = d) (L : List DrawMethod)
    (hL : ∀ x ∈ L, x.rect.map (fun r => r.m_destP) ≠ some d) :
    eraseFirstDest d (L ++ [m1]) = L := by
  induction L with
  | nil => simp [eraseFirstDest, hm1, hd]
  | cons x rest ih =>
    rw [List.cons_append, eraseFirstDest, if_neg (hL x (List.mem_cons_self _ _)),
      ih (fun y hy => hL y (List.mem_cons_of_mem _ hy))]

/-- C8 as amended: on a pool without forced grouping, for two consecutive
`add` calls without buffer of textured rectangles with the same destination,
the second with an opaque texture and the first with a texture that can be
superimposed, the second call erases from the pending list of the last draw
object (the one that holds the first method last) the earliest pending
rectangle drawn at that destination, whatever the sources; that list is
otherwise unchanged up to the second method, appended when the states are
equal. The erased rectangle is the first method when no method pending
before it in that draw object has the same destination. -/
theorem occlusion_by_opacity (E : Ext) (w w1 w2 : World) (tm1 tm2 : Matrix3) (c1 c2 : Color)
    (tex1 tex2 : Texture) (m1 m2 : DrawMethod) (dm1 dm2 : DrawMode)
    (r1 r2 : DrawTextureRect)
    (hung : w.pool.m_forceGrouping = false)
    (hr1 : m1.rect = some r1) (hr2 : m2.rect = some r2)
    (hd : r1.m_destP = r2.m_destP)
    (hop : tex2.isOpaque = true) (hsup : tex1.canSuperimposed = true)
    (h1 : add E w tm1 c1 (some tex1) m1 dm1 none = some w1)
    (h2 : add E w1 tm2 c2 (some tex2) m2 dm2 none = some w2) :
    ∃ init o1 L o2, w1.pool.m_objects = init ++ [o1] ∧ o1.drawMethods = L ++ [m1] ∧
      w2.pool.m_objects[init.length]? = some o2 ∧
      o2.drawMethods =
        (if o1.state.same (w1.pool.snapshot tm2 c2 (some tex2)) = true
         then eraseFirstDest r2.m_destP (L ++ [m1]) ++ [m2]
         else eraseFirstDest r2.m_destP (L ++ [m1])) ∧
      ((∀ x ∈ L, x.rect.map (fun r => r.m_destP) ≠ some r2.m_destP) →
        eraseFirstDest r2.m_destP (L ++ [m1]) = L) := by
  obtain ⟨hu1, -, hung1, -⟩ := add_ungrouped E w w1 tm1 c1 (some tex1) m1 dm1 hung h1
  obtain ⟨hu2, -, -, -⟩ := add_ungrouped E w1 w2 tm2 c2 (some tex2) m2 dm2 hung1 h2
  obtain ⟨init1, o1, L, hl1, hL, hsame1, -, -, -⟩ := addUngrouped_last _ _ _ _ _ hu1
  have htex1 : o1.state.texture = some tex1 := same_texture _ _ hsame1
  rcases addUngrouped_cases _ _ _ _ _ hu2 with ⟨h0, -⟩ | ⟨init, prev, methods, hl, hscan, hcase⟩
  · rw [hl1] at h0
    exact absurd h0 (by simp)
  · have hsplit := List.append_inj' (hl1.symm.trans hl) rfl
    obtain ⟨hinit, hprev⟩ := hsplit
    simp only [List.cons.injEq, and_true] at hprev
    subst hinit hprev
    unfold scanPending at hscan
    simp only [DrawMethod.hasRefPoint, hr2, Option.isSome_some, if_true] at hscan
    rw [htex1, hL] at hscan
    have hmeth := eraseOccluded_opaque _ tex2 tex1 r2 hop hsup _ _ hscan
    subst hmeth
    refine ⟨init1, o1, L, ?_, hl1, hL, ?_, ?_, eraseFirstDest_last _ m1 r1 hr1 hd L⟩
    · exact if o1.state.same (w1.pool.snapshot tm2 c2 (some tex2)) = true
        then { o1 with drawMode := DrawMode.TRIANGLES,
                       drawMethods := eraseFirstDest r2.m_destP (L ++ [m1]) ++ [m2] }
        else { o1 with drawMethods := eraseFirstDest r2.m_destP (L ++ [m1]) }
    · rcases hcase with ⟨hsame, hl2⟩ | ⟨hsame, hl2⟩
      · rw [hl2, if_pos hsame, List.getElem?_append_right (le_refl _)]
        simp
      · rw [hl2, if_neg (by simp [hsame]), List.append_assoc,
          List.getElem?_append_right (le_refl _)]
        simp
    · split <;> rfl

/-- The hypotheses of the amended C8 hold for a glass tile followed by an
opaque tile at the same destination on an empty MAP pool. -/
theorem occlusion_by_opacity_witness :
    ∃ init o1 L o2, mapAfterTileA.pool.m_objects = init ++ [o1] ∧
      o1.drawMethods = L ++ [tileA] ∧
      mapAfterTileO.pool.m_objects[init.length]? = some o2 ∧
      o2.drawMethods =
        (if o1.state.same
            (mapAfterTileA.pool.snapshot identityMatrix Color.white (some opaqueTexture)) = true
         then eraseFirstDest (⟨32, 32⟩ : Point) (L ++ [tileA]) ++ [tileO]
         else eraseFirstDest (⟨32, 32⟩ : Point) (L ++ [tileA])) ∧
      ((∀ x ∈ L, x.rect.map (fun r => r.m_destP) ≠ some (⟨32, 32⟩ : Point)) →
        eraseFirstDest (⟨32, 32⟩ : Point) (L ++ [tileA]) = L) :=
  occlusion_by_opacity sampleExt emptyMapWorld mapAfterTileA mapAfterTileO identityMatrix
    identityMatrix Color.white Color.white glassTexture opaqueTexture tileA tileO
    DrawMode.TRIANGLES DrawMode.TRIANGLES ⟨⟨32, 32⟩, ⟨0, 0, 31, 31⟩⟩ ⟨⟨32, 32⟩, ⟨0, 32, 31, 63⟩⟩
    (by decide) (by decide) (by decide) (by decide) (by decide) (by decide) (by decide)
    (by decide)

/-- C8 as stated fails: on an empty MAP pool, `tileX` and `tileG` are added
with the glass texture (superimposable, not opaque; same destination,
different sources, so both stay pending), then `tileO` with the opaque
texture at the same destination. The scan erases `tileX`, the first match,
and stops: `tileG`, the method of the call just before, is still pending. -/
theorem occlusion_by_opacity_counterexample :
    opaqueTexture.isOpaque = true ∧ glassTexture.canSuperimposed = true ∧
    tileG.rect.map (fun r => r.m_destP) = tileO.rect.map (fun r => r.m_destP) ∧
    (addAll sampleExt emptyMapWorld
        [texCall glassTexture tileX, texCall glassTexture tileG]).map
      (fun w => w.pool.m_objects.map fun o => o.drawMethods) = some [[tileX, tileG]] ∧
    (addAll sampleExt emptyMapWorld
        [texCall glassTexture tileX, texCall glassTexture tileG,
         texCall opaqueTexture tileO]).map
      (fun w => w.pool.m_objects.map fun o => o.drawMethods) = some [[tileG], [tileO]] := by
  decide

/-! ### Grouped path -/

/-- A call of `add` is the body of `add` on the pool after hashing. -/
theorem addCall_eq (E : Ext) (w : World) (c : Call) :
    addCall E w c =
      addBody E w.heap (w.pool.afterHash E c) (snapshotOf w.pool.m_state c)
        (Call.key E w.pool.m_state c) (Call.methodHash E c) c.method c.drawMode
        c.drawBuffer := by
  unfold addCall add
  rw [hashed_eq]
  rfl

/-- Writing back the value a cell holds changes nothing. -/
theorem set_self_of_getElem? {α : Type} (l : List α) (i : Nat) (a : α) (h : l[i]? = some a) :
    l.set i a = l := by
  apply List.ext_getElem?
  intro n
  rw [List.getElem?_set]
  by_cases hn : i = n
  · subst hn
    obtain ⟨hlt, -⟩ := List.getElem?_eq_some.mp h
    rw [if_pos rfl, if_pos hlt, h]
  · rw [if_neg hn]

/-- A grouped call whose state hash is in the map advances the buffer of the
draw object found and leaves list and map alone. -/
theorem addCall_found (E : Ext) (w : World) (c : Call) (idx b : Nat) (obj : DrawObject)
    (buf buf1 : DrawBuffer)
    (hg : (w.pool.m_forceGrouping || c.drawBuffer.isSome) = true)
    (hfind : mapFind w.pool.m_drawObjectPointer (Call.key E w.pool.m_state c) = some idx)
    (hobj : w.pool.m_objects[idx]? = some obj) (hb : obj.buffer = some b)
    (hbuf : w.heap[b]? = some buf)
    (hadv : buf.advance E c.method (Call.methodHash E c) = some buf1) :
    addCall E w c = some ⟨w.heap.set b buf1, w.pool.afterHash E c⟩ := by
  rw [addCall_eq]
  unfold addBody
  have hg1 : ((w.pool.afterHash E c).m_forceGrouping || c.drawBuffer.isSome) = true := hg
  rw [if_pos hg1]
  have hfind1 : mapFind (w.pool.afterHash E c).m_drawObjectPointer
      (Call.key E w.pool.m_state c) = some idx := hfind
  rw [hfind1]
  have hobj1 : (w.pool.afterHash E c).m_objects[idx]? = some obj := hobj
  simp only [addFound, hobj1, hb, hbuf, hadv, Option.map_some']

/-- A run of grouped calls with one state hash that is in the map: the buffer
of the draw object found goes through `advanceAll`; list, map, ambient state
and grouping flag are kept. -/
theorem addAll_found (E : Ext) (cs : List Call) (w : World) (key idx b : Nat)
    (obj : DrawObject) (buf buf1 : DrawBuffer)
    (hg : ∀ c ∈ cs, (w.pool.m_forceGrouping || c.drawBuffer.isSome) = true)
    (hkey : ∀ c ∈ cs, Call.key E w.pool.m_state c = key)
    (hfind : mapFind w.pool.m_drawObjectPointer key = some idx)
    (hobj : w.pool.m_objects[idx]? = some obj) (hb : obj.buffer = some b)
    (hbuf : w.heap[b]? = some buf)
    (hrun : advanceAll E buf cs = some buf1) :
    ∃ w1, addAll E w cs = some w1 ∧ w1.heap = w.heap.set b buf1 ∧
      w1.pool.m_objects = w.pool.m_objects ∧
      w1.pool.m_drawObjectPointer = w.pool.m_drawObjectPointer ∧
      w1.pool.m_state = w.pool.m_state ∧
      w1.pool.m_forceGrouping = w.pool.m_forceGrouping := by
  induction cs generalizing w buf with
  | nil =>
    simp only [advanceAll, Option.some.injEq] at hrun
    subst hrun
    exact ⟨w, rfl, (set_self_of_getElem? _ _ _ hbuf).symm, rfl, rfl, rfl, rfl⟩
  | cons c cs ih =>
    simp only [advanceAll] at hrun
    cases hadv : buf.advance E c.method (Call.methodHash E c) with
    | none => rw [hadv] at hrun; exact absurd hrun (by simp)
    | some bufm =>
      rw [hadv] at hrun
      have hc := List.mem_cons_self c cs
      have hstep := addCall_found E w c idx b obj buf bufm (hg c hc)
        (by rw [hkey c hc]; exact hfind) hobj hb hbuf hadv
      have hlt : b < w.heap.length := (List.getElem?_eq_some.mp hbuf).1
      obtain ⟨w1, hw1, hheap, ho, hm, hst, hf⟩ :=
        ih ⟨w.heap.set b bufm, w.pool.afterHash E c⟩ bufm
          (fun c1 h1 => hg c1 (List.mem_cons_of_mem _ h1))
          (fun c1 h1 => hkey c1 (List.mem_cons_of_mem _ h1))
          hfind hobj (List.getElem?_set_self hlt) hrun
      refine ⟨w1, ?_, ?_, ho, hm, hst, hf⟩
      · simp only [addAll, hstep]
        exact hw1
      · rw [hheap]
        exact List.set_set _ _ _ _

/-- A grouped call whose state hash is not in the map registers a draw object
on the supplied or newly allocated buffer. -/
theorem addCall_new (E : Ext) (w : World) (c : Call) (buf : DrawBuffer)
    (hg : (w.pool.m_forceGrouping || c.drawBuffer.isSome) = true)
    (hfind : mapFind w.pool.m_drawObjectPointer (Call.key E w.pool.m_state c) = none)
    (hbuf : (allocHeap w.heap c.drawBuffer)[allocId w.heap c.drawBuffer]? = some buf) :
    addCall E w c = some
      ⟨(allocHeap w.heap c.drawBuffer).set (allocId w.heap c.drawBuffer)
          (buf.seed E c.method (Call.methodHash E c)),
        { w.pool.afterHash E c with
          m_drawObjectPointer := mapAssign w.pool.m_drawObjectPointer
            (Call.key E w.pool.m_state c) w.pool.m_objects.length,
          m_objects := w.pool.m_objects ++
            [⟨snapshotOf w.pool.m_state c, DrawMode.TRIANGLES, [],
              some (allocId w.heap c.drawBuffer)⟩] }⟩ := by
  rw [addCall_eq]
  unfold addBody
  have hg1 : ((w.pool.afterHash E c).m_forceGrouping || c.drawBuffer.isSome) = true := hg
  rw [if_pos hg1]
  have hfind1 : mapFind (w.pool.afterHash E c).m_drawObjectPointer
      (Call.key E w.pool.m_state c) = none := hfind
  rw [hfind1]
  simp only [addNew, hbuf]
  rfl

/-- Inside the recorded hashes a matching method hash only moves the cursor. -/
theorem advance_match (E : Ext) (buf : DrawBuffer) (m : DrawMethod) (mh i : Nat)
    (hi : buf.m_i = (i : Int)) (hmax : buf.m_i ≠ INT_MAX)
    (hrec : buf.m_hashs[i + 1]? = some mh) :
    buf.advance E m mh = some { buf with m_i := ((i + 1 : Nat) : Int) } := by
  have hlt : i + 1 < buf.m_hashs.length := (List.getElem?_eq_some.mp hrec).1
  have hvalid : buf.isValid = true := by
    unfold DrawBuffer.isValid
    rw [hi]
    simp only [decide_eq_true_eq]
    omega
  have h1 : ¬ buf.m_i = INT_MAX := hmax
  have h2 : ¬ buf.m_i + 1 = (buf.m_hashs.length : Int) := by rw [hi]; omega
  have h3 : (buf.m_i + 1).toNat = i + 1 := by rw [hi]; omega
  unfold DrawBuffer.advance
  rw [if_pos hvalid, if_neg h1, if_neg h2, h3, hrec]
  simp only [ne_eq, not_true_eq_false, if_false, hi]
  rfl

/-- Inside the recorded hashes a different method hash invalidates the
buffer: cursor -1, no recorded hashes, geometry untouched. -/
theorem advance_mismatch (E : Ext) (buf : DrawBuffer) (m : DrawMethod) (mh h i : Nat)
    (hi : buf.m_i = (i : Int)) (hmax : buf.m_i ≠ INT_MAX)
    (hrec : buf.m_hashs[i + 1]? = some h) (hne : h ≠ mh) :
    buf.advance E m mh = some { buf with m_i := -1, m_hashs := [] } := by
  have hlt : i + 1 < buf.m_hashs.length := (List.getElem?_eq_some.mp hrec).1
  have hvalid : buf.isValid = true := by
    unfold DrawBuffer.isValid
    rw [hi]
    simp only [decide_eq_true_eq]
    omega
  have h1 : ¬ buf.m_i = INT_MAX := hmax
  have h2 : ¬ buf.m_i + 1 = (buf.m_hashs.length : Int) := by rw [hi]; omega
  have h3 : (buf.m_i + 1).toNat = i + 1 := by rw [hi]; omega
  unfold DrawBuffer.advance
  rw [if_pos hvalid, if_neg h1, if_neg h2, h3, hrec]
  simp only [ne_eq, hne, not_false_eq_true, if_true]
  rfl

/-- A grouped call leaves an invalid buffer as it is. -/
theorem advance_invalid (E : Ext) (buf : DrawBuffer) (m : DrawMethod) (mh : Nat)
    (h : buf.isValid = false) : buf.advance E m mh = some buf := by
  unfold DrawBuffer.advance
  rw [h]
  rfl

/-- A run of grouped calls leaves an invalid buffer as it is. -/
theorem advanceAll_invalid (E : Ext) (cs : List Call) (buf : DrawBuffer)
    (h : buf.isValid = false) : advanceAll E buf cs = some buf := by
  induction cs with
  | nil => rfl
  | cons c cs ih =>
    simp only [advanceAll, advance_invalid E buf _ _ h]
    exact ih

/-- A run of grouped calls whose method hashes are the recorded ones from the
position after the cursor on only moves the cursor. -/
theorem advanceAll_match (E : Ext) (cs : List Call) (buf : DrawBuffer) (i : Nat)
    (hi : buf.m_i = (i : Int)) (hmax : ((i + cs.length : Nat) : Int) ≤ INT_MAX)
    (hrec : ∀ j (hj : j < cs.length),
      buf.m_hashs[i + 1 + j]? = some (Call.methodHash E cs[j])) :
    advanceAll E buf cs = some { buf with m_i := ((i + cs.length : Nat) : Int) } := by
  induction cs generalizing buf i with
  | nil =>
    simp only [advanceAll, List.length_nil, Nat.add_zero, ← hi]
  | cons c cs ih =>
    have h0 := hrec 0 (by simp)
    simp only [Nat.add_zero, List.getElem_cons_zero] at h0
    have hlen : (c :: cs).length = cs.length + 1 := rfl
    have hstep := advance_match E buf c.method (Call.methodHash E c) i hi
      (by rw [hlen] at hmax; rw [hi]; omega) h0
    simp only [advanceAll, hstep]
    have hnext := ih { buf with m_i := ((i + 1 : Nat) : Int) } (i + 1) rfl
      (by rw [hlen] at hmax; omega)
      (fun j hj => by
        have hj1 := hrec (j + 1) (by simp; omega)
        simp only [List.getElem_cons_succ] at hj1
        rw [show i + 1 + 1 + j = i + 1 + (j + 1) by omega]
        exact hj1)
    rw [hnext, hlen]
    rw [show i + 1 + cs.length = i + (cs.length + 1) by omega]

/-- Runs of grouped calls on a buffer compose. -/
theorem advanceAll_append (E : Ext) (l1 l2 : List Call) (buf : DrawBuffer) :
    advanceAll E buf (l1 ++ l2) = (advanceAll E buf l1).bind fun b1 => advanceAll E b1 l2 := by
  induction l1 generalizing buf with
  | nil => rfl
  | cons c cs ih =>
    simp only [List.cons_append, advanceAll]
    cases buf.advance E c.method (Call.methodHash E c) with
    | none => rfl
    | some b1 => exact ih b1

/-- C5 as amended: a reusable draw buffer that holds a recorded hash sequence
is supplied to the first grouped call of a frame (position 0, registered
without comparison); the next calls with that state hash match the recorded
hashes at positions 1 to k - 1 and the call that reaches position k (k at
least 1, inside the recorded sequence) carries a different method hash. Then
after that call the buffer is invalid with an empty hash sequence, and it is
still so, with its geometry untouched, after the remaining calls of the frame
on that state hash: it is not regenerated during the frame. -/
theorem invalidation_on_divergence (E : Ext) (w0 : World) (b : Nat) (buf0 : DrawBuffer)
    (c0 cd : Call) (pre post : List Call) (h : Nat)
    (hobjs : w0.pool.m_objects = []) (hmap : w0.pool.m_drawObjectPointer = [])
    (hbuf : w0.heap[b]? = some buf0) (hc0 : c0.drawBuffer = some b)
    (hgr : ∀ c ∈ pre ++ cd :: post, (w0.pool.m_forceGrouping || c.drawBuffer.isSome) = true)
    (hkey : ∀ c ∈ pre ++ cd :: post,
      Call.key E w0.pool.m_state c = Call.key E w0.pool.m_state c0)
    (hpre : ∀ j (hj : j < pre.length), buf0.m_hashs[j + 1]? = some (Call.methodHash E pre[j]))
    (hrec : buf0.m_hashs[pre.length + 1]? = some h) (hdiff : h ≠ Call.methodHash E cd)
    (hint : (pre.length : Int) < INT_MAX) :
    ∃ wk w1, addAll E w0 (c0 :: (pre ++ [cd])) = some wk ∧
      wk.heap[b]? = some { buf0 with m_i := -1, m_hashs := [] } ∧
      addAll E w0 (c0 :: (pre ++ cd :: post)) = some w1 ∧
      w1.heap[b]? = some { buf0 with m_i := -1, m_hashs := [] } ∧
      ({ buf0 with m_i := -1, m_hashs := [] } : DrawBuffer).isValid = false := by
  have hblt : b < w0.heap.length := (List.getElem?_eq_some.mp hbuf).1
  have hne : buf0.m_hashs ≠ [] := by
    intro hnil
    rw [hnil] at hrec
    simp at hrec
  -- position 0: the buffer is registered and only its cursor is reset
  have hg0 : (w0.pool.m_forceGrouping || c0.drawBuffer.isSome) = true := by simp [hc0]
  have hfind0 : mapFind w0.pool.m_drawObjectPointer (Call.key E w0.pool.m_state c0) = none := by
    rw [hmap]; rfl
  have hbuf0 : (allocHeap w0.heap c0.drawBuffer)[allocId w0.heap c0.drawBuffer]? = some buf0 := by
    rw [hc0]; exact hbuf
  have hstep0 := addCall_new E w0 c0 buf0 hg0 hfind0 hbuf0
  have hseed : buf0.seed E c0.method (Call.methodHash E c0) = { buf0 with m_i := 0 } := by
    unfold DrawBuffer.seed
    have : buf0.m_hashs.isEmpty = false := by
      cases hh : buf0.m_hashs with
      | nil => exact absurd hh hne
      | cons x xs => rfl
    rw [this]
    rfl
  rw [hseed, hc0, hobjs, hmap] at hstep0
  simp only [allocHeap, allocId, List.nil_append, List.length_nil] at hstep0
  -- the run on the registered buffer
  have hrunPre : advanceAll E { buf0 with m_i := 0 } pre =
      some { buf0 with m_i := ((0 + pre.length : Nat) : Int) } :=
    advanceAll_match E pre { buf0 with m_i := 0 } 0 rfl (by omega)
      (fun j hj => by rw [show 0 + 1 + j = j + 1 by omega]; exact hpre j hj)
  have hcd : ({ buf0 with m_i := ((0 + pre.length : Nat) : Int) } : DrawBuffer).advance E
      cd.method (Call.methodHash E cd) = some { buf0 with m_i := -1, m_hashs := [] } :=
    advance_mismatch E _ cd.method (Call.methodHash E cd) h (0 + pre.length) rfl
      (by show ((0 + pre.length : Nat) : Int) ≠ INT_MAX; omega)
      (by rw [Nat.zero_add]; exact hrec) hdiff
  have hinv : ({ buf0 with m_i := -1, m_hashs := [] } : DrawBuffer).isValid = false := by
    simp [DrawBuffer.isValid]
  have hrunK : advanceAll E { buf0 with m_i := 0 } (pre ++ [cd]) =
      some { buf0 with m_i := -1, m_hashs := [] } := by
    rw [advanceAll_append, hrunPre]
    simp only [Option.some_bind, advanceAll, hcd]
  have hrunAll : advanceAll E { buf0 with m_i := 0 } (pre ++ cd :: post) =
      some { buf0 with m_i := -1, m_hashs := [] } := by
    rw [advanceAll_append, hrunPre]
    simp only [Option.some_bind, advanceAll, hcd]
    exact advanceAll_invalid E post _ hinv
  have hfindA : mapFind (mapAssign [] (Call.key E w0.pool.m_state c0) 0)
      (Call.key E w0.pool.m_state c0) = some 0 := by
    simp [mapAssign, mapFind]
  obtain ⟨wk, hwk, hheapk, -⟩ := addAll_found E (pre ++ [cd])
    ⟨w0.heap.set b { buf0 with m_i := 0 },
      { w0.pool.afterHash E c0 with
        m_drawObjectPointer := mapAssign [] (Call.key E w0.pool.m_state c0) 0,
        m_objects := [⟨snapshotOf w0.pool.m_state c0, DrawMode.TRIANGLES, [], some b⟩] }⟩
    (Call.key E w0.pool.m_state c0) 0 b
    ⟨snapshotOf w0.pool.m_state c0, DrawMode.TRIANGLES, [], some b⟩
    { buf0 with m_i := 0 } { buf0 with m_i := -1, m_hashs := [] }
    (fun c hc => hgr c (by
      rcases List.mem_append.mp hc with hc | hc
      · exact List.mem_append_left _ hc
      · simp only [List.mem_singleton] at hc
        subst hc
        simp))
    (fun c hc => hkey c (by
      rcases List.mem_append.mp hc with hc | hc
      · exact List.mem_append_left _ hc
      · simp only [List.mem_singleton] at hc
        subst hc
        simp))
    hfindA rfl rfl (List.getElem?_set_self hblt) hrunK
  obtain ⟨w1, hw1, hheap1, -⟩ := addAll_found E (pre ++ cd :: post)
    ⟨w0.heap.set b { buf0 with m_i := 0 },
      { w0.pool.afterHash E c0 with
        m_drawObjectPointer := mapAssign [] (Call.key E w0.pool.m_state c0) 0,
        m_objects := [⟨snapshotOf w0.pool.m_state c0, DrawMode.TRIANGLES, [], some b⟩] }⟩
    (Call.key E w0.pool.m_state c0) 0 b
    ⟨snapshotOf w0.pool.m_state c0, DrawMode.TRIANGLES, [], some b⟩
    { buf0 with m_i := 0 } { buf0 with m_i := -1, m_hashs := [] }
    hgr hkey hfindA rfl rfl (List.getElem?_set_self hblt) hrunAll
  refine ⟨wk, w1, ?_, ?_, ?_, ?_, hinv⟩
  · simp only [addAll, hstep0]
    exact hwk
  · rw [hheapk, List.set_set]
    exact List.getElem?_set_self hblt
  · simp only [addAll, hstep0]
    exact hw1
  · rw [hheap1, List.set_set]
    exact List.getElem?_set_self hblt

/-- The hypotheses of the amended C5 hold when the frame A, B, X, C follows
the recorded frame A, B, C on the TEXT pool: the call X reaches position 2. -/
theorem invalidation_on_divergence_witness :
    ∃ wk w1, addAll sampleExt (beginFrame textAfterABC) (callA :: ([callB] ++ [callX])) = some wk ∧
      wk.heap[0]? = some { bufferABC with m_i := -1, m_hashs := [] } ∧
      addAll sampleExt (beginFrame textAfterABC) (callA :: ([callB] ++ callX :: [callC]))
        = some w1 ∧
      w1.heap[0]? = some { bufferABC with m_i := -1, m_hashs := [] } ∧
      ({ bufferABC with m_i := -1, m_hashs := [] } : DrawBuffer).isValid = false :=
  invalidation_on_divergence sampleExt (beginFrame textAfterABC) 0 bufferABC callA callX
    [callB] [callC] 74 (by decide) (by decide) (by decide) (by decide) (by decide) (by decide)
    (fun j hj => by
      have hj0 : j = 0 := by simpa using hj
      subst hj0
      rfl)
    (by decide) (by decide) (by decide)

/-- C5 as stated fails: the frame A, B, C records three hashes and three
geometry chunks in the caller-owned buffer; the next frame sends A, X, C, so
position 1 differs. At the end of that frame the buffer is invalid, its hash
sequence is empty and its geometry is still that of A, B, C: it has not been
regenerated with the hashes and geometry of A, X, C. -/
theorem invalidation_counterexample :
    (addAll sampleExt textWorld [callA, callB, callC]).map (fun w => w.heap)
      = some [⟨2, ⟨0, 0⟩, [72, 73, 74], some [65, 66, 67]⟩] ∧
    [callA, callX, callC].map (Call.methodHash sampleExt) = [72, 95, 74] ∧
    (addAll sampleExt (beginFrame textAfterABC) [callA, callX, callC]).map (fun w => w.heap)
      = some [⟨-1, ⟨0, 0⟩, [], some [65, 66, 67]⟩] := by
  decide

/-- C6 fails on the code: the caller-owned buffer holds the hashes and
geometry of the frame A, B, C; the next frame issues one call, X, with the
same state hash and that buffer. The buffer ends the frame valid (cursor 0)
with the recorded hashes of A, B, C and their geometry, while the method hash
requested against it is that of X. -/
theorem buffer_trust_failing_input :
    (addAll sampleExt (beginFrame textAfterABC) [callX]).map (fun w => w.heap)
      = some [⟨0, ⟨0, 0⟩, [72, 73, 74], some [65, 66, 67]⟩] ∧
    (⟨0, ⟨0, 0⟩, [72, 73, 74], some [65, 66, 67]⟩ : DrawBuffer).isValid = true ∧
    [callX].map (Call.methodHash sampleExt) = [95] ∧
    Call.key sampleExt textWorld.pool.m_state callX
      = Call.key sampleExt textWorld.pool.m_state callA := by
  decide

/-! ### Repeating a grouped frame -/

/-- What a quiet step says cell by cell. -/
theorem quietStep_spec (h h1 : List DrawBuffer) (hq : quietStep h h1 = true) :
    h1.length = h.length ∧
    ∀ (i : Nat) (b b1 : DrawBuffer),
      h[i]? = some b → h1[i]? = some b1 → b.isValid = true → b1.isValid = true := by
  unfold quietStep at hq
  simp only [Bool.and_eq_true, decide_eq_true_eq, List.all_eq_true, List.mem_range] at hq
  refine ⟨hq.1, ?_⟩
  intro i b b1 hb hb1 hv
  have hlt : i < h.length := (List.getElem?_eq_some.mp hb).1
  have := hq.2 i hlt
  rw [hb, hb1] at this
  simpa [hv] using this

/-- The four outcomes of the grouped step on a buffer. -/
theorem advance_cases (E : Ext) (buf buf1 : DrawBuffer) (m : DrawMethod) (mh : Nat)
    (h : buf.advance E m mh = some buf1) :
    (buf.isValid = false ∧ buf1 = buf) ∨
    (buf.isValid = true ∧ buf.m_i ≠ INT_MAX ∧ buf.m_i + 1 = (buf.m_hashs.length : Int) ∧
      ∃ coords, buf.m_coords = some coords ∧
        buf1 = { buf with m_i := buf.m_i + 1, m_hashs := buf.m_hashs ++ [mh],
                          m_coords := some (E.method_add m coords) }) ∨
    (buf.isValid = true ∧ buf.m_i ≠ INT_MAX ∧ buf.m_i + 1 ≠ (buf.m_hashs.length : Int) ∧
      buf.m_hashs[(buf.m_i + 1).toNat]? = some mh ∧ buf1 = { buf with m_i := buf.m_i + 1 }) ∨
    (buf.isValid = true ∧ buf1.isValid = false) := by
  unfold DrawBuffer.advance at h
  cases hv : buf.isValid with
  | false =>
    rw [hv] at h
    simp only [Bool.false_eq_true, if_false, Option.some.injEq] at h
    exact Or.inl ⟨rfl, h.symm⟩
  | true =>
    rw [hv] at h
    simp only [if_true] at h
    right
    by_cases hmax : buf.m_i = INT_MAX
    · rw [if_pos hmax] at h
      exact absurd h (by simp)
    · rw [if_neg hmax] at h
      by_cases hend : buf.m_i + 1 = (buf.m_hashs.length : Int)
      · rw [if_pos hend] at h
        left
        cases hc : buf.m_coords with
        | none => rw [hc] at h; exact absurd h (by simp)
        | some coords =>
          rw [hc] at h
          simp only [Option.some.injEq] at h
          exact ⟨rfl, hmax, hend, coords, rfl, h.symm⟩
      · rw [if_neg hend] at h
        right
        cases hr : buf.m_hashs[(buf.m_i + 1).toNat]? with
        | none => rw [hr] at h; exact absurd h (by simp)
        | some x =>
          rw [hr] at h
          simp only at h
          by_cases hx : x = mh
          · left
            subst hx
            simp only [ne_eq, not_true_eq_false, if_false, Option.some.injEq] at h
            exact ⟨rfl, hmax, hend, rfl, h.symm⟩
          · right
            simp only [ne_eq, hx, not_false_eq_true, if_true, Option.some.injEq] at h
            refine ⟨rfl, ?_⟩
            rw [← h]
            simp [DrawBuffer.invalidate, DrawBuffer.isValid]

/-- The three shapes of a successful call of `add`: ungrouped, grouped with
the state hash found, grouped with a new state hash. -/
theorem addCall_cases (E : Ext) (w w1 : World) (c : Call) (h : addCall E w c = some w1) :
    ((w.pool.m_forceGrouping || c.drawBuffer.isSome) = false ∧ w1.heap = w.heap) ∨
    ((w.pool.m_forceGrouping || c.drawBuffer.isSome) = true ∧
      ∃ idx obj b buf buf1,
        mapFind w.pool.m_drawObjectPointer (Call.key E w.pool.m_state c) = some idx ∧
        w.pool.m_objects[idx]? = some obj ∧ obj.buffer = some b ∧ w.heap[b]? = some buf ∧
        buf.advance E c.method (Call.methodHash E c) = some buf1 ∧
        w1 = ⟨w.heap.set b buf1, w.pool.afterHash E c⟩) ∨
    ((w.pool.m_forceGrouping || c.drawBuffer.isSome) = true ∧
      mapFind w.pool.m_drawObjectPointer (Call.key E w.pool.m_state c) = none ∧
      ∃ buf, (allocHeap w.heap c.drawBuffer)[allocId w.heap c.drawBuffer]? = some buf ∧
        w1 = ⟨(allocHeap w.heap c.drawBuffer).set (allocId w.heap c.drawBuffer)
                (buf.seed E c.method (Call.methodHash E c)),
              { w.pool.afterHash E c with
                m_drawObjectPointer := mapAssign w.pool.m_drawObjectPointer
                  (Call.key E w.pool.m_state c) w.pool.m_objects.length,
                m_objects := w.pool.m_objects ++
                  [⟨snapshotOf w.pool.m_state c, DrawMode.TRIANGLES, [],
                    some (allocId w.heap c.drawBuffer)⟩] }⟩) := by
  cases hg : (w.pool.m_forceGrouping || c.drawBuffer.isSome) with
  | false =>
    left
    refine ⟨rfl, ?_⟩
    rw [addCall_eq] at h
    unfold addBody at h
    have hg1 : ((w.pool.afterHash E c).m_forceGrouping || c.drawBuffer.isSome) = false := hg
    rw [hg1] at h
    simp only [Bool.false_eq_true, if_false] at h
    cases hu : addUngrouped (w.pool.afterHash E c).m_objects (snapshotOf w.pool.m_state c)
        c.method c.drawMode with
    | none => rw [hu] at h; exact absurd h (by simp)
    | some l =>
      rw [hu] at h
      simp only [Option.map_some', Option.some.injEq] at h
      subst h
      rfl
  | true =>
    right
    cases hfind : mapFind w.pool.m_drawObjectPointer (Call.key E w.pool.m_state c) with
    | some idx =>
      left
      refine ⟨rfl, ?_⟩
      have h0 := h
      rw [addCall_eq] at h0
      unfold addBody at h0
      have hg1 : ((w.pool.afterHash E c).m_forceGrouping || c.drawBuffer.isSome) = true := hg
      have hfind1 : mapFind (w.pool.afterHash E c).m_drawObjectPointer
          (Call.key E w.pool.m_state c) = some idx := hfind
      rw [if_pos hg1, hfind1] at h0
      simp only at h0
      unfold addFound at h0
      have hobjs : (w.pool.afterHash E c).m_objects = w.pool.m_objects := rfl
      rw [hobjs] at h0
      cases hobj : w.pool.m_objects[idx]? with
      | none => rw [hobj] at h0; exact absurd h0 (by simp)
      | some obj =>
        rw [hobj] at h0
        simp only at h0
        cases hb : obj.buffer with
        | none => rw [hb] at h0; exact absurd h0 (by simp)
        | some b =>
          rw [hb] at h0
          simp only at h0
          cases hbuf : w.heap[b]? with
          | none => rw [hbuf] at h0; exact absurd h0 (by simp)
          | some buf =>
            rw [hbuf] at h0
            simp only at h0
            cases hadv : buf.advance E c.method (Call.methodHash E c) with
            | none => rw [hadv] at h0; exact absurd h0 (by simp)
            | some buf1 =>
              rw [hadv] at h0
              simp only [Option.map_some', Option.some.injEq] at h0
              exact ⟨idx, obj, b, buf, buf1, rfl, hobj, hb, hbuf, hadv, h0.symm⟩
    | none =>
      right
      refine ⟨rfl, rfl, ?_⟩
      cases hbuf : (allocHeap w.heap c.drawBuffer)[allocId w.heap c.drawBuffer]? with
      | none =>
        rw [addCall_eq] at h
        unfold addBody at h
        have hg1 : ((w.pool.afterHash E c).m_forceGrouping || c.drawBuffer.isSome) = true := hg
        have hfind1 : mapFind (w.pool.afterHash E c).m_drawObjectPointer
            (Call.key E w.pool.m_state c) = none := hfind
        rw [if_pos hg1, hfind1] at h
        simp only [addNew, hbuf] at h
        exact absurd h (by simp)
      | some buf =>
        have hn := addCall_new E w c buf hg hfind hbuf
        rw [hn] at h
        simp only [Option.some.injEq] at h
        exact ⟨buf, rfl, h.symm⟩

/-- The hashes of a registered buffer: seeded when there were none. -/
theorem seed_hashs (E : Ext) (buf : DrawBuffer) (m : DrawMethod) (mh : Nat) :
    (buf.seed E m mh).m_i = 0 ∧ (buf.seed E m mh).m_ref = buf.m_ref ∧
    (buf.seed E m mh).m_hashs ≠ [] ∧
    (∃ t, (buf.seed E m mh).m_hashs = buf.m_hashs ++ t) ∧
    (buf.m_hashs ≠ [] → buf.seed E m mh = { buf with m_i := 0 }) := by
  unfold DrawBuffer.seed
  by_cases hh : buf.m_hashs = []
  · have he : buf.m_hashs.isEmpty = true := by rw [hh]; rfl
    rw [if_pos he]
    exact ⟨rfl, rfl, by simp, ⟨[mh], rfl⟩, fun h => absurd hh h⟩
  · have he : ¬ buf.m_hashs.isEmpty = true := by
      rw [List.isEmpty_iff]; exact hh
    rw [if_neg he]
    exact ⟨rfl, rfl, hh, ⟨[], by simp⟩, fun _ => rfl⟩

/-- A quiet call that registers a new draw object was given its buffer. -/
theorem quiet_new_supplied (heap : List DrawBuffer) (drawBuffer : Option Nat)
    (x : DrawBuffer)
    (hlen : ((allocHeap heap drawBuffer).set (allocId heap drawBuffer) x).length = heap.length) :
    ∃ b, drawBuffer = some b ∧ allocHeap heap drawBuffer = heap ∧
      allocId heap drawBuffer = b := by
  cases drawBuffer with
  | none =>
    simp only [allocHeap, List.length_set, List.length_append, List.length_singleton] at hlen
    omega
  | some b => exact ⟨b, rfl, rfl, rfl⟩

/-- In a quiet call the recorded hashes of every buffer only grow. -/
theorem quiet_step_grow (E : Ext) (wa wa1 : World) (c : Call)
    (h : addCall E wa c = some wa1) (hq : quietStep wa.heap wa1.heap = true)
    (i : Nat) (ba : DrawBuffer) (hi : wa.heap[i]? = some ba) :
    ∃ ba1, wa1.heap[i]? = some ba1 ∧ ∃ t, ba1.m_hashs = ba.m_hashs ++ t := by
  obtain ⟨hlen, hval⟩ := quietStep_spec _ _ hq
  have hilt : i < wa.heap.length := (List.getElem?_eq_some.mp hi).1
  rcases addCall_cases E wa wa1 c h with ⟨-, hheap⟩ |
    ⟨-, idx, obj, b, buf, buf1, -, -, -, hbuf, hadv, hw⟩ | ⟨-, -, buf, hbuf, hw⟩
  · rw [hheap]
    exact ⟨ba, hi, [], by simp⟩
  · subst hw
    by_cases hb : b = i
    · subst hb
      rw [hbuf] at hi
      simp only [Option.some.injEq] at hi
      subst hi
      refine ⟨buf1, List.getElem?_set_self hilt, ?_⟩
      rcases advance_cases E buf buf1 c.method _ hadv with ⟨-, h1⟩ | ⟨-, -, -, coords, -, h1⟩ |
        ⟨-, -, -, -, h1⟩ | ⟨hv, hv1⟩
      · subst h1; exact ⟨[], by simp⟩
      · subst h1; exact ⟨[Call.methodHash E c], rfl⟩
      · subst h1; exact ⟨[], by simp⟩
      · have := hval b buf buf1 hbuf (List.getElem?_set_self hilt) hv
        rw [hv1] at this
        exact absurd this (by simp)
    · refine ⟨ba, ?_, [], by simp⟩
      show (wa.heap.set b buf1)[i]? = some ba
      rw [List.getElem?_set_ne hb]
      exact hi
  · subst hw
    obtain ⟨b, -, hheap, hid⟩ := quiet_new_supplied wa.heap c.drawBuffer _ hlen
    rw [hheap, hid] at hbuf
    by_cases hb : b = i
    · subst hb
      rw [hbuf] at hi
      simp only [Option.some.injEq] at hi
      subst hi
      refine ⟨buf.seed E c.method (Call.methodHash E c), ?_, (seed_hashs E buf _ _).2.2.2.1⟩
      show ((allocHeap wa.heap c.drawBuffer).set (allocId wa.heap c.drawBuffer) _)[b]? = _
      rw [hheap, hid]
      exact List.getElem?_set_self hilt
    · refine ⟨ba, ?_, [], by simp⟩
      show ((allocHeap wa.heap c.drawBuffer).set (allocId wa.heap c.drawBuffer) _)[i]? = _
      rw [hheap, hid, List.getElem?_set_ne hb]
      exact hi

/-- In a quiet run the heap keeps its length and the recorded hashes of every
buffer only grow. -/
theorem quiet_grow (E : Ext) (cs : List Call) (wa w1 : World)
    (h : addAll E wa cs = some w1) (hq : Quiet E wa cs = true) :
    w1.heap.length = wa.heap.length ∧
    ∀ (i : Nat) (ba : DrawBuffer), wa.heap[i]? = some ba →
      ∃ b1, w1.heap[i]? = some b1 ∧ ∃ t, b1.m_hashs = ba.m_hashs ++ t := by
  induction cs generalizing wa with
  | nil =>
    simp only [addAll, Option.some.injEq] at h
    subst h
    exact ⟨rfl, fun i ba hi => ⟨ba, hi, [], by simp⟩⟩
  | cons c cs ih =>
    simp only [addAll] at h
    simp only [Quiet] at hq
    cases hstep : addCall E wa c with
    | none => rw [hstep] at h; exact absurd h (by simp)
    | some wm =>
      rw [hstep] at h hq
      simp only [Bool.and_eq_true] at hq
      obtain ⟨hlen2, hg2⟩ := ih wm h hq.2
      refine ⟨hlen2.trans (quietStep_spec _ _ hq.1).1, ?_⟩
      intro i ba hi
      obtain ⟨bm, hbm, t1, ht1⟩ := quiet_step_grow E wa wm c hstep hq.1 i ba hi
      obtain ⟨b1, hb1, t2, ht2⟩ := hg2 i bm hbm
      exact ⟨b1, hb1, t1 ++ t2, by rw [ht2, ht1, List.append_assoc]⟩

/-- Under the frame relation every buffer of the repeated frame has the
hashes and geometry the first frame ended with. -/
theorem frameRel_contents (H1 : List DrawBuffer) (wa wb : World) (hR : FrameRel H1 wa wb) :
    contents wb.heap = contents H1 := by
  obtain ⟨-, -, -, -, -, lenB, hcell⟩ := hR
  unfold contents
  apply List.ext_getElem?
  intro n
  rw [List.getElem?_map, List.getElem?_map]
  cases hb : wb.heap[n]? with
  | none =>
    have hn : wb.heap.length ≤ n := List.getElem?_eq_none_iff.mp hb
    rw [List.getElem?_eq_none (by omega)]
  | some bb =>
    obtain ⟨b1, hb1, hh, hc, -⟩ := hcell n bb hb
    rw [hb1]
    simp [hh, hc]

/-- A valid cursor is a natural number. -/
theorem valid_cursor (buf : DrawBuffer) (h : buf.isValid = true) :
    ∃ i : Nat, buf.m_i = (i : Int) := by
  unfold DrawBuffer.isValid at h
  simp only [decide_eq_true_eq] at h
  exact ⟨buf.m_i.toNat, by omega⟩

/-- The step of the frame relation when the state hash of the call is in the
map: where the first frame appended or matched, the repeated frame matches. -/
theorem frame_step_found (E : Ext) (H1 : List DrawBuffer) (wa wb : World) (c : Call)
    (idx b : Nat) (obj : DrawObject) (buf buf1 : DrawBuffer)
    (hR : FrameRel H1 wa wb)
    (hg : (wa.pool.m_forceGrouping || c.drawBuffer.isSome) = true)
    (hfind : mapFind wa.pool.m_drawObjectPointer (Call.key E wa.pool.m_state c) = some idx)
    (hobj : wa.pool.m_objects[idx]? = some obj) (hb : obj.buffer = some b)
    (hbuf : wa.heap[b]? = some buf)
    (hadv : buf.advance E c.method (Call.methodHash E c) = some buf1)
    (hq : quietStep wa.heap (wa.heap.set b buf1) = true)
    (hgrow : ∃ b1, H1[b]? = some b1 ∧ ∃ t, b1.m_hashs = buf1.m_hashs ++ t) :
    ∃ wb1, addCall E wb c = some wb1 ∧
      FrameRel H1 ⟨wa.heap.set b buf1, wa.pool.afterHash E c⟩ wb1 := by
  obtain ⟨ho, hm, hs, hf, lenA, lenB, hcell⟩ := hR
  obtain ⟨-, hval⟩ := quietStep_spec _ _ hq
  have hblt : b < wa.heap.length := (List.getElem?_eq_some.mp hbuf).1
  have hbltB : b < wb.heap.length := by omega
  have htouched : touched wa.pool b := ⟨obj, List.getElem?_mem hobj, hb⟩
  obtain ⟨b1, hb1, hh, hc, hr, ht, -⟩ := hcell b wb.heap[b] (List.getElem?_eq_getElem hbltB)
  obtain ⟨ba, hba, hmi, hva⟩ := ht htouched
  rw [hbuf] at hba
  simp only [Option.some.injEq] at hba
  subst hba
  obtain ⟨b1x, hb1x, t, hgt⟩ := hgrow
  rw [hb1] at hb1x
  simp only [Option.some.injEq] at hb1x
  subst hb1x
  obtain ⟨i, hi⟩ := valid_cursor buf hva
  have hv1 : buf1.isValid = true := hval b buf buf1 hbuf (List.getElem?_set_self hblt) hva
  -- the repeated frame finds the recorded hash at the position after the cursor
  have hkey : buf.m_i ≠ INT_MAX ∧ buf1.m_i = ((i + 1 : Nat) : Int) ∧
      b1.m_hashs[i + 1]? = some (Call.methodHash E c) := by
    rcases advance_cases E buf buf1 c.method _ hadv with ⟨hinv, -⟩ |
      ⟨-, hmax, hend, coords, -, h1⟩ | ⟨-, hmax, -, hrec, h1⟩ | ⟨-, hinv⟩
    · rw [hva] at hinv
      exact absurd hinv (by simp)
    · subst h1
      refine ⟨hmax, ?_, ?_⟩
      · show buf.m_i + 1 = _
        rw [hi]; rfl
      · rw [hgt]
        have hl : i + 1 = buf.m_hashs.length := by rw [hi] at hend; omega
        show (buf.m_hashs ++ [Call.methodHash E c] ++ t)[i + 1]? = _
        rw [hl, List.append_assoc, List.getElem?_append_right (le_refl _)]
        simp
    · subst h1
      refine ⟨hmax, ?_, ?_⟩
      · show buf.m_i + 1 = _
        rw [hi]; rfl
      · rw [hgt]
        have h3 : (buf.m_i + 1).toNat = i + 1 := by rw [hi]; omega
        rw [h3] at hrec
        show (buf.m_hashs ++ t)[i + 1]? = _
        rw [List.getElem?_append_left (List.getElem?_eq_some.mp hrec).1]
        exact hrec
    · rw [hv1] at hinv
      exact absurd hinv (by simp)
  obtain ⟨hmax, hm1, hrec⟩ := hkey
  have hadvB : (wb.heap[b]).advance E c.method (Call.methodHash E c) =
      some { wb.heap[b] with m_i := ((i + 1 : Nat) : Int) } :=
    advance_match E wb.heap[b] c.method _ i (hmi.trans hi) (by rw [hmi]; exact hmax)
      (by rw [hh]; exact hrec)
  have hstepB := addCall_found E wb c idx b obj wb.heap[b] _
    (by rw [hf]; exact hg) (by rw [hm, hs]; exact hfind) (by rw [ho]; exact hobj) hb
    (List.getElem?_eq_getElem hbltB) hadvB
  refine ⟨_, hstepB, ?_⟩
  refine ⟨ho, hm, hs, hf, ?_, ?_, ?_⟩
  · show (wa.heap.set b buf1).length = H1.length
    rw [List.length_set]; exact lenA
  · show (wb.heap.set b _).length = H1.length
    rw [List.length_set]; exact lenB
  · intro j bbj hj
    have hj1 : (wb.heap.set b { wb.heap[b] with m_i := ((i + 1 : Nat) : Int) })[j]? = some bbj := hj
    by_cases hbj : b = j
    · subst hbj
      rw [List.getElem?_set_self hbltB] at hj1
      simp only [Option.some.injEq] at hj1
      subst hj1
      refine ⟨b1, hb1, hh, hc, hr, ?_, ?_⟩
      · intro _
        exact ⟨buf1, List.getElem?_set_self hblt, hm1.symm, hv1⟩
      · intro hnt
        exact absurd htouched hnt
    · rw [List.getElem?_set_ne hbj] at hj1
      obtain ⟨b1j, hb1j, hhj, hcj, hrj, htj, hnj⟩ := hcell j bbj hj1
      refine ⟨b1j, hb1j, hhj, hcj, hrj, ?_, hnj⟩
      intro htj1
      obtain ⟨baj, hbaj, hmij, hvaj⟩ := htj htj1
      refine ⟨baj, ?_, hmij, hvaj⟩
      show (wa.heap.set b buf1)[j]? = some baj
      rw [List.getElem?_set_ne hbj]
      exact hbaj

/-- The step of the frame relation when the call registers a new draw object
on a supplied buffer: the first frame may seed the buffer, the repeated frame
finds it with recorded hashes and only resets the cursor. -/
theorem frame_step_new (E : Ext) (H1 : List DrawBuffer) (wa wb : World) (c : Call) (b : Nat)
    (buf : DrawBuffer)
    (hR : FrameRel H1 wa wb)
    (hg : (wa.pool.m_forceGrouping || c.drawBuffer.isSome) = true)
    (hfind : mapFind wa.pool.m_drawObjectPointer (Call.key E wa.pool.m_state c) = none)
    (hdb : c.drawBuffer = some b) (hbuf : wa.heap[b]? = some buf)
    (hgrow : ∃ b1, H1[b]? = some b1 ∧
      ∃ t, b1.m_hashs = (buf.seed E c.method (Call.methodHash E c)).m_hashs ++ t) :
    ∃ wb1, addCall E wb c = some wb1 ∧
      FrameRel H1
        ⟨wa.heap.set b (buf.seed E c.method (Call.methodHash E c)),
          { wa.pool.afterHash E c with
            m_drawObjectPointer := mapAssign wa.pool.m_drawObjectPointer
              (Call.key E wa.pool.m_state c) wa.pool.m_objects.length,
            m_objects := wa.pool.m_objects ++
              [⟨snapshotOf wa.pool.m_state c, DrawMode.TRIANGLES, [], some b⟩] }⟩ wb1 := by
  obtain ⟨ho, hm, hs, hf, lenA, lenB, hcell⟩ := hR
  have hblt : b < wa.heap.length := (List.getElem?_eq_some.mp hbuf).1
  have hbltB : b < wb.heap.length := by omega
  obtain ⟨b1, hb1, hh, hc, hr, -, -⟩ := hcell b wb.heap[b] (List.getElem?_eq_getElem hbltB)
  obtain ⟨b1x, hb1x, t, hgt⟩ := hgrow
  rw [hb1] at hb1x
  simp only [Option.some.injEq] at hb1x
  subst hb1x
  obtain ⟨hs0, -, hsne, -, -⟩ := seed_hashs E buf c.method (Call.methodHash E c)
  have hne : (wb.heap[b]).m_hashs ≠ [] := by
    rw [hh, hgt]
    intro hnil
    exact hsne (List.append_eq_nil.mp hnil).1
  have hseedB := (seed_hashs E wb.heap[b] c.method (Call.methodHash E c)).2.2.2.2 hne
  have hstepB := addCall_new E wb c wb.heap[b] (by rw [hf]; exact hg)
    (by rw [hm, hs]; exact hfind)
    (by rw [hdb]; exact List.getElem?_eq_getElem hbltB)
  rw [hseedB, hdb, ho, hm, hs] at hstepB
  refine ⟨_, hstepB, ?_⟩
  have hnewT : touched
      ({ wa.pool.afterHash E c with
          m_drawObjectPointer := mapAssign wa.pool.m_drawObjectPointer
            (Call.key E wa.pool.m_state c) wa.pool.m_objects.length,
          m_objects := wa.pool.m_objects ++
            [⟨snapshotOf wa.pool.m_state c, DrawMode.TRIANGLES, [], some b⟩] } : Pool) b :=
    ⟨⟨snapshotOf wa.pool.m_state c, DrawMode.TRIANGLES, [], some b⟩,
      List.mem_append_right _ (List.mem_singleton_self _), rfl⟩
  refine ⟨rfl, rfl, hs, hf, ?_, ?_, ?_⟩
  · show (wa.heap.set b _).length = H1.length
    rw [List.length_set]; exact lenA
  · show ((allocHeap wb.heap (some b)).set (allocId wb.heap (some b)) _).length = H1.length
    simp only [allocHeap, allocId, List.length_set]
    exact lenB
  · intro j bbj hj
    have hj1 : (wb.heap.set b { wb.heap[b] with m_i := 0 })[j]? = some bbj := hj
    by_cases hbj : b = j
    · subst hbj
      rw [List.getElem?_set_self hbltB] at hj1
      simp only [Option.some.injEq] at hj1
      subst hj1
      refine ⟨b1, hb1, hh, hc, hr, ?_, ?_⟩
      · intro _
        refine ⟨buf.seed E c.method (Call.methodHash E c), List.getElem?_set_self hblt,
          hs0.symm, ?_⟩
        unfold DrawBuffer.isValid
        rw [hs0]
        decide
      · intro hnt
        exact absurd hnewT hnt
    · rw [List.getElem?_set_ne hbj] at hj1
      obtain ⟨b1j, hb1j, hhj, hcj, hrj, htj, hnj⟩ := hcell j bbj hj1
      refine ⟨b1j, hb1j, hhj, hcj, hrj, ?_, ?_⟩
      · intro htj1
        have htold : touched wa.pool j := by
          obtain ⟨o, ho1, hob⟩ := htj1
          rcases List.mem_append.mp ho1 with ho1 | ho1
          · exact ⟨o, ho1, hob⟩
          · simp only [List.mem_singleton] at ho1
            subst ho1
            simp only [Option.some.injEq] at hob
            exact absurd hob hbj
        obtain ⟨baj, hbaj, hmij, hvaj⟩ := htj htold
        refine ⟨baj, ?_, hmij, hvaj⟩
        show (wa.heap.set b _)[j]? = some baj
        rw [List.getElem?_set_ne hbj]
        exact hbaj
      · intro hnt
        apply hnj
        intro htold
        obtain ⟨o, ho1, hob⟩ := htold
        exact hnt ⟨o, List.mem_append_left _ ho1, hob⟩

/-- The step of the frame relation: a grouped quiet call of the first frame, after
which the recorded hashes only grow towards `H1`, is matched by the
same call of the repeated frame. -/
theorem frame_step (E : Ext) (H1 : List DrawBuffer) (wa wa1 wb : World) (c : Call)
    (hR : FrameRel H1 wa wb)
    (hg : (wa.pool.m_forceGrouping || c.drawBuffer.isSome) = true)
    (h : addCall E wa c = some wa1) (hq : quietStep wa.heap wa1.heap = true)
    (hgrow : ∀ (i : Nat) (ba1 : DrawBuffer), wa1.heap[i]? = some ba1 →
      ∃ b1, H1[i]? = some b1 ∧ ∃ t, b1.m_hashs = ba1.m_hashs ++ t) :
    ∃ wb1, addCall E wb c = some wb1 ∧ FrameRel H1 wa1 wb1 := by
  rcases addCall_cases E wa wa1 c h with ⟨hng, -⟩ |
    ⟨-, idx, obj, b, buf, buf1, hfind, hobj, hb, hbuf, hadv, hw⟩ | ⟨-, hfind, buf, hbuf, hw⟩
  · rw [hg] at hng
    exact absurd hng (by simp)
  · subst hw
    have hblt : b < wa.heap.length := (List.getElem?_eq_some.mp hbuf).1
    exact frame_step_found E H1 wa wb c idx b obj buf buf1 hR hg hfind hobj hb hbuf hadv hq
      (hgrow b buf1 (List.getElem?_set_self hblt))
  · subst hw
    obtain ⟨hlen, -⟩ := quietStep_spec _ _ hq
    obtain ⟨b, hdb, hheap, hid⟩ := quiet_new_supplied wa.heap c.drawBuffer _ hlen
    have hbuf1 : wa.heap[b]? = some buf := by rw [hheap, hid] at hbuf; exact hbuf
    have hblt : b < wa.heap.length := (List.getElem?_eq_some.mp hbuf1).1
    have hg1 := hgrow b (buf.seed E c.method (Call.methodHash E c)) (by
      show ((allocHeap wa.heap c.drawBuffer).set (allocId wa.heap c.drawBuffer) _)[b]? = _
      rw [hheap, hid]
      exact List.getElem?_set_self hblt)
    have hres := frame_step_new E H1 wa wb c b buf hR hg hfind hdb hbuf1 hg1
    simp only [hheap, hid]
    exact hres

/-- A run of calls keeps the ambient state and the grouping flag. -/
theorem addAll_pool (E : Ext) (cs : List Call) (w w1 : World) (h : addAll E w cs = some w1) :
    w1.pool.m_state = w.pool.m_state ∧ w1.pool.m_forceGrouping = w.pool.m_forceGrouping := by
  induction cs generalizing w with
  | nil =>
    simp only [addAll, Option.some.injEq] at h
    subst h
    exact ⟨rfl, rfl⟩
  | cons c cs ih =>
    simp only [addAll] at h
    cases hstep : addCall E w c with
    | none => rw [hstep] at h; exact absurd h (by simp)
    | some wm =>
      rw [hstep] at h
      have hp := addCall_pool E w wm c hstep
      have hr := ih wm h
      exact ⟨hr.1.trans hp.1, hr.2.trans hp.2.2.2.2⟩

/-- At the end of the first frame the frame relation makes the two heaps
equal. -/
theorem frameRel_end (wa wb : World) (hR : FrameRel wa.heap wa wb) : wb.heap = wa.heap := by
  obtain ⟨-, -, -, -, -, lenB, hcell⟩ := hR
  apply List.ext_getElem?
  intro n
  cases hb : wb.heap[n]? with
  | none =>
    have hn : wb.heap.length ≤ n := List.getElem?_eq_none_iff.mp hb
    rw [List.getElem?_eq_none (by omega)]
  | some bb =>
    obtain ⟨b1, hb1, hh, hc, hr, ht, hnt⟩ := hcell n bb hb
    rw [hb1]
    have hmi : bb.m_i = b1.m_i := by
      by_cases htc : touched wa.pool n
      · obtain ⟨ba, hba, hmi, -⟩ := ht htc
        rw [hb1] at hba
        simp only [Option.some.injEq] at hba
        subst hba
        exact hmi
      · exact hnt htc
    cases bb
    cases b1
    simp only at hh hc hr hmi
    subst hh hc hr hmi
    rfl

/-- The repetition of a quiet grouped frame, call by call: from related
worlds, every initial segment of the calls completes in the repeated frame
and leaves the hashes and geometry of every buffer as the first frame ended
with them; after all calls the heaps are equal. -/
theorem frame_repeat (E : Ext) (H1 : List DrawBuffer) (cs : List Call) (wa wb w1 : World)
    (hR : FrameRel H1 wa wb)
    (hg : ∀ c ∈ cs, (wa.pool.m_forceGrouping || c.drawBuffer.isSome) = true)
    (h1 : addAll E wa cs = some w1) (hq : Quiet E wa cs = true) (hH : w1.heap = H1) (n : Nat) :
    ∃ wn, addAll E wb (cs.take n) = some wn ∧ contents wn.heap = contents H1 ∧
      (cs.length ≤ n → wn.heap = H1) := by
  induction cs generalizing wa wb n with
  | nil =>
    simp only [addAll, Option.some.injEq] at h1
    subst h1
    subst hH
    refine ⟨wb, by simp [addAll], frameRel_contents _ _ _ hR, fun _ => frameRel_end _ _ hR⟩
  | cons c cs ih =>
    cases n with
    | zero =>
      refine ⟨wb, by simp [addAll], frameRel_contents _ _ _ hR, ?_⟩
      intro hle
      simp at hle
    | succ n =>
      simp only [addAll] at h1
      simp only [Quiet] at hq
      cases hstep : addCall E wa c with
      | none => rw [hstep] at h1; exact absurd h1 (by simp)
      | some wm =>
        rw [hstep] at h1 hq
        simp only [Bool.and_eq_true] at hq
        have hgrow := (quiet_grow E cs wm w1 h1 hq.2).2
        rw [hH] at hgrow
        obtain ⟨wb1, hwb1, hR1⟩ := frame_step E H1 wa wm wb c hR
          (hg c (List.mem_cons_self _ _)) hstep hq.1 hgrow
        have hfg := (addCall_pool E wa wm c hstep).2.2.2.2
        obtain ⟨wn, hwn, hcont, hend⟩ := ih wm wb1 hR1
          (fun c1 hc1 => by rw [hfg]; exact hg c1 (List.mem_cons_of_mem _ hc1)) h1 hq.2 n
        refine ⟨wn, ?_, hcont, ?_⟩
        · simp only [List.take_succ_cons, addAll, hwb1]
          exact hwn
        · intro hle
          exact hend (by simpa using hle)

/-- C4 as amended: a frame starts with the draw-object list emptied and the
map cleared; a sequence of grouped `add` calls (forced grouping, or a buffer
supplied) runs in a first frame that completes without allocating a draw
buffer and without invalidating one. Then the identical sequence in the next
frame completes call by call, after every one of its calls each draw buffer
has the hash sequence and geometry it had at the end of the first frame (no
call appends a hash or emits geometry), and at the end of the second frame
the heap of draw buffers, cursors included, is the one the first frame left. -/
theorem second_frame_idempotent (E : Ext) (w0 w1 : World) (cs : List Call)
    (hobjs : w0.pool.m_objects = []) (hmap : w0.pool.m_drawObjectPointer = [])
    (hg : ∀ c ∈ cs, (w0.pool.m_forceGrouping || c.drawBuffer.isSome) = true)
    (h1 : addAll E w0 cs = some w1) (hq : Quiet E w0 cs = true) (n : Nat) :
    ∃ wn, addAll E (beginFrame w1) (cs.take n) = some wn ∧
      contents wn.heap = contents w1.heap ∧
      (cs.length ≤ n → wn.heap = w1.heap) := by
  have hpool := addAll_pool E cs w0 w1 h1
  have hlen := (quiet_grow E cs w0 w1 h1 hq).1
  have hR : FrameRel w1.heap w0 (beginFrame w1) := by
    refine ⟨hobjs.symm, hmap.symm, hpool.1, hpool.2, hlen.symm, rfl, ?_⟩
    intro i bb hi
    refine ⟨bb, hi, rfl, rfl, rfl, ?_, fun _ => rfl⟩
    intro ht
    obtain ⟨o, ho, -⟩ := ht
    rw [hobjs] at ho
    exact absurd ho (List.not_mem_nil o)
  exact frame_repeat E w1.heap cs w0 (beginFrame w1) w1 hR hg h1 hq rfl n

/-- The hypotheses of the amended C4 hold for the frame A, B, C drawn on the
TEXT pool with a caller-owned, newly created buffer. -/
theorem second_frame_idempotent_witness :
    ∃ wn, addAll sampleExt (beginFrame textAfterABC) ([callA, callB, callC].take 3) = some wn ∧
      contents wn.heap = contents textAfterABC.heap ∧
      ([callA, callB, callC].length ≤ 3 → wn.heap = textAfterABC.heap) :=
  second_frame_idempotent sampleExt textWorld textAfterABC [callA, callB, callC]
    (by decide) (by decide) (by decide) (by decide) (by decide) 3

/-- C4 as stated fails: on a TEXT pool (forced grouping) the frame A, B runs
without supplied buffer and fills one internally allocated buffer. The next
frame starts with the list emptied and the map cleared; its first call, the
same A, allocates a second buffer, appends the method hash 72 to it and emits
the geometry 65 into it. -/
theorem second_frame_counterexample :
    textWorldNoBuffer.pool.m_forceGrouping = true ∧
    (addAll sampleExt textWorldNoBuffer [callA0, callB0]).map (fun w => w.heap)
      = some [⟨1, ⟨0, 0⟩, [72, 73], some [65, 66]⟩] ∧
    (addAll sampleExt (beginFrame textAfterAB0) [callA0]).map (fun w => w.heap)
      = some [⟨1, ⟨0, 0⟩, [72, 73], some [65, 66]⟩, ⟨0, ⟨0, 0⟩, [72], some [65]⟩] := by
  decide

/-! ### Retroactive edits and shader binding -/

/-- C13 as amended: for every position `pos` with 1 <= pos <= number of draw
objects, each of `setOpacity`, `setClipRect`, `setCompositionMode` and
`setBlendEquation` replaces that member in the stored state of the draw
object at index `pos - 1` and combines the new value (for the clip rect, its
hash) into the accumulated hash; `setShaderProgram` replaces the shader and
its action in that stored state, leaves the accumulated hash as it is and
raises auto-update when the program is non-null. Every other draw object, the
ambient state and the committed hash are unchanged. -/
theorem retroactive_edit (E : Ext) (p : Pool) (pos : Int)
    (h1 : 1 ≤ pos) (h2 : pos ≤ (p.m_objects.length : Int)) :
    ∃ o, p.m_objects[(pos - 1).toNat]? = some o ∧
      (∀ v, p.setOpacity E v pos = some { p with
        m_objects := p.m_objects.set (pos - 1).toNat { o with state := { o.state with opacity := v } },
        m_status := (p.m_status.1, E.hash_combine_float p.m_status.2 v) }) ∧
      (∀ v, p.setClipRect E v pos = some { p with
        m_objects := p.m_objects.set (pos - 1).toNat { o with state := { o.state with clipRect := v } },
        m_status := (p.m_status.1, E.hash_combine_uint p.m_status.2 (E.rect_hash v)) }) ∧
      (∀ v, p.setCompositionMode E v pos = some { p with
        m_objects := p.m_objects.set (pos - 1).toNat
          { o with state := { o.state with compositionMode := v } },
        m_status := (p.m_status.1, E.hash_combine_mode p.m_status.2 v) }) ∧
      (∀ v, p.setBlendEquation E v pos = some { p with
        m_objects := p.m_objects.set (pos - 1).toNat
          { o with state := { o.state with blendEquation := v } },
        m_status := (p.m_status.1, E.hash_combine_blend p.m_status.2 v) }) ∧
      (∀ sh a, p.setShaderProgram sh pos a = some { p with
        m_autoUpdate := p.m_autoUpdate || sh.isSome,
        m_objects := p.m_objects.set (pos - 1).toNat
          { o with state := { o.state with shaderProgram := sh, action := a } } }) := by
  have hlt : (pos - 1).toNat < p.m_objects.length := by omega
  have hne : ¬ pos = -1 := by omega
  have hnn : ¬ pos - 1 < 0 := by omega
  refine ⟨p.m_objects[(pos - 1).toNat], List.getElem?_eq_getElem hlt, ?_, ?_, ?_, ?_, ?_⟩
  · intro v
    simp only [Pool.setOpacity, Pool.editObject, if_neg hne, if_neg hnn,
      List.getElem?_eq_getElem hlt, Option.map_some']
  · intro v
    simp only [Pool.setClipRect, Pool.editObject, if_neg hne, if_neg hnn,
      List.getElem?_eq_getElem hlt, Option.map_some']
  · intro v
    simp only [Pool.setCompositionMode, Pool.editObject, if_neg hne, if_neg hnn,
      List.getElem?_eq_getElem hlt, Option.map_some']
  · intro v
    simp only [Pool.setBlendEquation, Pool.editObject, if_neg hne, if_neg hnn,
      List.getElem?_eq_getElem hlt, Option.map_some']
  · intro sh a
    simp only [Pool.setShaderProgram, Pool.editObject, if_neg hne]
    cases sh with
    | none =>
      simp only [Option.isSome_none, Bool.false_eq_true, if_false, if_neg hnn,
        List.getElem?_eq_getElem hlt, Bool.or_false]
    | some x =>
      simp only [Option.isSome_some, if_true, if_neg hnn, List.getElem?_eq_getElem hlt,
        Bool.or_true]

/-- The hypotheses of the amended C13 hold at position 1 of the MAP pool that
holds one draw object. -/
theorem retroactive_edit_witness :
    ∃ o, mapAfterTileA.pool.m_objects[((1 : Int) - 1).toNat]? = some o ∧
      (∀ v, mapAfterTileA.pool.setOpacity sampleExt v 1 = some { mapAfterTileA.pool with
        m_objects := mapAfterTileA.pool.m_objects.set ((1 : Int) - 1).toNat
          { o with state := { o.state with opacity := v } },
        m_status := (mapAfterTileA.pool.m_status.1,
          sampleExt.hash_combine_float mapAfterTileA.pool.m_status.2 v) }) ∧
      (∀ v, mapAfterTileA.pool.setClipRect sampleExt v 1 = some { mapAfterTileA.pool with
        m_objects := mapAfterTileA.pool.m_objects.set ((1 : Int) - 1).toNat
          { o with state := { o.state with clipRect := v } },
        m_status := (mapAfterTileA.pool.m_status.1,
          sampleExt.hash_combine_uint mapAfterTileA.pool.m_status.2 (sampleExt.rect_hash v)) }) ∧
      (∀ v, mapAfterTileA.pool.setCompositionMode sampleExt v 1 = some { mapAfterTileA.pool with
        m_objects := mapAfterTileA.pool.m_objects.set ((1 : Int) - 1).toNat
          { o with state := { o.state with compositionMode := v } },
        m_status := (mapAfterTileA.pool.m_status.1,
          sampleExt.hash_combine_mode mapAfterTileA.pool.m_status.2 v) }) ∧
      (∀ v, mapAfterTileA.pool.setBlendEquation sampleExt v 1 = some { mapAfterTileA.pool with
        m_objects := mapAfterTileA.pool.m_objects.set ((1 : Int) - 1).toNat
          { o with state := { o.state with blendEquation := v } },
        m_status := (mapAfterTileA.pool.m_status.1,
          sampleExt.hash_combine_blend mapAfterTileA.pool.m_status.2 v) }) ∧
      (∀ sh a, mapAfterTileA.pool.setShaderProgram sh 1 a = some { mapAfterTileA.pool with
        m_autoUpdate := mapAfterTileA.pool.m_autoUpdate || sh.isSome,
        m_objects := mapAfterTileA.pool.m_objects.set ((1 : Int) - 1).toNat
          { o with state := { o.state with shaderProgram := sh, action := a } } }) :=
  retroactive_edit sampleExt mapAfterTileA.pool 1 (by decide) (by decide)

/-- C13 as stated fails for `setShaderProgram`: on the MAP pool that holds one
draw object, binding a shader to the object at position 1 stores the shader
in that object and leaves the accumulated hash exactly as it was; the program
id has not been combined into it. -/
theorem retroactive_edit_counterexample :
    (mapAfterTileA.pool.setShaderProgram (some sampleShader) 1 none).map
        (fun q => q.m_objects.map fun o => o.state.shaderProgram) = some [some sampleShader] ∧
    (mapAfterTileA.pool.setShaderProgram (some sampleShader) 1 none).map
        (fun q => q.m_status.2) = some mapAfterTileA.pool.m_status.2 ∧
    sampleExt.hash_combine_uint mapAfterTileA.pool.m_status.2 sampleShader.programId
      ≠ mapAfterTileA.pool.m_status.2 := by
  decide

/-- C14 as amended: for every pool and every non-null shader program,
`setShaderProgram(shader, pos)` with `pos` designating an existing draw
object (1 <= pos <= number of draw objects) leaves the auto-update flag true;
with `pos = -1` it stores the shader in the ambient state and leaves the flag
as it was, whatever the pool holds, and the flag is true after the next `add`
that completes under that ambient binding. -/
theorem shader_auto_update (p : Pool) (sh : PainterShaderProgram) (a : Option Nat) :
    (∀ pos : Int, 1 ≤ pos → pos ≤ (p.m_objects.length : Int) →
      ∃ q, p.setShaderProgram (some sh) pos a = some q ∧ q.m_autoUpdate = true) ∧
    p.setShaderProgram (some sh) (-1) a =
      some { p with m_state := { p.m_state with shaderProgram := some sh, action := a } } ∧
    (∀ (E : Ext) (heap : List DrawBuffer) (c : Call) (w1 : World),
      addCall E ⟨heap, { p with m_state := { p.m_state with shaderProgram := some sh,
                                                             action := a } }⟩ c = some w1 →
      w1.pool.m_autoUpdate = true) := by
  refine ⟨?_, ?_, ?_⟩
  · intro pos h1 h2
    have hlt : (pos - 1).toNat < p.m_objects.length := by omega
    have hne : ¬ pos = -1 := by omega
    have hnn : ¬ pos - 1 < 0 := by omega
    simp only [Pool.setShaderProgram, Pool.editObject, if_neg hne, Option.isSome_some, if_true,
      if_neg hnn, List.getElem?_eq_getElem hlt]
    exact ⟨_, rfl, rfl⟩
  · simp [Pool.setShaderProgram]
  · intro E heap c w1 h
    have hp := (addCall_pool E _ w1 c h).2.2.2.1
    rw [hp]
    simp

/-- The amended C14 at concrete inputs: position 1 of the MAP pool that holds
one draw object, and the ambient binding on a pool that `create` returned,
which holds no draw object. -/
theorem shader_auto_update_witness :
    (∃ q, mapAfterTileA.pool.setShaderProgram (some sampleShader) 1 none = some q ∧
      q.m_autoUpdate = true) ∧
    (Pool.create 0 PoolType.MAP).setShaderProgram (some sampleShader) (-1) none =
      some { Pool.create 0 PoolType.MAP with
        m_state := { (Pool.create 0 PoolType.MAP).m_state with
          shaderProgram := some sampleShader, action := none } } ∧
    (∀ (E : Ext) (heap : List DrawBuffer) (c : Call) (w1 : World),
      addCall E ⟨heap, { Pool.create 0 PoolType.MAP with
        m_state := { (Pool.create 0 PoolType.MAP).m_state with
          shaderProgram := some sampleShader, action := none } }⟩ c = some w1 →
      w1.pool.m_autoUpdate = true) :=
  ⟨(shader_auto_update mapAfterTileA.pool sampleShader none).1 1 (by decide) (by decide),
    (shader_auto_update (Pool.create 0 PoolType.MAP) sampleShader none).2⟩

/-- C14 as stated fails for the ambient binding: on a pool that `create`
returned, `setShaderProgram` with a non-null program and `pos = -1` stores the
program in the ambient state and the auto-update flag is still false. -/
theorem shader_auto_update_counterexample :
    ((Pool.create 0 PoolType.MAP).setShaderProgram (some sampleShader) (-1) none).map
      (fun q => (q.m_state.shaderProgram, q.m_autoUpdate)) = some (some sampleShader, false) := by
  decide

/-! ### State hash -/

/-- Folding an optional contribution applies it when its condition holds. -/
theorem foldl_contribution (c : Prop) [Decidable c] (f : Nat → Nat) (h : Nat) :
    (if c then [f] else []).foldl (fun h f => f h) h = if c then f h else h := by
  split <;> rfl

/-- C16 as amended: for every snapshot the state hash `updateHash` computes
is the fold from 0, in the order blend equation, clip rect, colour,
composition mode, opacity, shader program id, texture identity, transform
matrix, of exactly the members that differ from their default, where the
opacity counts when it is below 1; an opacity of 1 or above contributes
nothing; and, the empty rect being invalid, the all-default snapshot hashes
to 0. -/
theorem stateHash_reference (E : Ext) (p : Pool) (method : DrawMethod) (s : PainterState)
    (hrect : E.rect_isValid Rect.empty = false) :
    stateHashOf E s 0 = stateHashRef E s ∧
    (p.updateHash E s method 0 0).2.1 = stateHashRef E s ∧
    (1 ≤ s.opacity → stateHashOf E s 0 = stateHashOf E { s with opacity := 1 } 0) ∧
    stateHashOf E (defaultSnapshot E) 0 = 0 := by
  have href : stateHashOf E s 0 = stateHashRef E s := by
    unfold stateHashOf stateHashRef stateContributions
    simp only [List.foldl_append, foldl_contribution, decide_eq_true_eq]
    cases s.shaderProgram <;> cases s.texture with
    | none => rfl
    | some t =>
      cases ht : t.isEmpty <;> simp [ht]
  refine ⟨href, href, ?_, ?_⟩
  · intro hop
    have h1 : ¬ s.opacity < 1 := not_lt.mpr hop
    unfold stateHashOf
    simp only [h1, if_false, lt_self_iff_false]
  · unfold stateHashOf defaultSnapshot
    simp [hrect]

/-- The hypothesis of the amended C16 holds for the sample externals. -/
theorem stateHash_reference_witness :
    stateHashOf sampleExt (sampleMapWorld.pool.snapshot identityMatrix ⟨255⟩ (some glassTexture)) 0
      = stateHashRef sampleExt
          (sampleMapWorld.pool.snapshot identityMatrix ⟨255⟩ (some glassTexture)) ∧
    (sampleMapWorld.pool.updateHash sampleExt
        (sampleMapWorld.pool.snapshot identityMatrix ⟨255⟩ (some glassTexture)) tileA 0 0).2.1
      = stateHashRef sampleExt
          (sampleMapWorld.pool.snapshot identityMatrix ⟨255⟩ (some glassTexture)) ∧
    (1 ≤ (sampleMapWorld.pool.snapshot identityMatrix ⟨255⟩ (some glassTexture)).opacity →
      stateHashOf sampleExt
          (sampleMapWorld.pool.snapshot identityMatrix ⟨255⟩ (some glassTexture)) 0
        = stateHashOf sampleExt
            { sampleMapWorld.pool.snapshot identityMatrix ⟨255⟩ (some glassTexture) with
              opacity := 1 } 0) ∧
    stateHashOf sampleExt (defaultSnapshot sampleExt) 0 = 0 :=
  stateHash_reference sampleExt sampleMapWorld.pool tileA
    (sampleMapWorld.pool.snapshot identityMatrix ⟨255⟩ (some glassTexture)) (by decide)

/-- C16 as stated fails above 1: the all-default snapshot with opacity 2 has
the state hash 0 in the code, which tests `opacity < 1`, while the fold that
lets every opacity different from 1 contribute gives 10 for the sample
externals. -/
theorem stateHash_counterexample :
    stateHashOf sampleExt { defaultSnapshot sampleExt with opacity := 2 } 0 = 0 ∧
    stateHashSpec sampleExt { defaultSnapshot sampleExt with opacity := 2 } = 10 := by
  decide

/-! ### Scope of the occlusion scan -/

/-- A pending rectangle that the scan reports as occluded has the destination
of the call, and either the states are equal and the sources too, or the new
texture is opaque and the texture of the draw object can be superimposed. -/
theorem occludes_true (ss : Bool) (t1 t2 : Option Texture) (rx r : DrawTextureRect)
    (h : occludes ss t1 t2 rx r = some true) :
    rx.m_destP = r.m_destP ∧
    ((ss = true ∧ rx.m_src = r.m_src) ∨
      (∃ t pt, t1 = some t ∧ t.isOpaque = true ∧ t2 = some pt ∧ pt.canSuperimposed = true)) := by
  unfold occludes at h
  by_cases hd : rx.m_destP = r.m_destP
  · refine ⟨hd, ?_⟩
    rw [if_pos hd] at h
    by_cases hc : (ss && decide (rx.m_src = r.m_src)) = true
    · simp only [Bool.and_eq_true, decide_eq_true_eq] at hc
      exact Or.inl hc
    · right
      rw [if_neg hc] at h
      cases t1 with
      | none => exact absurd h (by simp)
      | some t =>
        simp only at h
        cases ho : t.isOpaque with
        | false => rw [ho] at h; simp at h
        | true =>
          rw [ho] at h
          simp only [if_true] at h
          cases t2 with
          | none => exact absurd h (by simp)
          | some pt =>
            simp only [Option.some.injEq] at h
            exact ⟨t, pt, rfl, ho, rfl, h⟩
  · rw [if_neg hd] at h
    simp at h

/-- The scan leaves the pending methods as they are or erases exactly one,
which it reported as occluded. -/
theorem eraseOccluded_cases (ss : Bool) (t1 t2 : Option Texture) (r : DrawTextureRect)
    (l l1 : List DrawMethod) (h : eraseOccluded ss t1 t2 r l = some l1) :
    l1 = l ∨ ∃ a x b rx, l = a ++ x :: b ∧ l1 = a ++ b ∧ x.rect = some rx ∧
      occludes ss t1 t2 rx r = some true := by
  induction l generalizing l1 with
  | nil =>
    simp only [eraseOccluded, Option.some.injEq] at h
    exact Or.inl h.symm
  | cons x rest ih =>
    unfold eraseOccluded at h
    cases hx : x.rect with
    | none => rw [hx] at h; exact absurd h (by simp)
    | some rx =>
      rw [hx] at h
      simp only at h
      cases ho : occludes ss t1 t2 rx r with
      | none => rw [ho] at h; exact absurd h (by simp)
      | some b =>
        rw [ho] at h
        cases b with
        | true =>
          simp only [Option.some.injEq] at h
          exact Or.inr ⟨[], x, rest, rx, rfl, h.symm, hx, ho⟩
        | false =>
          simp only at h
          cases hr : eraseOccluded ss t1 t2 r rest with
          | none => rw [hr] at h; exact absurd h (by simp)
          | some l2 =>
            rw [hr] at h
            simp only [Option.map_some', Option.some.injEq] at h
            subst h
            rcases ih l2 hr with h2 | ⟨a, y, b, ry, h3, h4, h5, h6⟩
            · subst h2
              exact Or.inl rfl
            · subst h3 h4
              exact Or.inr ⟨x :: a, y, b, ry, rfl, rfl, h5, h6⟩

/-- C18 as amended: for every `add` without buffer on a pool without forced
grouping and with a non-empty list that completes, the call erases at most
one pending method of the last draw object, and it erases one only if the new
method is a textured rectangle, the erased method has its destination, and
either the snapshot equals the state of that draw object and the sources are
equal, or the new texture is opaque and the texture of that draw object can
be superimposed, whether the states are equal or not. When the states differ
and the new method is no textured rectangle, or the new texture is not
opaque, or the texture of the draw object cannot be superimposed, the pending
list of that draw object is unchanged. -/
theorem occlusion_scan_scope (E : Ext) (w w1 : World) (tm : Matrix3) (color : Color)
    (texture : Option Texture) (method : DrawMethod) (drawMode : DrawMode)
    (init : List DrawObject) (prev : DrawObject)
    (hung : w.pool.m_forceGrouping = false)
    (hl : w.pool.m_objects = init ++ [prev])
    (h : add E w tm color texture method drawMode none = some w1) :
    ∃ methods,
      ((prev.state.same (w.pool.snapshot tm color texture) = true ∧
          w1.pool.m_objects = init ++ [{ prev with drawMode := DrawMode.TRIANGLES,
                                                   drawMethods := methods ++ [method] }]) ∨
       (prev.state.same (w.pool.snapshot tm color texture) = false ∧
          w1.pool.m_objects = init ++ [{ prev with drawMethods := methods }] ++
            [⟨w.pool.snapshot tm color texture, drawMode, [method], none⟩])) ∧
      (methods = prev.drawMethods ∨
        ∃ a x b rx r, prev.drawMethods = a ++ x :: b ∧ methods = a ++ b ∧
          method.rect = some r ∧ x.rect = some rx ∧ rx.m_destP = r.m_destP ∧
          ((prev.state.same (w.pool.snapshot tm color texture) = true ∧ rx.m_src = r.m_src) ∨
            (∃ t pt, texture = some t ∧ t.isOpaque = true ∧
              prev.state.texture = some pt ∧ pt.canSuperimposed = true))) ∧
      (prev.state.same (w.pool.snapshot tm color texture) = false →
        (method.rect = none ∨ (∀ t, texture = some t → t.isOpaque = false) ∨
          (∀ pt, prev.state.texture = some pt → pt.canSuperimposed = false)) →
        methods = prev.drawMethods) := by
  obtain ⟨hu, -, -, -⟩ := add_ungrouped E w w1 tm color texture method drawMode hung h
  rcases addUngrouped_cases _ _ _ _ _ hu with ⟨h0, -⟩ | ⟨init2, prev2, methods, hl2, hscan, hcase⟩
  · rw [hl] at h0
    exact absurd h0 (by simp)
  · obtain ⟨hi, hp⟩ := List.append_inj' (hl.symm.trans hl2) rfl
    simp only [List.cons.injEq, and_true] at hp
    subst hi hp
    have hkey : methods = prev.drawMethods ∨
        ∃ a x b rx r, prev.drawMethods = a ++ x :: b ∧ methods = a ++ b ∧
          method.rect = some r ∧ x.rect = some rx ∧ rx.m_destP = r.m_destP ∧
          ((prev.state.same (w.pool.snapshot tm color texture) = true ∧ rx.m_src = r.m_src) ∨
            (∃ t pt, texture = some t ∧ t.isOpaque = true ∧
              prev.state.texture = some pt ∧ pt.canSuperimposed = true)) := by
      unfold scanPending at hscan
      cases hr : method.rect with
      | none =>
        simp only [DrawMethod.hasRefPoint, hr, Option.isSome_none, Bool.false_eq_true, if_false,
          Option.some.injEq] at hscan
        exact Or.inl hscan.symm
      | some r =>
        simp only [DrawMethod.hasRefPoint, hr, Option.isSome_some, if_true] at hscan
        rcases eraseOccluded_cases _ _ _ _ _ _ hscan with h1 | ⟨a, x, b, rx, h1, h2, h3, h4⟩
        · exact Or.inl h1
        · obtain ⟨hd, hwhy⟩ := occludes_true _ _ _ _ _ h4
          exact Or.inr ⟨a, x, b, rx, r, h1, h2, rfl, h3, hd, hwhy⟩
    refine ⟨methods, ?_, hkey, ?_⟩
    · rcases hcase with ⟨hs, hl1⟩ | ⟨hs, hl1⟩
      · exact Or.inl ⟨hs, hl1⟩
      · exact Or.inr ⟨hs, hl1⟩
    · intro hdiff hno
      rcases hkey with h1 | ⟨a, x, b, rx, r, -, -, hr, -, -, hwhy⟩
      · exact h1
      · exfalso
        rcases hwhy with ⟨hs, -⟩ | ⟨t, pt, ht, hop, hpt, hsup⟩
        · rw [hdiff] at hs
          exact absurd hs (by simp)
        · rcases hno with hno | hno | hno
          · rw [hr] at hno
            exact absurd hno (by simp)
          · have := hno t ht
            rw [hop] at this
            exact absurd this (by simp)
          · have := hno pt hpt
            rw [hsup] at this
            exact absurd this (by simp)

/-- The hypotheses of the amended C18 hold when an opaque tile at another
destination follows the glass tile on the MAP pool. -/
theorem occlusion_scan_scope_witness :
    ∃ methods,
      ((tileAObject.state.same (mapAfterTileA.pool.snapshot identityMatrix Color.white
            (some opaqueTexture)) = true ∧
          mapAfterTileFar.pool.m_objects =
            [] ++ [{ tileAObject with drawMode := DrawMode.TRIANGLES,
                                      drawMethods := methods ++ [tileFar] }]) ∨
       (tileAObject.state.same (mapAfterTileA.pool.snapshot identityMatrix Color.white
            (some opaqueTexture)) = false ∧
          mapAfterTileFar.pool.m_objects =
            [] ++ [{ tileAObject with drawMethods := methods }] ++
              [⟨mapAfterTileA.pool.snapshot identityMatrix Color.white (some opaqueTexture),
                DrawMode.TRIANGLES, [tileFar], none⟩])) ∧
      (methods = tileAObject.drawMethods ∨
        ∃ a x b rx r, tileAObject.drawMethods = a ++ x :: b ∧ methods = a ++ b ∧
          tileFar.rect = some r ∧ x.rect = some rx ∧ rx.m_destP = r.m_destP ∧
          ((tileAObject.state.same (mapAfterTileA.pool.snapshot identityMatrix Color.white
              (some opaqueTexture)) = true ∧ rx.m_src = r.m_src) ∨
            (∃ t pt, some opaqueTexture = some t ∧ t.isOpaque = true ∧
              tileAObject.state.texture = some pt ∧ pt.canSuperimposed = true))) ∧
      (tileAObject.state.same (mapAfterTileA.pool.snapshot identityMatrix Color.white
          (some opaqueTexture)) = false →
        (tileFar.rect = none ∨ (∀ t, some opaqueTexture = some t → t.isOpaque = false) ∨
          (∀ pt, tileAObject.state.texture = some pt → pt.canSuperimposed = false)) →
        methods = tileAObject.drawMethods) :=
  occlusion_scan_scope sampleExt mapAfterTileA mapAfterTileFar identityMatrix Color.white
    (some opaqueTexture) tileFar DrawMode.TRIANGLES [] tileAObject (by decide) (by decide)
    (by decide)

/-- C18 as stated fails: the MAP pool holds one draw object with the glass
texture and the pending method `tileA`; `tileO` is added with the opaque
texture at the same destination. The states differ, yet the scan erases
`tileA` from the pending list of that draw object before the new draw object
is appended. -/
theorem occlusion_scan_scope_counterexample :
    mapAfterTileA.pool.m_objects = [tileAObject] ∧
    tileAObject.state.same
      (mapAfterTileA.pool.snapshot identityMatrix Color.white (some opaqueTexture)) = false ∧
    (addCall sampleExt mapAfterTileA (texCall opaqueTexture tileO)).map
      (fun w => w.pool.m_objects.map fun o => (o.state.texture, o.drawMethods))
      = some [(some glassTexture, []), (some opaqueTexture, [tileO])] := by
  decide

/-! ### Growth and regeneration of a grouped buffer -/

/-- Runs of calls compose. -/
theorem addAll_append (E : Ext) (l1 l2 : List Call) (w : World) :
    addAll E w (l1 ++ l2) = (addAll E w l1).bind fun w1 => addAll E w1 l2 := by
  induction l1 generalizing w with
  | nil => rfl
  | cons c cs ih =>
    simp only [List.cons_append, addAll]
    cases addCall E w c with
    | none => rfl
    | some w1 => exact ih w1

/-- A key that was just assigned is found with its value. -/
theorem mapFind_assign_self (m : List (Nat × Nat)) (k v : Nat) :
    mapFind (mapAssign m k v) k = some v := by
  simp [mapAssign, mapFind]

/-- A grouped call whose state hash is in the map has no result when the step
on the buffer of the draw object found has none. -/
theorem addCall_found_none (E : Ext) (w : World) (c : Call) (idx b : Nat) (obj : DrawObject)
    (buf : DrawBuffer)
    (hg : (w.pool.m_forceGrouping || c.drawBuffer.isSome) = true)
    (hfind : mapFind w.pool.m_drawObjectPointer (Call.key E w.pool.m_state c) = some idx)
    (hobj : w.pool.m_objects[idx]? = some obj) (hb : obj.buffer = some b)
    (hbuf : w.heap[b]? = some buf)
    (hadv : buf.advance E c.method (Call.methodHash E c) = none) :
    addCall E w c = none := by
  rw [addCall_eq]
  unfold addBody
  have hg1 : ((w.pool.afterHash E c).m_forceGrouping || c.drawBuffer.isSome) = true := hg
  rw [if_pos hg1]
  have hfind1 : mapFind (w.pool.afterHash E c).m_drawObjectPointer
      (Call.key E w.pool.m_state c) = some idx := hfind
  rw [hfind1]
  have hobj1 : (w.pool.afterHash E c).m_objects[idx]? = some obj := hobj
  simp only [addFound, hobj1, hb, hbuf, hadv, Option.map_none']

/-- A run of grouped calls with one state hash that is in the map has no
result when the run on the buffer of the draw object found has none. -/
theorem addAll_found_none (E : Ext) (cs : List Call) (w : World) (key idx b : Nat)
    (obj : DrawObject) (buf : DrawBuffer)
    (hg : ∀ c ∈ cs, (w.pool.m_forceGrouping || c.drawBuffer.isSome) = true)
    (hkey : ∀ c ∈ cs, Call.key E w.pool.m_state c = key)
    (hfind : mapFind w.pool.m_drawObjectPointer key = some idx)
    (hobj : w.pool.m_objects[idx]? = some obj) (hb : obj.buffer = some b)
    (hbuf : w.heap[b]? = some buf)
    (hrun : advanceAll E buf cs = none) :
    addAll E w cs = none := by
  induction cs generalizing w buf with
  | nil => simp [advanceAll] at hrun
  | cons c cs ih =>
    simp only [advanceAll] at hrun
    have hc := List.mem_cons_self c cs
    cases hadv : buf.advance E c.method (Call.methodHash E c) with
    | none =>
      have hstep := addCall_found_none E w c idx b obj buf (hg c hc)
        (by rw [hkey c hc]; exact hfind) hobj hb hbuf hadv
      simp only [addAll, hstep]
    | some bufm =>
      rw [hadv] at hrun
      have hstep := addCall_found E w c idx b obj buf bufm (hg c hc)
        (by rw [hkey c hc]; exact hfind) hobj hb hbuf hadv
      have hlt : b < w.heap.length := (List.getElem?_eq_some.mp hbuf).1
      simp only [addAll, hstep]
      exact ih ⟨w.heap.set b bufm, w.pool.afterHash E c⟩ bufm
        (fun c1 h1 => hg c1 (List.mem_cons_of_mem _ h1))
        (fun c1 h1 => hkey c1 (List.mem_cons_of_mem _ h1))
        hfind hobj (List.getElem?_set_self hlt) hrun

/-- The world after the first call of a state hash has registered its buffer
(supplied, or allocated when none was). -/
theorem registered_world (E : Ext) (w0 : World) (c0 : Call) (buf0 : DrawBuffer)
    (hg0 : (w0.pool.m_forceGrouping || c0.drawBuffer.isSome) = true)
    (hfind0 : mapFind w0.pool.m_drawObjectPointer (Call.key E w0.pool.m_state c0) = none)
    (hbuf : (allocHeap w0.heap c0.drawBuffer)[allocId w0.heap c0.drawBuffer]? = some buf0) :
    ∃ wA, addCall E w0 c0 = some wA ∧
      wA.heap = (allocHeap w0.heap c0.drawBuffer).set (allocId w0.heap c0.drawBuffer)
        (buf0.seed E c0.method (Call.methodHash E c0)) ∧
      wA.heap[allocId w0.heap c0.drawBuffer]? =
        some (buf0.seed E c0.method (Call.methodHash E c0)) ∧
      wA.pool.m_objects = w0.pool.m_objects ++
        [⟨snapshotOf w0.pool.m_state c0, DrawMode.TRIANGLES, [],
          some (allocId w0.heap c0.drawBuffer)⟩] ∧
      wA.pool.m_objects[w0.pool.m_objects.length]? =
        some ⟨snapshotOf w0.pool.m_state c0, DrawMode.TRIANGLES, [],
          some (allocId w0.heap c0.drawBuffer)⟩ ∧
      mapFind wA.pool.m_drawObjectPointer (Call.key E w0.pool.m_state c0)
        = some w0.pool.m_objects.length ∧
      wA.pool.m_state = w0.pool.m_state ∧
      wA.pool.m_forceGrouping = w0.pool.m_forceGrouping := by
  have hlt : allocId w0.heap c0.drawBuffer < (allocHeap w0.heap c0.drawBuffer).length :=
    (List.getElem?_eq_some.mp hbuf).1
  refine ⟨_, addCall_new E w0 c0 buf0 hg0 hfind0 hbuf, rfl, List.getElem?_set_self hlt, rfl,
    List.getElem?_concat_length _ _, mapFind_assign_self _ _ _, rfl, rfl⟩

/-- A frame in which the first call registers a buffer and the other calls
share its state hash: the buffer is seeded (when it holds no hashes) and then
goes through `advanceAll`; one draw object without pending methods is
appended. -/
theorem addAll_register (E : Ext) (w0 : World) (c0 : Call) (cs : List Call)
    (buf0 bufEnd : DrawBuffer)
    (hg0 : (w0.pool.m_forceGrouping || c0.drawBuffer.isSome) = true)
    (hfind0 : mapFind w0.pool.m_drawObjectPointer (Call.key E w0.pool.m_state c0) = none)
    (hbuf : (allocHeap w0.heap c0.drawBuffer)[allocId w0.heap c0.drawBuffer]? = some buf0)
    (hg : ∀ c ∈ cs, (w0.pool.m_forceGrouping || c.drawBuffer.isSome) = true)
    (hkey : ∀ c ∈ cs, Call.key E w0.pool.m_state c = Call.key E w0.pool.m_state c0)
    (hrun : advanceAll E (buf0.seed E c0.method (Call.methodHash E c0)) cs = some bufEnd) :
    ∃ w1, addAll E w0 (c0 :: cs) = some w1 ∧
      w1.heap[allocId w0.heap c0.drawBuffer]? = some bufEnd ∧
      w1.heap.length = (allocHeap w0.heap c0.drawBuffer).length ∧
      w1.pool.m_objects = w0.pool.m_objects ++
        [⟨snapshotOf w0.pool.m_state c0, DrawMode.TRIANGLES, [],
          some (allocId w0.heap c0.drawBuffer)⟩] := by
  obtain ⟨wA, hA, hheapA, hcellA, hobjsA, hobjA, hfindA, hstA, hfgA⟩ :=
    registered_world E w0 c0 buf0 hg0 hfind0 hbuf
  have hlt : allocId w0.heap c0.drawBuffer < (allocHeap w0.heap c0.drawBuffer).length :=
    (List.getElem?_eq_some.mp hbuf).1
  obtain ⟨w1, hw1, hheap1, hobjs1, -⟩ := addAll_found E cs wA
    (Call.key E w0.pool.m_state c0) w0.pool.m_objects.length
    (allocId w0.heap c0.drawBuffer) _ _ bufEnd
    (fun c hc => by rw [hfgA]; exact hg c hc)
    (fun c hc => by rw [hstA]; exact hkey c hc)
    hfindA hobjA rfl hcellA hrun
  refine ⟨w1, ?_, ?_, ?_, ?_⟩
  · simp only [addAll, hA]
    exact hw1
  · rw [hheap1, hheapA, List.set_set]
    exact List.getElem?_set_self hlt
  · rw [hheap1, hheapA, List.length_set, List.length_set]
  · rw [hobjs1, hobjsA]

/-- The same frame has no result when the run on the registered buffer has
none. -/
theorem addAll_register_none (E : Ext) (w0 : World) (c0 : Call) (cs : List Call)
    (buf0 : DrawBuffer)
    (hg0 : (w0.pool.m_forceGrouping || c0.drawBuffer.isSome) = true)
    (hfind0 : mapFind w0.pool.m_drawObjectPointer (Call.key E w0.pool.m_state c0) = none)
    (hbuf : (allocHeap w0.heap c0.drawBuffer)[allocId w0.heap c0.drawBuffer]? = some buf0)
    (hg : ∀ c ∈ cs, (w0.pool.m_forceGrouping || c.drawBuffer.isSome) = true)
    (hkey : ∀ c ∈ cs, Call.key E w0.pool.m_state c = Call.key E w0.pool.m_state c0)
    (hrun : advanceAll E (buf0.seed E c0.method (Call.methodHash E c0)) cs = none) :
    addAll E w0 (c0 :: cs) = none := by
  obtain ⟨wA, hA, -, hcellA, -, hobjA, hfindA, hstA, hfgA⟩ :=
    registered_world E w0 c0 buf0 hg0 hfind0 hbuf
  simp only [addAll, hA]
  exact addAll_found_none E cs wA (Call.key E w0.pool.m_state c0) w0.pool.m_objects.length
    (allocId w0.heap c0.drawBuffer) _ _
    (fun c hc => by rw [hfgA]; exact hg c hc)
    (fun c hc => by rw [hstA]; exact hkey c hc)
    hfindA hobjA rfl hcellA hrun

/-- At the end of the recorded hashes a grouped call appends its hash and
emits its geometry, unless the cursor is at `INT_MAX`. -/
theorem advance_at_end (E : Ext) (buf : DrawBuffer) (m : DrawMethod) (mh i : Nat)
    (co : List Nat) (hi : buf.m_i = (i : Int)) (hlen : buf.m_hashs.length = i + 1)
    (hco : buf.m_coords = some co) :
    buf.advance E m mh =
      if buf.m_i = INT_MAX then none
      else some ⟨((i + 1 : Nat) : Int), buf.m_ref, buf.m_hashs ++ [mh],
        some (E.method_add m co)⟩ := by
  have hvalid : buf.isValid = true := by
    unfold DrawBuffer.isValid
    rw [hi]
    simp only [decide_eq_true_eq]
    omega
  have hend : buf.m_i + 1 = (buf.m_hashs.length : Int) := by rw [hi, hlen]; omega
  unfold DrawBuffer.advance
  rw [if_pos hvalid]
  split
  · rfl
  · rw [hco]
    simp only [hi]
    rfl

/-- A run of grouped calls on a buffer whose cursor is at its last recorded
hash appends every method hash and emits every geometry, in call order, while
the cursor stays in the range of `int`. -/
theorem advanceAll_grow (E : Ext) (cs : List Call) (buf : DrawBuffer) (i : Nat) (co : List Nat)
    (hi : buf.m_i = (i : Int)) (hlen : buf.m_hashs.length = i + 1)
    (hco : buf.m_coords = some co) (hmax : ((i + cs.length : Nat) : Int) ≤ INT_MAX) :
    advanceAll E buf cs =
      some ⟨((i + cs.length : Nat) : Int), buf.m_ref,
        buf.m_hashs ++ cs.map (Call.methodHash E), some (emitAll E co cs)⟩ := by
  induction cs generalizing buf i co with
  | nil =>
    cases buf
    simp only at hi hco
    simp [advanceAll, emitAll, hi, hco]
  | cons c cs ih =>
    have hlen1 : (c :: cs).length = cs.length + 1 := rfl
    have hne : ¬ buf.m_i = INT_MAX := by rw [hi]; rw [hlen1] at hmax; omega
    simp only [advanceAll, advance_at_end E buf c.method _ i co hi hlen hco, if_neg hne]
    rw [ih _ (i + 1) (E.method_add c.method co) rfl (by simp [hlen]) rfl
      (by rw [hlen1] at hmax; omega)]
    simp only [List.map_cons, List.append_assoc, List.singleton_append, emitAll,
      List.foldl_cons, hlen1, Option.some.injEq, DrawBuffer.mk.injEq, and_true, true_and]
    omega

/-- A run of grouped calls that would take the cursor past `INT_MAX` has no
result. -/
theorem advanceAll_overflow (E : Ext) (cs : List Call) (buf : DrawBuffer) (i : Nat)
    (co : List Nat) (hi : buf.m_i = (i : Int)) (hlen : buf.m_hashs.length = i + 1)
    (hco : buf.m_coords = some co) (hle : (i : Int) ≤ INT_MAX)
    (hover : INT_MAX < ((i + cs.length : Nat) : Int)) :
    advanceAll E buf cs = none := by
  induction cs generalizing buf i co with
  | nil =>
    simp only [List.length_nil, Nat.add_zero] at hover
    omega
  | cons c cs ih =>
    have hlen1 : (c :: cs).length = cs.length + 1 := rfl
    simp only [advanceAll, advance_at_end E buf c.method _ i co hi hlen hco]
    by_cases hmax : buf.m_i = INT_MAX
    · rw [if_pos hmax]
    · rw [if_neg hmax]
      exact ih _ (i + 1) (E.method_add c.method co) rfl (by simp [hlen]) rfl
        (by rw [hi] at hmax; omega) (by rw [hlen1] at hover; omega)

/-- A buffer without recorded hashes that is registered by the first call of
a frame records, over the frame, exactly the method hashes of the calls and
holds exactly the geometry they emit into an empty store. -/
theorem seeded_run (E : Ext) (buf0 : DrawBuffer) (c0 : Call) (cs : List Call)
    (hempty : buf0.m_hashs = []) (hmax : (cs.length : Int) ≤ INT_MAX) :
    advanceAll E (buf0.seed E c0.method (Call.methodHash E c0)) cs =
      some ⟨(cs.length : Int), buf0.m_ref, (c0 :: cs).map (Call.methodHash E),
        some (emitAll E [] (c0 :: cs))⟩ := by
  have hseed : buf0.seed E c0.method (Call.methodHash E c0) =
      ⟨0, buf0.m_ref, [Call.methodHash E c0], some (E.method_add c0.method [])⟩ := by
    unfold DrawBuffer.seed
    rw [hempty]
    rfl
  rw [hseed, advanceAll_grow E cs
    ⟨0, buf0.m_ref, [Call.methodHash E c0], some (E.method_add c0.method [])⟩ 0
    (E.method_add c0.method []) rfl rfl rfl (by rw [Nat.zero_add]; exact hmax)]
  simp [emitAll]

/-- The same run has no result when the frame has more than `INT_MAX + 1`
calls. -/
theorem seeded_run_overflow (E : Ext) (buf0 : DrawBuffer) (c0 : Call) (cs : List Call)
    (hempty : buf0.m_hashs = []) (hover : INT_MAX < (cs.length : Int)) :
    advanceAll E (buf0.seed E c0.method (Call.methodHash E c0)) cs = none := by
  have hseed : buf0.seed E c0.method (Call.methodHash E c0) =
      ⟨0, buf0.m_ref, [Call.methodHash E c0], some (E.method_add c0.method [])⟩ := by
    unfold DrawBuffer.seed
    rw [hempty]
    rfl
  rw [hseed]
  exact advanceAll_overflow E cs
    ⟨0, buf0.m_ref, [Call.methodHash E c0], some (E.method_add c0.method [])⟩ 0
    (E.method_add c0.method []) rfl rfl rfl
    (by unfold INT_MAX; decide) (by rw [Nat.zero_add]; exact hover)

/-- C11 as amended: on a force-grouping pool whose draw-object list and map
are empty, n add calls with one state hash, the first without supplied
buffer, with 1 <= n <= 2^31 (the range of the `int` cursor), complete and
leave exactly one draw object, without pending methods, whose buffer (newly
allocated) is valid, records the n method hashes in call order and holds the
geometry of the n methods, emitted in call order into an empty store; the
cursor is n - 1. -/
theorem first_frame_growth (E : Ext) (w0 : World) (c0 : Call) (cs : List Call)
    (hfg : w0.pool.m_forceGrouping = true)
    (hobjs : w0.pool.m_objects = []) (hmap : w0.pool.m_drawObjectPointer = [])
    (hnb : c0.drawBuffer = none)
    (hkey : ∀ c ∈ cs, Call.key E w0.pool.m_state c = Call.key E w0.pool.m_state c0)
    (hmax : (cs.length : Int) ≤ INT_MAX) :
    ∃ w1 obj buf, addAll E w0 (c0 :: cs) = some w1 ∧
      w1.pool.m_objects = [obj] ∧ obj.drawMethods = [] ∧ obj.buffer = some w0.heap.length ∧
      w1.heap[w0.heap.length]? = some buf ∧ buf.isValid = true ∧
      buf.m_i = (cs.length : Int) ∧
      buf.m_hashs = (c0 :: cs).map (Call.methodHash E) ∧
      buf.m_coords = some (emitAll E [] (c0 :: cs)) := by
  have hg0 : (w0.pool.m_forceGrouping || c0.drawBuffer.isSome) = true := by simp [hfg]
  have hfind0 : mapFind w0.pool.m_drawObjectPointer (Call.key E w0.pool.m_state c0) = none := by
    rw [hmap]; rfl
  have hbuf : (allocHeap w0.heap c0.drawBuffer)[allocId w0.heap c0.drawBuffer]?
      = some DrawBuffer.create := by
    rw [hnb]
    exact List.getElem?_concat_length _ _
  obtain ⟨w1, hw1, hcell, -, hobjs1⟩ := addAll_register E w0 c0 cs DrawBuffer.create _ hg0
    hfind0 hbuf (fun c _ => by simp [hfg]) hkey (seeded_run E DrawBuffer.create c0 cs rfl hmax)
  rw [hnb] at hcell hobjs1
  rw [hobjs] at hobjs1
  refine ⟨w1, _, _, hw1, hobjs1, rfl, rfl, hcell, ?_, rfl, rfl, rfl⟩
  simp only [DrawBuffer.isValid, decide_eq_true_eq]
  omega

/-- The hypotheses of the amended C11 hold for the glyphs A, B, C on the TEXT
pool (n = 3). -/
theorem first_frame_growth_witness :
    ∃ w1 obj buf, addAll sampleExt textWorldNoBuffer (callA0 :: [callB0, callC0]) = some w1 ∧
      w1.pool.m_objects = [obj] ∧ obj.drawMethods = [] ∧
      obj.buffer = some textWorldNoBuffer.heap.length ∧
      w1.heap[textWorldNoBuffer.heap.length]? = some buf ∧ buf.isValid = true ∧
      buf.m_i = (([callB0, callC0].length : Nat) : Int) ∧
      buf.m_hashs = (callA0 :: [callB0, callC0]).map (Call.methodHash sampleExt) ∧
      buf.m_coords = some (emitAll sampleExt [] (callA0 :: [callB0, callC0])) :=
  first_frame_growth sampleExt textWorldNoBuffer callA0 [callB0, callC0] (by decide)
    (by decide) (by decide) (by decide) (by decide) (by decide)

/-- C11 as stated fails for n = 2^31 + 1: on the TEXT pool with empty list and
map, the glyph A drawn 2^31 + 1 times without supplied buffer takes the `int`
cursor to `INT_MAX` after 2^31 calls, where the increment of the last call is
undefined: the frame has no result. -/
theorem first_frame_growth_counterexample :
    addAll sampleExt textWorldNoBuffer (callA0 :: List.replicate 2147483648 callA0) = none := by
  refine addAll_register_none sampleExt textWorldNoBuffer callA0 _ DrawBuffer.create
    (by decide) (by decide) (by decide) ?_ ?_ ?_
  · intro c hc
    rw [List.eq_of_mem_replicate hc]
    decide
  · intro c hc
    rw [List.eq_of_mem_replicate hc]
  · refine seeded_run_overflow sampleExt DrawBuffer.create callA0 _ rfl ?_
    rw [List.length_replicate]
    unfold INT_MAX
    decide

/-- C12 as amended: a draw buffer with a recorded n-entry hash sequence,
1 <= n <= 2^31, is supplied to the first of n grouped add calls with one
state hash in a frame that starts with the map cleared, and the method hashes
of the later calls are the recorded ones at positions 1 to n - 1 (the first
call is registered without comparison). Then the frame completes and leaves
the buffer as it was but for the cursor, which is n - 1, the index of the
last entry. -/
theorem cursor_after_retraversal (E : Ext) (w0 : World) (b : Nat) (buf0 : DrawBuffer)
    (c0 : Call) (cs : List Call)
    (hmap : w0.pool.m_drawObjectPointer = [])
    (hbuf : w0.heap[b]? = some buf0) (hc0 : c0.drawBuffer = some b)
    (hg : ∀ c ∈ cs, (w0.pool.m_forceGrouping || c.drawBuffer.isSome) = true)
    (hkey : ∀ c ∈ cs, Call.key E w0.pool.m_state c = Call.key E w0.pool.m_state c0)
    (hn : buf0.m_hashs.length = cs.length + 1)
    (hmatch : ∀ j (hj : j < cs.length), buf0.m_hashs[j + 1]? = some (Call.methodHash E cs[j]))
    (hmax : (cs.length : Int) ≤ INT_MAX) :
    ∃ w1, addAll E w0 (c0 :: cs) = some w1 ∧
      w1.heap[b]? = some { buf0 with m_i := (cs.length : Int) } := by
  have hg0 : (w0.pool.m_forceGrouping || c0.drawBuffer.isSome) = true := by simp [hc0]
  have hfind0 : mapFind w0.pool.m_drawObjectPointer (Call.key E w0.pool.m_state c0) = none := by
    rw [hmap]; rfl
  have hbuf0 : (allocHeap w0.heap c0.drawBuffer)[allocId w0.heap c0.drawBuffer]? = some buf0 := by
    rw [hc0]; exact hbuf
  have hne : buf0.m_hashs ≠ [] := by
    intro hnil
    rw [hnil] at hn
    simp at hn
  have hseed := (seed_hashs E buf0 c0.method (Call.methodHash E c0)).2.2.2.2 hne
  have hrun : advanceAll E (buf0.seed E c0.method (Call.methodHash E c0)) cs =
      some { buf0 with m_i := (cs.length : Int) } := by
    rw [hseed, advanceAll_match E cs { buf0 with m_i := 0 } 0 rfl
      (by rw [Nat.zero_add]; exact hmax)
      (fun j hj => by rw [show 0 + 1 + j = j + 1 by omega]; exact hmatch j hj)]
    simp
  obtain ⟨w1, hw1, hcell, -, -⟩ := addAll_register E w0 c0 cs buf0 _ hg0 hfind0 hbuf0 hg hkey hrun
  rw [hc0] at hcell
  exact ⟨w1, hw1, hcell⟩

/-- The hypotheses of the amended C12 hold when the frame A, B, C is repeated
on the buffer that recorded it (n = 3, cursor 2). -/
theorem cursor_after_retraversal_witness :
    ∃ w1, addAll sampleExt (beginFrame textAfterABC) (callA :: [callB, callC]) = some w1 ∧
      w1.heap[0]? = some { bufferABC with m_i := (([callB, callC].length : Nat) : Int) } :=
  cursor_after_retraversal sampleExt (beginFrame textAfterABC) 0 bufferABC callA [callB, callC]
    (by decide) (by decide) (by decide) (by decide) (by decide) (by decide)
    (fun j hj => by
      have hj2 : j = 0 ∨ j = 1 := by
        have : j < 2 := hj
        omega
      rcases hj2 with rfl | rfl <;> rfl)
    (by decide)

/-- C12 as stated fails: the frame A, B, C recorded three hashes; the next
frame repeats A, B, C with matching hashes and ends with the cursor at 2, not
at 3, the length of the hash sequence. -/
theorem cursor_after_retraversal_counterexample :
    [callA, callB, callC].map (Call.methodHash sampleExt) = [72, 73, 74] ∧
    textAfterABC.heap.map (fun b => b.m_hashs) = [[72, 73, 74]] ∧
    (addAll sampleExt (beginFrame textAfterABC) [callA, callB, callC]).map
      (fun w => w.heap.map fun b => (b.m_i, b.m_hashs.length)) = some [(2, 3)] := by
  decide

/-- C17 as amended: a caller-owned draw buffer has been invalidated (cursor
-1, no recorded hashes); in the next cycle, with the map cleared, it is
supplied to n add calls with one state hash, 1 <= n <= 2^31. Then the cycle
completes and leaves the buffer valid, its cursor restarted from 0 and now at
n - 1, its hash sequence exactly the n method hashes in call order, and its
coordinate store exactly the geometry the n methods emit in call order into
an empty store, whatever it held before; one draw object with that buffer is
appended. -/
theorem regeneration_next_cycle (E : Ext) (w0 : World) (b : Nat) (prior : DrawBuffer)
    (c0 : Call) (cs : List Call)
    (hmap : w0.pool.m_drawObjectPointer = [])
    (hbuf : w0.heap[b]? = some prior.invalidate)
    (hc0 : c0.drawBuffer = some b) (hsup : ∀ c ∈ cs, c.drawBuffer = some b)
    (hkey : ∀ c ∈ cs, Call.key E w0.pool.m_state c = Call.key E w0.pool.m_state c0)
    (hmax : (cs.length : Int) ≤ INT_MAX) :
    ∃ w1 buf obj, addAll E w0 (c0 :: cs) = some w1 ∧
      w1.heap[b]? = some buf ∧ buf.isValid = true ∧ buf.m_i = (cs.length : Int) ∧
      buf.m_hashs = (c0 :: cs).map (Call.methodHash E) ∧
      buf.m_coords = some (emitAll E [] (c0 :: cs)) ∧
      w1.pool.m_objects = w0.pool.m_objects ++ [obj] ∧ obj.buffer = some b ∧
      obj.drawMethods = [] := by
  have hg0 : (w0.pool.m_forceGrouping || c0.drawBuffer.isSome) = true := by simp [hc0]
  have hfind0 : mapFind w0.pool.m_drawObjectPointer (Call.key E w0.pool.m_state c0) = none := by
    rw [hmap]; rfl
  have hbuf0 : (allocHeap w0.heap c0.drawBuffer)[allocId w0.heap c0.drawBuffer]?
      = some prior.invalidate := by
    rw [hc0]; exact hbuf
  obtain ⟨w1, hw1, hcell, -, hobjs1⟩ := addAll_register E w0 c0 cs prior.invalidate _ hg0
    hfind0 hbuf0 (fun c hc => by simp [hsup c hc]) hkey
    (seeded_run E prior.invalidate c0 cs rfl hmax)
  rw [hc0] at hcell hobjs1
  refine ⟨w1, _, _, hw1, hcell, ?_, rfl, rfl, rfl, hobjs1, rfl, rfl⟩
  simp only [DrawBuffer.isValid, decide_eq_true_eq]
  omega

/-- The hypotheses of the amended C17 hold for the frame A, B, C on the
invalidated buffer of the TEXT pool (n = 3). -/
theorem regeneration_next_cycle_witness :
    ∃ w1 buf obj, addAll sampleExt invalidatedWorld (callA :: [callB, callC]) = some w1 ∧
      w1.heap[0]? = some buf ∧ buf.isValid = true ∧
      buf.m_i = (([callB, callC].length : Nat) : Int) ∧
      buf.m_hashs = (callA :: [callB, callC]).map (Call.methodHash sampleExt) ∧
      buf.m_coords = some (emitAll sampleExt [] (callA :: [callB, callC])) ∧
      w1.pool.m_objects = invalidatedWorld.pool.m_objects ++ [obj] ∧ obj.buffer = some 0 ∧
      obj.drawMethods = [] :=
  regeneration_next_cycle sampleExt invalidatedWorld 0 bufferABC callA [callB, callC]
    (by decide) (by decide) (by decide) (by decide) (by decide) (by decide)

/-- C17 as stated fails in two ways. The frame A, B, C on the invalidated
buffer leaves the cursor at 2, the index of the last entry, not at its reset
value 0. And the glyph A drawn 2^31 + 1 times on the invalidated buffer takes
the `int` cursor to `INT_MAX`, where the increment of the last call is
undefined: that cycle has no result. -/
theorem regeneration_counterexample :
    invalidatedWorld.heap = [⟨-1, ⟨0, 0⟩, [], some [65, 66, 67]⟩] ∧
    (addAll sampleExt invalidatedWorld [callA, callB, callC]).map (fun w => w.heap)
      = some [⟨2, ⟨0, 0⟩, [72, 73, 74], some [65, 66, 67]⟩] ∧
    addAll sampleExt invalidatedWorld (callA :: List.replicate 2147483648 callA) = none := by
  refine ⟨by decide, by decide, ?_⟩
  refine addAll_register_none sampleExt invalidatedWorld callA _ bufferABC.invalidate
    (by decide) (by decide) (by decide) ?_ ?_ ?_
  · intro c hc
    rw [List.eq_of_mem_replicate hc]
    decide
  · intro c hc
    rw [List.eq_of_mem_replicate hc]
  · refine seeded_run_overflow sampleExt bufferABC.invalidate callA _ rfl ?_
    rw [List.length_replicate]
    unfold INT_MAX
    decide

/-! ### One draw object per state hash -/

/-- Folding `noteKey` over a sequence appends its first occurrences that are
not yet present. -/
theorem foldl_noteKey (ks K : List Nat) :
    ks.foldl noteKey K = K ++ (firstOccurrences ks).filter fun x => decide (x ∉ K) := by
  induction ks generalizing K with
  | nil => simp [firstOccurrences]
  | cons k ks ih =>
    rw [List.foldl_cons, ih]
    unfold noteKey
    by_cases hk : k ∈ K
    · rw [if_pos hk]
      simp only [firstOccurrences]
      rw [List.filter_cons]
      simp only [hk, not_true_eq_false, decide_False, Bool.false_eq_true, if_false,
        List.filter_filter]
      congr 1
      apply List.filter_congr
      intro x _
      by_cases hx : x ∈ K
      · simp [hx]
      · have : x ≠ k := fun e => hx (e ▸ hk)
        simp [hx, this]
    · rw [if_neg hk]
      simp only [firstOccurrences]
      rw [List.filter_cons]
      simp only [hk, not_false_eq_true, decide_True, if_true, List.filter_filter,
        List.append_assoc, List.singleton_append]
      congr 2
      apply List.filter_congr
      intro x _
      by_cases hx : x ∈ K
      · simp [hx]
      · by_cases hxk : x = k
        · simp [hxk]
        · simp [hx, hxk]

/-- The first occurrences of a sequence are its members. -/
theorem firstOccurrences_mem (l : List Nat) (x : Nat) : x ∈ firstOccurrences l ↔ x ∈ l := by
  induction l with
  | nil => simp [firstOccurrences]
  | cons k ks ih =>
    simp only [firstOccurrences, List.mem_cons, List.mem_filter, ih, decide_eq_true_eq]
    by_cases hx : x = k
    · simp [hx]
    · simp [hx]

/-- The first occurrences of a sequence are distinct. -/
theorem firstOccurrences_nodup (l : List Nat) : (firstOccurrences l).Nodup := by
  induction l with
  | nil => simp [firstOccurrences]
  | cons k ks ih =>
    simp only [firstOccurrences, List.nodup_cons, List.mem_filter, decide_eq_true_eq]
    exact ⟨fun h => h.2 rfl, ih.filter _⟩

/-- There are as many first occurrences as distinct values. -/
theorem firstOccurrences_length (l : List Nat) :
    (firstOccurrences l).length = l.toFinset.card := by
  rw [← List.toFinset_card_of_nodup (firstOccurrences_nodup l)]
  congr 1
  ext x
  simp [firstOccurrences_mem]

/-- Assignment of one key leaves the lookups of the other keys alone. -/
theorem mapFind_filter_ne (m : List (Nat × Nat)) (k k' : Nat) (h : k' ≠ k) :
    mapFind (m.filter fun kv => decide (kv.1 ≠ k)) k' = mapFind m k' := by
  induction m with
  | nil => rfl
  | cons kv rest ih =>
    obtain ⟨a, v⟩ := kv
    by_cases ha : a = k
    · rw [List.filter_cons_of_neg (by simp [ha]), ih]
      simp only [mapFind]
      rw [if_neg (by rw [ha]; exact fun e => h e.symm)]
    · rw [List.filter_cons_of_pos (by simp [ha])]
      simp only [mapFind, ih]

/-- Lookup after an assignment. -/
theorem mapFind_assign (m : List (Nat × Nat)) (k v k' : Nat) :
    mapFind (mapAssign m k v) k' = if k = k' then some v else mapFind m k' := by
  unfold mapAssign
  simp only [mapFind]
  by_cases hk : k = k'
  · rw [if_pos hk, if_pos hk]
  · rw [if_neg hk, if_neg hk]
    exact mapFind_filter_ne m k k' (fun e => hk e.symm)

/-- A grouped call keeps the correspondence of draw objects, state hashes and
map entries: a known state hash changes nothing of it, a new one appends an
object and its map entry. -/
theorem grouped_step (E : Ext) (w w1 : World) (c : Call) (K : List Nat)
    (hg : (w.pool.m_forceGrouping || c.drawBuffer.isSome) = true)
    (h : addCall E w c = some w1)
    (hK : w.pool.m_objects.map (DrawObject.key E) = K) (hnd : K.Nodup)
    (hmap : ∀ k i, mapFind w.pool.m_drawObjectPointer k = some i ↔ K[i]? = some k)
    (hpend : ∀ o ∈ w.pool.m_objects, o.drawMethods = []) :
    w1.pool.m_objects.map (DrawObject.key E) = noteKey K (Call.key E w.pool.m_state c) ∧
    (noteKey K (Call.key E w.pool.m_state c)).Nodup ∧
    (∀ k i, mapFind w1.pool.m_drawObjectPointer k = some i ↔
      (noteKey K (Call.key E w.pool.m_state c))[i]? = some k) ∧
    ∀ o ∈ w1.pool.m_objects, o.drawMethods = [] := by
  rcases addCall_cases E w w1 c h with
    ⟨hu, -⟩ | ⟨-, idx, obj, b, buf, buf1, hfind, -, -, -, -, hw1⟩ | ⟨-, hfind, buf, -, hw1⟩
  · rw [hg] at hu
    exact absurd hu (by simp)
  · have hin : Call.key E w.pool.m_state c ∈ K := List.getElem?_mem ((hmap _ _).1 hfind)
    subst hw1
    unfold noteKey
    rw [if_pos hin]
    exact ⟨hK, hnd, hmap, hpend⟩
  · have hnin : Call.key E w.pool.m_state c ∉ K := by
      intro hin
      obtain ⟨i, hi⟩ := List.getElem?_of_mem hin
      have hf := (hmap _ _).2 hi
      rw [hfind] at hf
      cases hf
    have hlen : w.pool.m_objects.length = K.length := by rw [← hK, List.length_map]
    subst hw1
    unfold noteKey
    rw [if_neg hnin]
    refine ⟨?_, ?_, ?_, ?_⟩
    · show (w.pool.m_objects ++ [_]).map (DrawObject.key E) = _
      rw [List.map_append, hK]
      rfl
    · rw [List.nodup_append]
      refine ⟨hnd, List.nodup_singleton _, ?_⟩
      intro x hx hx1
      rw [List.mem_singleton] at hx1
      exact hnin (hx1 ▸ hx)
    · intro k i
      show mapFind (mapAssign w.pool.m_drawObjectPointer (Call.key E w.pool.m_state c)
        w.pool.m_objects.length) k = some i ↔ _
      rw [mapFind_assign, hlen]
      by_cases hk : Call.key E w.pool.m_state c = k
      · rw [if_pos hk, ← hk]
        constructor
        · intro e
          rw [Option.some.injEq] at e
          rw [← e]
          exact List.getElem?_concat_length _ _
        · intro e
          rcases Nat.lt_trichotomy i K.length with hlt | heq | hgt
          · rw [List.getElem?_append_left hlt] at e
            exact absurd (List.getElem?_mem e) hnin
          · rw [heq]
          · rw [List.getElem?_eq_none (by rw [List.length_append, List.length_singleton]; omega)]
              at e
            cases e
      · rw [if_neg hk, hmap]
        constructor
        · intro e
          have hlt : i < K.length := (List.getElem?_eq_some.1 e).1
          rw [List.getElem?_append_left hlt]
          exact e
        · intro e
          rcases Nat.lt_trichotomy i K.length with hlt | heq | hgt
          · rw [List.getElem?_append_left hlt] at e
            exact e
          · rw [heq, List.getElem?_concat_length, Option.some.injEq] at e
            exact absurd e hk
          · rw [List.getElem?_eq_none (by rw [List.length_append, List.length_singleton]; omega)]
              at e
            cases e
    · intro o ho
      have ho1 : o ∈ w.pool.m_objects ++
          [⟨snapshotOf w.pool.m_state c, DrawMode.TRIANGLES, [],
            some (allocId w.heap c.drawBuffer)⟩] := ho
      rcases List.mem_append.1 ho1 with ho2 | ho2
      · exact hpend o ho2
      · rw [List.mem_singleton] at ho2
        rw [ho2]

/-- A run of grouped calls keeps the correspondence of draw objects, state
hashes and map entries. -/
theorem grouped_run (E : Ext) (cs : List Call) (w w1 : World) (K : List Nat)
    (hg : ∀ c ∈ cs, (w.pool.m_forceGrouping || c.drawBuffer.isSome) = true)
    (h : addAll E w cs = some w1)
    (hK : w.pool.m_objects.map (DrawObject.key E) = K) (hnd : K.Nodup)
    (hmap : ∀ k i, mapFind w.pool.m_drawObjectPointer k = some i ↔ K[i]? = some k)
    (hpend : ∀ o ∈ w.pool.m_objects, o.drawMethods = []) :
    w1.pool.m_objects.map (DrawObject.key E)
      = (cs.map (Call.key E w.pool.m_state)).foldl noteKey K ∧
    (∀ k i, mapFind w1.pool.m_drawObjectPointer k = some i ↔
      ((cs.map (Call.key E w.pool.m_state)).foldl noteKey K)[i]? = some k) ∧
    ∀ o ∈ w1.pool.m_objects, o.drawMethods = [] := by
  induction cs generalizing w K with
  | nil =>
    simp only [addAll, Option.some.injEq] at h
    subst h
    exact ⟨hK, hmap, hpend⟩
  | cons c cs ih =>
    simp only [addAll] at h
    cases hc : addCall E w c with
    | none => rw [hc] at h; exact absurd h (by simp)
    | some w2 =>
      rw [hc] at h
      simp only at h
      obtain ⟨hst, -, -, -, hfg⟩ := addCall_pool E w w2 c hc
      obtain ⟨hK2, hnd2, hmap2, hpend2⟩ :=
        grouped_step E w w2 c K (hg c (List.mem_cons_self _ _)) hc hK hnd hmap hpend
      have hg2 : ∀ c1 ∈ cs, (w2.pool.m_forceGrouping || c1.drawBuffer.isSome) = true := by
        intro c1 hc1
        rw [hfg]
        exact hg c1 (List.mem_cons_of_mem _ hc1)
      have hres := ih w2 _ hg2 h hK2 hnd2 hmap2 hpend2
      rw [hst] at hres
      exact hres

/-- C19: a sequence of grouped add calls that starts from an empty
draw-object list and an empty state-to-index map and completes leaves as many
draw objects as there are distinct state hashes in the sequence; the state
hashes of the objects, in list order, are the state hashes of the sequence in
order of first occurrence; the map sends the state hash of every call to the
index of the object with that state hash and holds no other key; and no draw
object holds a pending method. -/
theorem one_object_per_state_hash (E : Ext) (w0 w1 : World) (cs : List Call)
    (hobjs : w0.pool.m_objects = []) (hmap : w0.pool.m_drawObjectPointer = [])
    (hg : ∀ c ∈ cs, (w0.pool.m_forceGrouping || c.drawBuffer.isSome) = true)
    (hrun : addAll E w0 cs = some w1) :
    w1.pool.m_objects.length = (cs.map (Call.key E w0.pool.m_state)).toFinset.card ∧
    w1.pool.m_objects.map (DrawObject.key E)
      = firstOccurrences (cs.map (Call.key E w0.pool.m_state)) ∧
    (∀ c ∈ cs, ∃ i obj,
      mapFind w1.pool.m_drawObjectPointer (Call.key E w0.pool.m_state c) = some i ∧
      w1.pool.m_objects[i]? = some obj ∧ obj.key E = Call.key E w0.pool.m_state c) ∧
    (∀ k i, mapFind w1.pool.m_drawObjectPointer k = some i →
      ∃ c ∈ cs, Call.key E w0.pool.m_state c = k) ∧
    ∀ o ∈ w1.pool.m_objects, o.drawMethods = [] := by
  have hrunK := grouped_run E cs w0 w1 [] hg hrun (by rw [hobjs]; rfl) List.nodup_nil
    (by
      intro k i
      rw [hmap]
      simp [mapFind])
    (by
      intro o ho
      rw [hobjs] at ho
      cases ho)
  rw [foldl_noteKey] at hrunK
  simp only [List.nil_append, List.not_mem_nil, not_false_eq_true, decide_True,
    List.filter_true] at hrunK
  obtain ⟨hK, hmap1, hpend⟩ := hrunK
  refine ⟨?_, hK, ?_, ?_, hpend⟩
  · rw [← firstOccurrences_length, ← hK, List.length_map]
  · intro c hc
    have hin : Call.key E w0.pool.m_state c ∈
        firstOccurrences (cs.map (Call.key E w0.pool.m_state)) :=
      (firstOccurrences_mem _ _).2 (List.mem_map_of_mem _ hc)
    obtain ⟨i, hi⟩ := List.getElem?_of_mem hin
    have hi1 := hi
    rw [← hK, List.getElem?_map] at hi1
    cases hobj : w1.pool.m_objects[i]? with
    | none => rw [hobj] at hi1; cases hi1
    | some obj =>
      rw [hobj] at hi1
      simp only [Option.map_some', Option.some.injEq] at hi1
      exact ⟨i, obj, (hmap1 _ _).2 hi, hobj, hi1⟩
  · intro k i hf
    have hin := List.getElem?_mem ((hmap1 k i).1 hf)
    rw [firstOccurrences_mem, List.mem_map] at hin
    exact hin

/-- The hypotheses of C19 hold for the mixed frame on the TEXT pool: five
calls, two state hashes, two draw objects. -/
theorem one_object_per_state_hash_witness :
    addAll sampleExt textWorldNoBuffer mixedCalls = some textAfterMixed ∧
    textAfterMixed.pool.m_objects.length = 2 ∧
    (textAfterMixed.pool.m_objects.length
        = (mixedCalls.map (Call.key sampleExt textWorldNoBuffer.pool.m_state)).toFinset.card ∧
      textAfterMixed.pool.m_objects.map (DrawObject.key sampleExt)
        = firstOccurrences (mixedCalls.map (Call.key sampleExt textWorldNoBuffer.pool.m_state)) ∧
      (∀ c ∈ mixedCalls, ∃ i obj,
        mapFind textAfterMixed.pool.m_drawObjectPointer
          (Call.key sampleExt textWorldNoBuffer.pool.m_state c) = some i ∧
        textAfterMixed.pool.m_objects[i]? = some obj ∧
        obj.key sampleExt = Call.key sampleExt textWorldNoBuffer.pool.m_state c) ∧
      (∀ k i, mapFind textAfterMixed.pool.m_drawObjectPointer k = some i →
        ∃ c ∈ mixedCalls, Call.key sampleExt textWorldNoBuffer.pool.m_state c = k) ∧
      ∀ o ∈ textAfterMixed.pool.m_objects, o.drawMethods = []) :=
  ⟨by decide, by decide,
    one_object_per_state_hash sampleExt textWorldNoBuffer textAfterMixed mixedCalls
      (by decide) (by decide) (by decide) (by decide)⟩

/-! ### Index safety -/

/-- A grouped step leaves the cursor inside the recorded hashes. -/
theorem advance_cursorOk (E : Ext) (buf buf1 : DrawBuffer) (m : DrawMethod) (mh : Nat)
    (h : buf.advance E m mh = some buf1) : buf1.cursorOk := by
  intro hv
  rcases advance_cases E buf buf1 m mh h with
    ⟨hinv, he⟩ | ⟨hval, -, hend, coords, -, he⟩ | ⟨hval, -, -, hget, he⟩ | ⟨-, hinv⟩
  · rw [he, hinv] at hv
    cases hv
  · subst he
    simp only [DrawBuffer.isValid, decide_eq_true_eq] at hval
    simp only [List.length_append, List.length_singleton, Nat.cast_add, Nat.cast_one]
    omega
  · subst he
    simp only [DrawBuffer.isValid, decide_eq_true_eq] at hval
    have hlt := (List.getElem?_eq_some.1 hget).1
    show 0 ≤ buf.m_i + 1 ∧ buf.m_i + 1 < (buf.m_hashs.length : Int)
    omega
  · rw [hinv] at hv
    cases hv

/-- A registered buffer has its cursor inside its recorded hashes. -/
theorem seed_cursorOk (E : Ext) (buf : DrawBuffer) (m : DrawMethod) (mh : Nat) :
    (buf.seed E m mh).cursorOk := by
  intro _
  obtain ⟨hi, -, hne, -, -⟩ := seed_hashs E buf m mh
  have hpos := List.length_pos.2 hne
  rw [hi]
  omega

/-- The member `validate` keeps the cursor inside the recorded hashes. -/
theorem validate_cursorOk (buf : DrawBuffer) (p : Point) (h : buf.cursorOk) :
    (buf.validate p).2.cursorOk := by
  have hcases : (buf.validate p).2 = buf ∨ (buf.validate p).2.isValid = false := by
    unfold DrawBuffer.validate
    by_cases hp : buf.m_ref = p
    · left
      simp [hp]
    · right
      simp [hp, DrawBuffer.invalidate, DrawBuffer.isValid]
  rcases hcases with he | hinv
  · rw [he]
    exact h
  · intro hv
    rw [hinv] at hv
    cases hv

/-- Index safety passes to a world whose map is included in the old one, whose
draw objects keep their buffers, and whose buffers keep their cursors inside
their hashes. -/
theorem indexSafe_mono (w w1 : World)
    (hmap : ∀ k idx, mapFind w1.pool.m_drawObjectPointer k = some idx →
      mapFind w.pool.m_drawObjectPointer k = some idx)
    (hobjs : ∀ (i : Nat) (obj : DrawObject), w.pool.m_objects[i]? = some obj →
      ∃ obj1 : DrawObject, w1.pool.m_objects[i]? = some obj1 ∧ obj1.buffer = obj.buffer)
    (hheap : ∀ (b : Nat) (buf : DrawBuffer), w.heap[b]? = some buf → buf.cursorOk →
      ∃ buf1 : DrawBuffer, w1.heap[b]? = some buf1 ∧ buf1.cursorOk)
    (h : IndexSafe w) : IndexSafe w1 := by
  intro k idx hf
  obtain ⟨obj, b, buf, hobj, hb, hbuf, hok⟩ := h k idx (hmap k idx hf)
  obtain ⟨obj1, hobj1, hb1⟩ := hobjs idx obj hobj
  obtain ⟨buf1, hbuf1, hok1⟩ := hheap b buf hbuf hok
  exact ⟨obj1, b, buf1, hobj1, hb1.trans hb, hbuf1, hok1⟩

/-- Replacing a buffer by one whose cursor is inside its hashes when that of
the replaced buffer was keeps the cursors of the heap inside their hashes. -/
theorem heap_set_cursorOk (heap : List DrawBuffer) (b0 : Nat) (old new : DrawBuffer)
    (hold : heap[b0]? = some old) (hnew : old.cursorOk → new.cursorOk)
    (b : Nat) (buf : DrawBuffer) (hbuf : heap[b]? = some buf) (hok : buf.cursorOk) :
    ∃ buf1 : DrawBuffer, (heap.set b0 new)[b]? = some buf1 ∧ buf1.cursorOk := by
  by_cases hb : b0 = b
  · subst hb
    have hlt : b0 < heap.length := (List.getElem?_eq_some.1 hbuf).1
    rw [hold, Option.some.injEq] at hbuf
    subst hbuf
    exact ⟨new, by rw [List.getElem?_set_self hlt], hnew hok⟩
  · exact ⟨buf, by rw [List.getElem?_set_ne hb]; exact hbuf, hok⟩

/-- A pool keeps its own shape. -/
theorem keepsShape_refl (p q : Pool) (hmap : q.m_drawObjectPointer = p.m_drawObjectPointer)
    (hobjs : q.m_objects = p.m_objects) : p.keepsShape q := by
  refine ⟨hmap, ?_⟩
  intro i obj hobj
  exact ⟨obj, by rw [hobjs]; exact hobj, rfl⟩

/-- Overwriting the state of a draw object keeps the shape of the pool. -/
theorem editObject_keepsShape (p q : Pool) (pos : Int) (f : PainterState → PainterState)
    (h : p.editObject pos f = some q) : p.keepsShape q := by
  unfold Pool.editObject at h
  split at h
  · exact absurd h (by simp)
  · cases ho : p.m_objects[(pos - 1).toNat]? with
    | none => rw [ho] at h; exact absurd h (by simp)
    | some o =>
      rw [ho] at h
      simp only [Option.some.injEq] at h
      subst h
      refine ⟨rfl, ?_⟩
      intro i obj hobj
      by_cases hi : (pos - 1).toNat = i
      · subst hi
        have hlt : (pos - 1).toNat < p.m_objects.length := (List.getElem?_eq_some.1 ho).1
        rw [ho, Option.some.injEq] at hobj
        subst hobj
        exact ⟨_, List.getElem?_set_self hlt, rfl⟩
      · exact ⟨obj, by
          show (p.m_objects.set (pos - 1).toNat _)[i]? = some obj
          rw [List.getElem?_set_ne hi]
          exact hobj, rfl⟩

/-- The member `setOpacity` keeps the shape of the pool. -/
theorem setOpacity_keepsShape (E : Ext) (p q : Pool) (o : ℚ) (pos : Int)
    (h : p.setOpacity E o pos = some q) : p.keepsShape q := by
  unfold Pool.setOpacity at h
  split at h
  · simp only [Option.some.injEq] at h
    subst h
    exact keepsShape_refl _ _ rfl rfl
  · cases he : p.editObject pos fun s => { s with opacity := o } with
    | none => rw [he] at h; exact absurd h (by simp)
    | some q1 =>
      rw [he] at h
      simp only [Option.map_some', Option.some.injEq] at h
      subst h
      exact editObject_keepsShape p q1 pos _ he

/-- The member `setClipRect` keeps the shape of the pool. -/
theorem setClipRect_keepsShape (E : Ext) (p q : Pool) (r : Rect) (pos : Int)
    (h : p.setClipRect E r pos = some q) : p.keepsShape q := by
  unfold Pool.setClipRect at h
  split at h
  · simp only [Option.some.injEq] at h
    subst h
    exact keepsShape_refl _ _ rfl rfl
  · cases he : p.editObject pos fun s => { s with clipRect := r } with
    | none => rw [he] at h; exact absurd h (by simp)
    | some q1 =>
      rw [he] at h
      simp only [Option.map_some', Option.some.injEq] at h
      subst h
      exact editObject_keepsShape p q1 pos _ he

/-- The member `setCompositionMode` keeps the shape of the pool. -/
theorem setCompositionMode_keepsShape (E : Ext) (p q : Pool) (m : CompositionMode) (pos : Int)
    (h : p.setCompositionMode E m pos = some q) : p.keepsShape q := by
  unfold Pool.setCompositionMode at h
  split at h
  · simp only [Option.some.injEq] at h
    subst h
    exact keepsShape_refl _ _ rfl rfl
  · cases he : p.editObject pos fun s => { s with compositionMode := m } with
    | none => rw [he] at h; exact absurd h (by simp)
    | some q1 =>
      rw [he] at h
      simp only [Option.map_some', Option.some.injEq] at h
      subst h
      exact editObject_keepsShape p q1 pos _ he

/-- The member `setBlendEquation` keeps the shape of the pool. -/
theorem setBlendEquation_keepsShape (E : Ext) (p q : Pool) (e : BlendEquation) (pos : Int)
    (h : p.setBlendEquation E e pos = some q) : p.keepsShape q := by
  unfold Pool.setBlendEquation at h
  split at h
  · simp only [Option.some.injEq] at h
    subst h
    exact keepsShape_refl _ _ rfl rfl
  · cases he : p.editObject pos fun s => { s with blendEquation := e } with
    | none => rw [he] at h; exact absurd h (by simp)
    | some q1 =>
      rw [he] at h
      simp only [Option.map_some', Option.some.injEq] at h
      subst h
      exact editObject_keepsShape p q1 pos _ he

/-- The member `setShaderProgram` keeps the shape of the pool. -/
theorem setShaderProgram_keepsShape (p q : Pool) (sh : Option PainterShaderProgram)
    (pos : Int) (a : Option Nat) (h : p.setShaderProgram sh pos a = some q) :
    p.keepsShape q := by
  unfold Pool.setShaderProgram at h
  simp only at h
  split at h
  · simp only [Option.some.injEq] at h
    subst h
    exact keepsShape_refl _ _ rfl rfl
  · by_cases hs : sh.isSome = true
    · rw [if_pos hs] at h
      exact editObject_keepsShape { p with m_autoUpdate := true } q pos _ h
    · rw [if_neg hs] at h
      exact editObject_keepsShape p q pos _ h

/-- The member `hasModification` keeps the map and the draw objects. -/
theorem hasModification_shape (now : Int) (p : Pool) (a : Bool) :
    (p.hasModification now a).2.m_drawObjectPointer = p.m_drawObjectPointer ∧
    (p.hasModification now a).2.m_objects = p.m_objects := by
  simp only [Pool.hasModification]
  split <;> exact ⟨rfl, rfl⟩

/-- The ungrouped path keeps a draw object with the same buffer at every
index of the list. -/
theorem addUngrouped_buffers (list list1 : List DrawObject) (state : PainterState)
    (method : DrawMethod) (drawMode : DrawMode)
    (h : addUngrouped list state method drawMode = some list1)
    (i : Nat) (obj : DrawObject) (hobj : list[i]? = some obj) :
    ∃ obj1 : DrawObject, list1[i]? = some obj1 ∧ obj1.buffer = obj.buffer := by
  rcases addUngrouped_cases list list1 state method drawMode h with
    ⟨hnil, -⟩ | ⟨init, prev, methods, hl, -, ⟨-, hl1⟩ | ⟨-, hl1⟩⟩
  · rw [hnil] at hobj
    simp at hobj
  · subst hl hl1
    rcases Nat.lt_trichotomy i init.length with hlt | heq | hgt
    · rw [List.getElem?_append_left hlt] at hobj
      exact ⟨obj, by rw [List.getElem?_append_left hlt]; exact hobj, rfl⟩
    · subst heq
      rw [List.getElem?_concat_length, Option.some.injEq] at hobj
      subst hobj
      exact ⟨_, List.getElem?_concat_length _ _, rfl⟩
    · rw [List.getElem?_eq_none (by rw [List.length_append, List.length_singleton]; omega)]
        at hobj
      cases hobj
  · subst hl hl1
    rcases Nat.lt_trichotomy i init.length with hlt | heq | hgt
    · rw [List.getElem?_append_left hlt] at hobj
      refine ⟨obj, ?_, rfl⟩
      rw [List.append_assoc, List.getElem?_append_left hlt]
      exact hobj
    · subst heq
      rw [List.getElem?_concat_length, Option.some.injEq] at hobj
      subst hobj
      refine ⟨{ prev with drawMethods := methods }, ?_, rfl⟩
      rw [List.getElem?_append_left (by rw [List.length_append, List.length_singleton]; omega)]
      exact List.getElem?_concat_length _ _
    · rw [List.getElem?_eq_none (by rw [List.length_append, List.length_singleton]; omega)]
        at hobj
      cases hobj

/-- The shape of a successful ungrouped call of `add`. -/
theorem addCall_ungrouped (E : Ext) (w w1 : World) (c : Call)
    (hg : (w.pool.m_forceGrouping || c.drawBuffer.isSome) = false)
    (h : addCall E w c = some w1) :
    ∃ l, addUngrouped w.pool.m_objects (snapshotOf w.pool.m_state c) c.method c.drawMode
        = some l ∧
      w1 = ⟨w.heap, { w.pool.afterHash E c with m_objects := l }⟩ := by
  rw [addCall_eq] at h
  unfold addBody at h
  have hg1 : ((w.pool.afterHash E c).m_forceGrouping || c.drawBuffer.isSome) = false := hg
  rw [hg1] at h
  simp only [Bool.false_eq_true, if_false] at h
  cases hu : addUngrouped (w.pool.afterHash E c).m_objects (snapshotOf w.pool.m_state c)
      c.method c.drawMode with
  | none => rw [hu] at h; exact absurd h (by simp)
  | some l =>
    rw [hu] at h
    simp only [Option.map_some', Option.some.injEq] at h
    exact ⟨l, hu, h.symm⟩

/-- Allocation of a draw buffer keeps the buffers of the heap. -/
theorem allocHeap_get (heap : List DrawBuffer) (db : Option Nat) (b : Nat) (buf : DrawBuffer)
    (h : heap[b]? = some buf) : (allocHeap heap db)[b]? = some buf := by
  cases db with
  | some _ => exact h
  | none =>
    show (heap ++ [DrawBuffer.create])[b]? = some buf
    rw [List.getElem?_append_left (List.getElem?_eq_some.1 h).1]
    exact h

/-- A call of `add` keeps index safety. -/
theorem addCall_indexSafe (E : Ext) (w w1 : World) (c : Call) (h : addCall E w c = some w1)
    (hs : IndexSafe w) : IndexSafe w1 := by
  rcases addCall_cases E w w1 c h with
    ⟨hu, -⟩ | ⟨-, idx0, obj0, b0, buf0, buf1, -, -, -, hbuf0, hadv, hw1⟩ |
    ⟨-, hfind, buf0, hbuf0, hw1⟩
  · obtain ⟨l, hl, hw1⟩ := addCall_ungrouped E w w1 c hu h
    subst hw1
    exact indexSafe_mono w _ (fun _ _ hf => hf)
      (fun i obj hobj => addUngrouped_buffers _ _ _ _ _ hl i obj hobj)
      (fun b buf hbuf hok => ⟨buf, hbuf, hok⟩) hs
  · subst hw1
    exact indexSafe_mono w _ (fun _ _ hf => hf) (fun i obj hobj => ⟨obj, hobj, rfl⟩)
      (heap_set_cursorOk w.heap b0 buf0 buf1 hbuf0
        (fun _ => advance_cursorOk E buf0 buf1 _ _ hadv)) hs
  · subst hw1
    have hlt : allocId w.heap c.drawBuffer < (allocHeap w.heap c.drawBuffer).length :=
      (List.getElem?_eq_some.1 hbuf0).1
    intro k idx hf
    have hf1 : mapFind (mapAssign w.pool.m_drawObjectPointer (Call.key E w.pool.m_state c)
        w.pool.m_objects.length) k = some idx := hf
    rw [mapFind_assign] at hf1
    by_cases hk : Call.key E w.pool.m_state c = k
    · rw [if_pos hk, Option.some.injEq] at hf1
      subst hf1
      exact ⟨_, allocId w.heap c.drawBuffer, _, List.getElem?_concat_length _ _, rfl,
        List.getElem?_set_self hlt, seed_cursorOk E buf0 _ _⟩
    · rw [if_neg hk] at hf1
      obtain ⟨obj, b, buf, hobj, hb, hbuf, hok⟩ := hs k idx hf1
      obtain ⟨buf2, hbuf2, hok2⟩ := heap_set_cursorOk (allocHeap w.heap c.drawBuffer)
        (allocId w.heap c.drawBuffer) buf0 (buf0.seed E c.method (Call.methodHash E c)) hbuf0
        (fun _ => seed_cursorOk E buf0 _ _) b buf (allocHeap_get _ _ _ _ hbuf) hok
      refine ⟨obj, b, buf2, ?_, hb, hbuf2, hok2⟩
      show (w.pool.m_objects ++ [_])[idx]? = some obj
      rw [List.getElem?_append_left (List.getElem?_eq_some.1 hobj).1]
      exact hobj

/-- A world with an empty map is index safe. -/
theorem indexSafe_of_empty (w : World) (h : w.pool.m_drawObjectPointer = []) : IndexSafe w := by
  intro k idx hf
  rw [h] at hf
  simp [mapFind] at hf

/-- A change of the pool that keeps its shape keeps index safety. -/
theorem indexSafe_keepsShape (w : World) (q : Pool) (hq : w.pool.keepsShape q)
    (hs : IndexSafe w) : IndexSafe { w with pool := q } :=
  indexSafe_mono w _ (fun k idx hf => by rw [← hq.1]; exact hf) hq.2
    (fun b buf hbuf hok => ⟨buf, hbuf, hok⟩) hs

/-- Every operation keeps index safety. -/
theorem perform_indexSafe (E : Ext) (w w1 : World) (ev : Event) (h : perform E w ev = some w1)
    (hs : IndexSafe w) : IndexSafe w1 := by
  cases ev with
  | newBuffer =>
    simp only [perform, Option.some.injEq] at h
    subst h
    exact indexSafe_mono w _ (fun _ _ hf => hf) (fun i obj hobj => ⟨obj, hobj, rfl⟩)
      (fun b buf hbuf hok => ⟨buf, by
        show (w.heap ++ [DrawBuffer.create])[b]? = some buf
        rw [List.getElem?_append_left (List.getElem?_eq_some.1 hbuf).1]
        exact hbuf, hok⟩) hs
  | validate b0 p =>
    simp only [perform] at h
    cases hb : w.heap[b0]? with
    | none => rw [hb] at h; exact absurd h (by simp)
    | some old =>
      rw [hb] at h
      simp only [Option.some.injEq] at h
      subst h
      exact indexSafe_mono w _ (fun _ _ hf => hf) (fun i obj hobj => ⟨obj, hobj, rfl⟩)
        (heap_set_cursorOk w.heap b0 old (old.validate p).2 hb (validate_cursorOk old p)) hs
  | add c => exact addCall_indexSafe E w w1 c h hs
  | setOpacity o pos =>
    simp only [perform] at h
    cases hq : w.pool.setOpacity E o pos with
    | none => rw [hq] at h; exact absurd h (by simp)
    | some q =>
      rw [hq] at h
      simp only [Option.map_some', Option.some.injEq] at h
      subst h
      exact indexSafe_keepsShape w q (setOpacity_keepsShape E _ _ _ _ hq) hs
  | setClipRect r pos =>
    simp only [perform] at h
    cases hq : w.pool.setClipRect E r pos with
    | none => rw [hq] at h; exact absurd h (by simp)
    | some q =>
      rw [hq] at h
      simp only [Option.map_some', Option.some.injEq] at h
      subst h
      exact indexSafe_keepsShape w q (setClipRect_keepsShape E _ _ _ _ hq) hs
  | setCompositionMode m pos =>
    simp only [perform] at h
    cases hq : w.pool.setCompositionMode E m pos with
    | none => rw [hq] at h; exact absurd h (by simp)
    | some q =>
      rw [hq] at h
      simp only [Option.map_some', Option.some.injEq] at h
      subst h
      exact indexSafe_keepsShape w q (setCompositionMode_keepsShape E _ _ _ _ hq) hs
  | setBlendEquation e pos =>
    simp only [perform] at h
    cases hq : w.pool.setBlendEquation E e pos with
    | none => rw [hq] at h; exact absurd h (by simp)
    | some q =>
      rw [hq] at h
      simp only [Option.map_some', Option.some.injEq] at h
      subst h
      exact indexSafe_keepsShape w q (setBlendEquation_keepsShape E _ _ _ _ hq) hs
  | setShaderProgram sh pos a =>
    simp only [perform] at h
    cases hq : w.pool.setShaderProgram sh pos a with
    | none => rw [hq] at h; exact absurd h (by simp)
    | some q =>
      rw [hq] at h
      simp only [Option.map_some', Option.some.injEq] at h
      subst h
      exact indexSafe_keepsShape w q (setShaderProgram_keepsShape _ _ _ _ _ hq) hs
  | resetState =>
    simp only [perform, Option.some.injEq] at h
    subst h
    exact indexSafe_of_empty _ rfl
  | flush =>
    simp only [perform, Option.some.injEq] at h
    subst h
    exact indexSafe_of_empty _ rfl
  | hasModification now a =>
    simp only [perform, Option.some.injEq] at h
    subst h
    exact indexSafe_keepsShape w _
      (keepsShape_refl _ _ (hasModification_shape now w.pool a).1
        (hasModification_shape now w.pool a).2) hs

/-- A history of operations keeps index safety. -/
theorem performAll_indexSafe (E : Ext) (evs : List Event) (w w1 : World)
    (h : performAll E w evs = some w1) (hs : IndexSafe w) : IndexSafe w1 := by
  induction evs generalizing w with
  | nil =>
    simp only [performAll, Option.some.injEq] at h
    subst h
    exact hs
  | cons ev evs ih =>
    simp only [performAll] at h
    cases hp : perform E w ev with
    | none => rw [hp] at h; exact absurd h (by simp)
    | some w2 =>
      rw [hp] at h
      exact ih w2 h (perform_indexSafe E w w2 ev hp hs)

/-- A newly created pool has an empty state-to-index map. -/
theorem create_map (now : Int) (t : PoolType) : (Pool.create now t).m_drawObjectPointer = [] := by
  cases t <;> simp [Pool.create, PoolFramed.new, Pool.new]

/-- C20: in every state that a history of operations reaches from a newly
created pool (draw buffers allocated by callers, add grouped or ungrouped,
the state mutators with a valid position, resetState, flush, hasModification
and DrawBuffer::validate on a buffer), an index stored in the state-to-index
map is smaller than the number of draw objects and designates a draw object
with a non-null buffer; when that buffer is valid, its cursor is at least 0
and smaller than the length of its hash sequence. Hence the lookups of the
grouped path of add succeed: the draw object at the stored index exists and,
when the valid buffer is not at the end of its hashes, the hash at the
incremented cursor exists. -/
theorem index_safety (E : Ext) (now : Int) (type : PoolType) (evs : List Event) (w : World)
    (hreach : performAll E ⟨[], Pool.create now type⟩ evs = some w) (k idx : Nat)
    (hfind : mapFind w.pool.m_drawObjectPointer k = some idx) :
    idx < w.pool.m_objects.length ∧
    ∃ obj b buf, w.pool.m_objects[idx]? = some obj ∧ obj.buffer = some b ∧
      w.heap[b]? = some buf ∧
      (buf.isValid = true → 0 ≤ buf.m_i ∧ buf.m_i < (buf.m_hashs.length : Int)) ∧
      (buf.isValid = true → buf.m_i + 1 ≠ (buf.m_hashs.length : Int) →
        ∃ h, buf.m_hashs[(buf.m_i + 1).toNat]? = some h) := by
  have hs : IndexSafe w :=
    performAll_indexSafe E evs _ w hreach (indexSafe_of_empty _ (create_map now type))
  obtain ⟨obj, b, buf, hobj, hb, hbuf, hok⟩ := hs k idx hfind
  refine ⟨(List.getElem?_eq_some.1 hobj).1, obj, b, buf, hobj, hb, hbuf, hok, ?_⟩
  intro hv hne
  obtain ⟨h0, hlt⟩ := hok hv
  have hlt1 : (buf.m_i + 1).toNat < buf.m_hashs.length := by omega
  exact ⟨buf.m_hashs[(buf.m_i + 1).toNat], List.getElem?_eq_getElem hlt1⟩

/-- The hypotheses of C20 hold after the sample history on a TEXT pool for
the state hash of the glyph draws, stored at index 0. -/
theorem index_safety_witness :
    performAll sampleExt ⟨[], Pool.create 0 PoolType.TEXT⟩ sampleHistory
      = some textAfterHistory ∧
    mapFind textAfterHistory.pool.m_drawObjectPointer
      (Call.key sampleExt textAfterHistory.pool.m_state callA) = some 0 ∧
    (0 < textAfterHistory.pool.m_objects.length ∧
    ∃ obj b buf, textAfterHistory.pool.m_objects[0]? = some obj ∧ obj.buffer = some b ∧
      textAfterHistory.heap[b]? = some buf ∧
      (buf.isValid = true → 0 ≤ buf.m_i ∧ buf.m_i < (buf.m_hashs.length : Int)) ∧
      (buf.isValid = true → buf.m_i + 1 ≠ (buf.m_hashs.length : Int) →
        ∃ h, buf.m_hashs[(buf.m_i + 1).toNat]? = some h)) :=
  ⟨by decide, by decide,
    index_safety sampleExt 0 PoolType.TEXT sampleHistory textAfterHistory (by decide)
      (Call.key sampleExt textAfterHistory.pool.m_state callA) 0 (by decide)⟩

/-! ### No mergeable neighbours -/

/-- The pending methods of a concatenation. -/
theorem pendingMethods_append (l1 l2 : List DrawObject) :
    pendingMethods (l1 ++ l2) = pendingMethods l1 ++ pendingMethods l2 := by
  induction l1 with
  | nil => rfl
  | cons o os ih =>
    show o.drawMethods ++ pendingMethods (os ++ l2) = _
    rw [ih]
    simp only [pendingMethods, List.append_assoc]

/-- The pending methods of a single draw object. -/
theorem pendingMethods_singleton (o : DrawObject) : pendingMethods [o] = o.drawMethods := by
  simp only [pendingMethods, List.append_nil]

/-- The scan erases at most one pending method. -/
theorem scanPending_length (prev : DrawObject) (state : PainterState) (method : DrawMethod)
    (methods : List DrawMethod) (h : scanPending prev state method = some methods) :
    prev.drawMethods.length ≤ methods.length + 1 := by
  unfold scanPending at h
  by_cases hr : method.hasRefPoint = true
  · rw [if_pos hr] at h
    cases hm : method.rect with
    | none => rw [hm] at h; exact absurd h (by simp)
    | some r =>
      rw [hm] at h
      simp only at h
      rcases eraseOccluded_cases _ _ _ _ _ _ h with he | ⟨a, x, b, rx, hl, hl1, -, -⟩
      · rw [he]
        omega
      · rw [hl, hl1]
        simp only [List.length_append, List.length_cons]
        omega
  · rw [if_neg hr, Option.some.injEq] at h
    rw [h]
    omega

/-- One ungrouped `add`: the list grows by at most one draw object and never
shrinks; the pending methods afterwards are the earlier ones without at most
one of them, followed by the new method. -/
theorem addUngrouped_step (list list1 : List DrawObject) (state : PainterState)
    (method : DrawMethod) (drawMode : DrawMode)
    (h : addUngrouped list state method drawMode = some list1) :
    list.length ≤ list1.length ∧ list1.length ≤ list.length + 1 ∧
    ∃ kept, pendingMethods list1 = kept ++ [method] ∧ kept.Sublist (pendingMethods list) ∧
      (pendingMethods list).length ≤ kept.length + 1 := by
  rcases addUngrouped_cases list list1 state method drawMode h with
    ⟨hnil, hl1⟩ | ⟨init, prev, methods, hl, hscan, ⟨-, hl1⟩ | ⟨-, hl1⟩⟩
  · subst hnil hl1
    exact ⟨by simp, by simp, [], rfl, List.Sublist.refl _, by simp [pendingMethods]⟩
  · subst hl hl1
    have hsub := scanPending_sublist prev state method methods hscan
    have hlen := scanPending_length prev state method methods hscan
    refine ⟨by simp, by simp, pendingMethods init ++ methods, ?_, ?_, ?_⟩
    · rw [pendingMethods_append, pendingMethods_singleton, List.append_assoc]
    · rw [pendingMethods_append, pendingMethods_singleton]
      exact List.Sublist.append (List.Sublist.refl _) hsub
    · rw [pendingMethods_append, pendingMethods_singleton]
      simp only [List.length_append]
      omega
  · subst hl hl1
    have hsub := scanPending_sublist prev state method methods hscan
    have hlen := scanPending_length prev state method methods hscan
    refine ⟨by simp, by simp, pendingMethods init ++ methods, ?_, ?_, ?_⟩
    · rw [pendingMethods_append, pendingMethods_append, pendingMethods_singleton,
        pendingMethods_singleton]
    · rw [pendingMethods_append, pendingMethods_singleton]
      exact List.Sublist.append (List.Sublist.refl _) hsub
    · rw [pendingMethods_append, pendingMethods_singleton]
      simp only [List.length_append]
      omega

/-- One ungrouped `add` keeps the draw-object list free of neighbours with one
state. -/
theorem addUngrouped_noMergeable (list list1 : List DrawObject) (state : PainterState)
    (method : DrawMethod) (drawMode : DrawMode)
    (h : addUngrouped list state method drawMode = some list1) (hinv : noMergeable list) :
    noMergeable list1 := by
  unfold noMergeable at hinv ⊢
  rcases addUngrouped_cases list list1 state method drawMode h with
    ⟨-, hl1⟩ | ⟨init, prev, methods, hl, -, ⟨-, hl1⟩ | ⟨hdiff, hl1⟩⟩
  · subst hl1
    exact List.chain'_singleton _
  · subst hl hl1
    rw [List.chain'_append] at hinv ⊢
    exact ⟨hinv.1, List.chain'_singleton _, fun x hx y hy => by
      simp only [List.head?_cons, Option.mem_def, Option.some.injEq] at hy
      subst hy
      exact hinv.2.2 x hx prev (by simp)⟩
  · subst hl hl1
    rw [List.chain'_append] at hinv
    rw [List.chain'_append]
    refine ⟨?_, List.chain'_singleton _, ?_⟩
    · rw [List.chain'_append]
      exact ⟨hinv.1, List.chain'_singleton _, fun x hx y hy => by
        simp only [List.head?_cons, Option.mem_def, Option.some.injEq] at hy
        subst hy
        exact hinv.2.2 x hx prev (by simp)⟩
    · intro x hx y hy
      rw [List.getLast?_concat, Option.mem_def, Option.some.injEq] at hx
      simp only [List.head?_cons, Option.mem_def, Option.some.injEq] at hy
      subst hx hy
      exact hdiff

/-- In a list free of mergeable neighbours, the objects at two successive
indices have different states. -/
theorem noMergeable_get (l : List DrawObject) (h : noMergeable l) (i : Nat) (a b : DrawObject)
    (ha : l[i]? = some a) (hb : l[i + 1]? = some b) : a.state.same b.state = false := by
  unfold noMergeable at h
  induction l generalizing i with
  | nil => simp at ha
  | cons x xs ih =>
    cases i with
    | zero =>
      cases xs with
      | nil => simp at hb
      | cons y ys =>
        simp only [List.getElem?_cons_zero, Option.some.injEq, zero_add,
          List.getElem?_cons_succ] at ha hb
        subst ha hb
        exact (List.chain'_cons.1 h).1
    | succ j =>
      rw [List.getElem?_cons_succ] at ha hb
      exact ih h.tail j ha hb

/-- An ambient mutation changes neither the draw-object list nor the grouping
mode. -/
theorem runOp_ambient (E : Ext) (w w1 : World) (op : Op) (hop : ∀ c, op ≠ Op.add c)
    (h : runOp E w op = some w1) :
    w1.pool.m_objects = w.pool.m_objects ∧
    w1.pool.m_forceGrouping = w.pool.m_forceGrouping := by
  cases op with
  | add c => exact absurd rfl (hop c)
  | setOpacity o =>
    simp [runOp, Pool.setOpacity] at h
    subst h
    exact ⟨rfl, rfl⟩
  | setClipRect r =>
    simp [runOp, Pool.setClipRect] at h
    subst h
    exact ⟨rfl, rfl⟩
  | setCompositionMode m =>
    simp [runOp, Pool.setCompositionMode] at h
    subst h
    exact ⟨rfl, rfl⟩
  | setBlendEquation e =>
    simp [runOp, Pool.setBlendEquation] at h
    subst h
    exact ⟨rfl, rfl⟩
  | setShaderProgram sh a =>
    simp [runOp, Pool.setShaderProgram] at h
    subst h
    exact ⟨rfl, rfl⟩

/-- One step of an ungrouped frame: the pool stays ungrouped, and the
draw-object list is unchanged or the result of the ungrouped path. -/
theorem runOp_ungrouped (E : Ext) (w w1 : World) (op : Op)
    (hfg : w.pool.m_forceGrouping = false)
    (hung : ∀ c, op = Op.add c → c.drawBuffer = none)
    (h : runOp E w op = some w1) :
    w1.pool.m_forceGrouping = false ∧
    (w1.pool.m_objects = w.pool.m_objects ∨
      ∃ c, op = Op.add c ∧
        addUngrouped w.pool.m_objects (snapshotOf w.pool.m_state c) c.method c.drawMode
          = some w1.pool.m_objects) := by
  by_cases hop : ∃ c, op = Op.add c
  · obtain ⟨c, hc⟩ := hop
    subst hc
    have hg : (w.pool.m_forceGrouping || c.drawBuffer.isSome) = false := by
      rw [hfg, hung c rfl]
      rfl
    obtain ⟨l, hl, hw1⟩ := addCall_ungrouped E w w1 c hg h
    subst hw1
    exact ⟨hfg, Or.inr ⟨c, rfl, hl⟩⟩
  · have hop1 : ∀ c, op ≠ Op.add c := fun c hc => hop ⟨c, hc⟩
    obtain ⟨ho, hf⟩ := runOp_ambient E w w1 op hop1 h
    exact ⟨hf.trans hfg, Or.inl ho⟩

/-- An ungrouped frame keeps the pool ungrouped and the draw-object list free
of mergeable neighbours. -/
theorem runOps_ungrouped (E : Ext) (ops : List Op) (w w1 : World)
    (hfg : w.pool.m_forceGrouping = false)
    (hung : ∀ c, Op.add c ∈ ops → c.drawBuffer = none)
    (hinv : noMergeable w.pool.m_objects)
    (h : runOps E w ops = some w1) :
    w1.pool.m_forceGrouping = false ∧ noMergeable w1.pool.m_objects := by
  induction ops generalizing w with
  | nil =>
    simp only [runOps, Option.some.injEq] at h
    subst h
    exact ⟨hfg, hinv⟩
  | cons op ops ih =>
    simp only [runOps] at h
    cases hop : runOp E w op with
    | none => rw [hop] at h; exact absurd h (by simp)
    | some w2 =>
      rw [hop] at h
      obtain ⟨hfg2, hstep⟩ := runOp_ungrouped E w w2 op hfg
        (fun c hc => hung c (by rw [hc]; exact List.mem_cons_self _ _)) hop
      refine ih w2 hfg2 (fun c hc => hung c (List.mem_cons_of_mem _ hc)) ?_ h
      rcases hstep with he | ⟨c, -, hadd⟩
      · rw [he]
        exact hinv
      · exact addUngrouped_noMergeable _ _ _ _ _ hadd hinv

/-- C21: on a pool without forced grouping whose draw-object list is empty, a
sequence of add calls without buffer and of ambient mutations (mutators with
pos = -1) that completes leaves a draw-object list in which no two adjacent
draw objects have equal state snapshots (by the comparison of the ungrouped
path, hence not as values either); and every add call of the sequence leaves
the number of draw objects as it is or raises it by one, and leaves as
pending methods the earlier ones without at most one of them, followed by
the new method. -/
theorem no_mergeable_neighbours (E : Ext) (w0 w1 : World) (ops : List Op)
    (hfg : w0.pool.m_forceGrouping = false) (hobjs : w0.pool.m_objects = [])
    (hung : ∀ c, Op.add c ∈ ops → c.drawBuffer = none)
    (hrun : runOps E w0 ops = some w1) :
    (∀ (i : Nat) (a b : DrawObject), w1.pool.m_objects[i]? = some a →
      w1.pool.m_objects[i + 1]? = some b → a.state.same b.state = false ∧ a.state ≠ b.state) ∧
    ∀ (pre post : List Op) (c : Call) (wa wb : World), ops = pre ++ Op.add c :: post →
      runOps E w0 pre = some wa → addCall E wa c = some wb →
      wa.pool.m_objects.length ≤ wb.pool.m_objects.length ∧
      wb.pool.m_objects.length ≤ wa.pool.m_objects.length + 1 ∧
      ∃ kept, pendingMethods wb.pool.m_objects = kept ++ [c.method] ∧
        kept.Sublist (pendingMethods wa.pool.m_objects) ∧
        (pendingMethods wa.pool.m_objects).length ≤ kept.length + 1 := by
  have hnil : noMergeable w0.pool.m_objects := by
    rw [hobjs]
    exact List.chain'_nil
  constructor
  · intro i a b ha hb
    have hsame := noMergeable_get _ (runOps_ungrouped E ops w0 w1 hfg hung hnil hrun).2 i a b ha hb
    refine ⟨hsame, ?_⟩
    intro heq
    rw [heq, same_self] at hsame
    cases hsame
  · intro pre post c wa wb hops hpre hadd
    have hungpre : ∀ c1, Op.add c1 ∈ pre → c1.drawBuffer = none := by
      intro c1 hc1
      exact hung c1 (by rw [hops]; exact List.mem_append_left _ hc1)
    have hfga := (runOps_ungrouped E pre w0 wa hfg hungpre hnil hpre).1
    have hg : (wa.pool.m_forceGrouping || c.drawBuffer.isSome) = false := by
      rw [hfga, hung c (by rw [hops]; exact List.mem_append_right _ (List.mem_cons_self _ _))]
      rfl
    obtain ⟨l, hl, hwb⟩ := addCall_ungrouped E wa wb c hg hadd
    subst hwb
    exact addUngrouped_step _ _ _ _ _ hl

/-- The hypotheses of C21 hold for the ungrouped frame on the empty MAP pool;
its second add call (the tile B after the prefix of one add) erases the
pending tile A and merges. -/
theorem no_mergeable_neighbours_witness :
    runOps sampleExt emptyMapWorld ungroupedOps = some mapAfterUngrouped ∧
    mapAfterUngrouped.pool.m_objects.length = 3 ∧
    ((∀ (i : Nat) (a b : DrawObject), mapAfterUngrouped.pool.m_objects[i]? = some a →
      mapAfterUngrouped.pool.m_objects[i + 1]? = some b →
      a.state.same b.state = false ∧ a.state ≠ b.state) ∧
    ∀ (pre post : List Op) (c : Call) (wa wb : World),
      ungroupedOps = pre ++ Op.add c :: post →
      runOps sampleExt emptyMapWorld pre = some wa → addCall sampleExt wa c = some wb →
      wa.pool.m_objects.length ≤ wb.pool.m_objects.length ∧
      wb.pool.m_objects.length ≤ wa.pool.m_objects.length + 1 ∧
      ∃ kept, pendingMethods wb.pool.m_objects = kept ++ [c.method] ∧
        kept.Sublist (pendingMethods wa.pool.m_objects) ∧
        (pendingMethods wa.pool.m_objects).length ≤ kept.length + 1) :=
  ⟨by decide, by decide,
    no_mergeable_neighbours sampleExt emptyMapWorld mapAfterUngrouped ungroupedOps
      (by decide) (by decide)
      (by
        intro c hc
        simp only [ungroupedOps, List.mem_cons, Op.add.injEq, List.mem_singleton,
          List.not_mem_nil, or_false] at hc
        rcases hc with h | h | h | h | h | h <;> first | (subst h; rfl) | cases h)
      (by decide)⟩

/-! ### The member validate -/

/-- A grouped step keeps an invalid buffer without hashes. -/
theorem advance_tidy (E : Ext) (buf buf1 : DrawBuffer) (m : DrawMethod) (mh : Nat)
    (h : buf.advance E m mh = some buf1) (ht : buf.tidy) : buf1.tidy := by
  unfold DrawBuffer.advance at h
  by_cases hv : buf.isValid = true
  · rw [if_pos hv] at h
    have hv1 : buf.m_i > -1 := by simpa [DrawBuffer.isValid] using hv
    by_cases hmax : buf.m_i = INT_MAX
    · rw [if_pos hmax] at h
      exact absurd h (by simp)
    · rw [if_neg hmax] at h
      by_cases hend : buf.m_i + 1 = (buf.m_hashs.length : Int)
      · rw [if_pos hend] at h
        cases hco : buf.m_coords with
        | none => rw [hco] at h; exact absurd h (by simp)
        | some coords =>
          rw [hco] at h
          simp only [Option.some.injEq] at h
          subst h
          intro hinv
          simp only [DrawBuffer.isValid, decide_eq_false_iff_not] at hinv
          omega
      · rw [if_neg hend] at h
        cases hr : buf.m_hashs[(buf.m_i + 1).toNat]? with
        | none => rw [hr] at h; exact absurd h (by simp)
        | some x =>
          rw [hr] at h
          simp only at h
          by_cases hx : x = mh
          · simp only [hx, ne_eq, not_true_eq_false, if_false, Option.some.injEq] at h
            subst h
            intro hinv
            simp only [DrawBuffer.isValid, decide_eq_false_iff_not] at hinv
            omega
          · simp only [ne_eq, hx, not_false_eq_true, if_true, Option.some.injEq] at h
            subst h
            intro _
            rfl
  · rw [if_neg hv, Option.some.injEq] at h
    subst h
    exact ht

/-- A registered buffer is valid. -/
theorem seed_tidy (E : Ext) (buf : DrawBuffer) (m : DrawMethod) (mh : Nat) :
    (buf.seed E m mh).tidy := by
  intro hinv
  have hi := (seed_hashs E buf m mh).1
  simp only [DrawBuffer.isValid, decide_eq_false_iff_not] at hinv
  omega

/-- The member `validate` keeps an invalid buffer without hashes. -/
theorem validate_tidy (buf : DrawBuffer) (p : Point) (ht : buf.tidy) :
    (buf.validate p).2.tidy := by
  unfold DrawBuffer.validate
  by_cases hp : buf.m_ref = p
  · simp only [hp, ne_eq, not_true_eq_false, if_false]
    exact ht
  · simp only [ne_eq, hp, not_false_eq_true, if_true]
    intro _
    rfl

/-- Replacing a buffer by a tidy one keeps the heap tidy. -/
theorem heap_set_tidy (heap : List DrawBuffer) (b : Nat) (new : DrawBuffer)
    (hheap : ∀ buf ∈ heap, buf.tidy) (hnew : new.tidy) : ∀ buf ∈ heap.set b new, buf.tidy := by
  intro buf hbuf
  rcases List.mem_or_eq_of_mem_set hbuf with hm | he
  · exact hheap buf hm
  · rw [he]
    exact hnew

/-- Allocation of a draw buffer keeps the heap tidy. -/
theorem allocHeap_tidy (heap : List DrawBuffer) (db : Option Nat)
    (hheap : ∀ buf ∈ heap, buf.tidy) : ∀ buf ∈ allocHeap heap db, buf.tidy := by
  cases db with
  | some _ => exact hheap
  | none =>
    intro buf hbuf
    have hbuf1 : buf ∈ heap ++ [DrawBuffer.create] := hbuf
    rcases List.mem_append.1 hbuf1 with hm | hm
    · exact hheap buf hm
    · rw [List.mem_singleton] at hm
      rw [hm]
      intro hinv
      cases hinv

/-- A call of `add` keeps the heap tidy. -/
theorem addCall_tidy (E : Ext) (w w1 : World) (c : Call) (h : addCall E w c = some w1)
    (hheap : ∀ buf ∈ w.heap, buf.tidy) : ∀ buf ∈ w1.heap, buf.tidy := by
  rcases addCall_cases E w w1 c h with
    ⟨-, hh⟩ | ⟨-, idx0, obj0, b0, buf0, buf1, -, -, -, hbuf0, hadv, hw1⟩ |
    ⟨-, -, buf0, -, hw1⟩
  · rw [hh]
    exact hheap
  · subst hw1
    exact heap_set_tidy _ _ _ hheap
      (advance_tidy E buf0 buf1 _ _ hadv (hheap buf0 (List.getElem?_mem hbuf0)))
  · subst hw1
    exact heap_set_tidy _ _ _ (allocHeap_tidy _ _ hheap) (seed_tidy E buf0 _ _)

/-- Every operation keeps the heap tidy. -/
theorem perform_tidy (E : Ext) (w w1 : World) (ev : Event) (h : perform E w ev = some w1)
    (hheap : ∀ buf ∈ w.heap, buf.tidy) : ∀ buf ∈ w1.heap, buf.tidy := by
  cases ev with
  | newBuffer =>
    simp only [perform, Option.some.injEq] at h
    subst h
    exact allocHeap_tidy w.heap none hheap
  | validate b0 p =>
    simp only [perform] at h
    cases hb : w.heap[b0]? with
    | none => rw [hb] at h; exact absurd h (by simp)
    | some old =>
      rw [hb] at h
      simp only [Option.some.injEq] at h
      subst h
      exact heap_set_tidy _ _ _ hheap (validate_tidy old p (hheap old (List.getElem?_mem hb)))
  | add c => exact addCall_tidy E w w1 c h hheap
  | setOpacity o pos =>
    simp only [perform] at h
    cases hq : w.pool.setOpacity E o pos with
    | none => rw [hq] at h; exact absurd h (by simp)
    | some q =>
      rw [hq] at h
      simp only [Option.map_some', Option.some.injEq] at h
      subst h
      exact hheap
  | setClipRect r pos =>
    simp only [perform] at h
    cases hq : w.pool.setClipRect E r pos with
    | none => rw [hq] at h; exact absurd h (by simp)
    | some q =>
      rw [hq] at h
      simp only [Option.map_some', Option.some.injEq] at h
      subst h
      exact hheap
  | setCompositionMode m pos =>
    simp only [perform] at h
    cases hq : w.pool.setCompositionMode E m pos with
    | none => rw [hq] at h; exact absurd h (by simp)
    | some q =>
      rw [hq] at h
      simp only [Option.map_some', Option.some.injEq] at h
      subst h
      exact hheap
  | setBlendEquation e pos =>
    simp only [perform] at h
    cases hq : w.pool.setBlendEquation E e pos with
    | none => rw [hq] at h; exact absurd h (by simp)
    | some q =>
      rw [hq] at h
      simp only [Option.map_some', Option.some.injEq] at h
      subst h
      exact hheap
  | setShaderProgram sh pos a =>
    simp only [perform] at h
    cases hq : w.pool.setShaderProgram sh pos a with
    | none => rw [hq] at h; exact absurd h (by simp)
    | some q =>
      rw [hq] at h
      simp only [Option.map_some', Option.some.injEq] at h
      subst h
      exact hheap
  | resetState =>
    simp only [perform, Option.some.injEq] at h
    subst h
    exact hheap
  | flush =>
    simp only [perform, Option.some.injEq] at h
    subst h
    exact hheap
  | hasModification now a =>
    simp only [perform, Option.some.injEq] at h
    subst h
    exact hheap

/-- A history of operations keeps the heap tidy. -/
theorem performAll_tidy (E : Ext) (evs : List Event) (w w1 : World)
    (h : performAll E w evs = some w1) (hheap : ∀ buf ∈ w.heap, buf.tidy) :
    ∀ buf ∈ w1.heap, buf.tidy := by
  induction evs generalizing w with
  | nil =>
    simp only [performAll, Option.some.injEq] at h
    subst h
    exact hheap
  | cons ev evs ih =>
    simp only [performAll] at h
    cases hp : perform E w ev with
    | none => rw [hp] at h; exact absurd h (by simp)
    | some w2 =>
      rw [hp] at h
      exact ih w2 h (perform_tidy E w w2 ev hp hheap)

/-- C22: `validate(p)` returns true exactly when the buffer was valid before
(cursor > -1) and its reference point was `p`, and then leaves the buffer
unchanged; when the reference point differed, afterwards the reference point
is `p`, the cursor is -1 and the hash sequence is empty (the coordinate store
is kept); when the point matched and the buffer was invalid, nothing changes.
A second `validate(p)` returns what the first returned and changes nothing.
And in every state that a history of operations reaches from a newly created
pool, every invalid draw buffer has an empty hash sequence. -/
theorem validate_contract (E : Ext) (now : Int) (type : PoolType) (evs : List Event) (w : World)
    (hreach : performAll E ⟨[], Pool.create now type⟩ evs = some w)
    (b : DrawBuffer) (p : Point) :
    ((b.validate p).1 = true ↔ b.isValid = true ∧ b.m_ref = p) ∧
    ((b.validate p).1 = true → (b.validate p).2 = b) ∧
    (b.m_ref ≠ p → (b.validate p).2 = ⟨-1, p, [], b.m_coords⟩) ∧
    (b.m_ref = p → b.isValid = false → (b.validate p).2 = b) ∧
    (b.validate p).2.validate p = b.validate p ∧
    ∀ buf ∈ w.heap, buf.isValid = false → buf.m_hashs = [] := by
  have hne : b.m_ref ≠ p → b.validate p = (false, ⟨-1, p, [], b.m_coords⟩) := by
    intro hp
    simp [DrawBuffer.validate, hp, DrawBuffer.invalidate, DrawBuffer.isValid]
  have heq : b.m_ref = p → b.validate p = (b.isValid, b) := by
    intro hp
    simp [DrawBuffer.validate, hp]
  refine ⟨?_, ?_, ?_, ?_, ?_, ?_⟩
  · by_cases hp : b.m_ref = p
    · rw [heq hp]
      simp [hp]
    · rw [hne hp]
      simp [hp]
  · intro ht
    by_cases hp : b.m_ref = p
    · rw [heq hp]
    · rw [hne hp] at ht
      cases ht
  · intro hp
    rw [hne hp]
  · intro hp _
    rw [heq hp]
  · by_cases hp : b.m_ref = p
    · rw [heq hp]
      exact heq hp
    · rw [hne hp]
      simp [DrawBuffer.validate, DrawBuffer.isValid]
  · intro buf hbuf
    have hnil : ∀ buf ∈ (World.mk [] (Pool.create now type)).heap, buf.tidy := by
      intro buf0 h0
      cases h0
    exact performAll_tidy E evs _ w hreach hnil buf hbuf

/-- The hypothesis of C22 holds for the invalidating history on a TEXT pool,
which ends with the buffer invalid; the buffer of the frame A, B, C is
validated at its own reference point. -/
theorem validate_contract_witness :
    performAll sampleExt ⟨[], Pool.create 0 PoolType.TEXT⟩ invalidatingHistory
      = some textAfterInvalidating ∧
    textAfterInvalidating.heap.map (fun b => b.isValid) = [false] ∧
    (((bufferABC.validate ⟨0, 0⟩).1 = true ↔ bufferABC.isValid = true ∧ bufferABC.m_ref = ⟨0, 0⟩) ∧
    ((bufferABC.validate ⟨0, 0⟩).1 = true → (bufferABC.validate ⟨0, 0⟩).2 = bufferABC) ∧
    (bufferABC.m_ref ≠ ⟨0, 0⟩ →
      (bufferABC.validate ⟨0, 0⟩).2 = ⟨-1, ⟨0, 0⟩, [], bufferABC.m_coords⟩) ∧
    (bufferABC.m_ref = ⟨0, 0⟩ → bufferABC.isValid = false →
      (bufferABC.validate ⟨0, 0⟩).2 = bufferABC) ∧
    (bufferABC.validate ⟨0, 0⟩).2.validate ⟨0, 0⟩ = bufferABC.validate ⟨0, 0⟩ ∧
    ∀ buf ∈ textAfterInvalidating.heap, buf.isValid = false → buf.m_hashs = []) :=
  ⟨by decide, by decide,
    validate_contract sampleExt 0 PoolType.TEXT invalidatingHistory textAfterInvalidating
      (by decide) bufferABC ⟨0, 0⟩⟩

/-! ### House manager -/

/-- The search finds nothing exactly when no house of the list has the id. -/
theorem findHouseIn_none (l : List House) (houseId : Nat) :
    findHouseIn l houseId = none ↔ houseId ∉ l.map House.getId := by
  induction l with
  | nil => simp [findHouseIn]
  | cons h rest ih =>
    by_cases hh : h.getId = houseId
    · simp [findHouseIn, hh]
    · have hh1 : ¬ houseId = h.getId := fun e => hh e.symm
      simp [findHouseIn, hh, hh1, ih]

/-- With distinct ids, erasing the house the search finds removes exactly the
houses with the id. -/
theorem erase_found_eq_filter (l : List House) (houseId : Nat)
    (hnd : (l.map House.getId).Nodup) :
    (match findHouseIn l houseId with
      | some i => l.eraseIdx i
      | none => l) = l.filter fun h => decide (h.getId ≠ houseId) := by
  induction l with
  | nil => rfl
  | cons h rest ih =>
    rw [List.map_cons, List.nodup_cons] at hnd
    by_cases hh : h.getId = houseId
    · have hfilter : rest.filter (fun h => decide (h.getId ≠ houseId)) = rest := by
        rw [List.filter_eq_self]
        intro x hx
        have hne : x.getId ≠ houseId := by
          intro e
          exact hnd.1 (by rw [hh, ← e]; exact List.mem_map_of_mem _ hx)
        simp [hne]
      simp only [findHouseIn, hh, if_true, List.eraseIdx_cons_zero]
      rw [List.filter_cons_of_neg (by simp [hh]), hfilter]
    · rw [List.filter_cons_of_pos (by simp [hh]), ← ih hnd.2]
      simp only [findHouseIn, hh, if_false]
      cases findHouseIn rest houseId with
      | none => rfl
      | some i => rfl

/-- The member `removeHouse` keeps the ids distinct. -/
theorem removeHouse_nodup (m : HouseManager) (houseId : Nat)
    (hnd : (m.m_houses.map House.getId).Nodup) :
    ((m.removeHouse houseId).m_houses.map House.getId).Nodup := by
  unfold HouseManager.removeHouse
  cases m.findHouse houseId with
  | none => exact hnd
  | some i => exact hnd.sublist ((List.eraseIdx_sublist _ _).map _)

/-- A successful `addHouse` keeps the ids distinct. -/
theorem addHouse_nodup (m m1 : HouseManager) (house : Option House)
    (h : m.addHouse house = some m1) (hnd : (m.m_houses.map House.getId).Nodup) :
    (m1.m_houses.map House.getId).Nodup := by
  unfold HouseManager.addHouse at h
  cases house with
  | none => exact absurd h (by simp)
  | some x =>
    simp only at h
    by_cases hf : m.findHouse x.getId = none
    · rw [if_pos hf, Option.some.injEq] at h
      subst h
      have hnin := (findHouseIn_none m.m_houses x.getId).1 hf
      show ((m.m_houses ++ [x]).map House.getId).Nodup
      rw [List.map_append, List.nodup_append]
      refine ⟨hnd, List.nodup_singleton _, ?_⟩
      intro a ha ha1
      simp only [List.map_cons, List.map_nil, List.mem_singleton] at ha1
      exact hnin (ha1 ▸ ha)
    · rw [if_neg hf, Option.some.injEq] at h
      subst h
      exact hnd

/-- A sequence of calls keeps the ids distinct. -/
theorem runHouseOps_nodup (ops : List HouseOp) (m m1 : HouseManager)
    (h : runHouseOps m ops = some m1) (hnd : (m.m_houses.map House.getId).Nodup) :
    (m1.m_houses.map House.getId).Nodup := by
  induction ops generalizing m with
  | nil =>
    simp only [runHouseOps, Option.some.injEq] at h
    subst h
    exact hnd
  | cons op ops ih =>
    simp only [runHouseOps] at h
    cases hop : runHouseOp m op with
    | none => rw [hop] at h; exact absurd h (by simp)
    | some m2 =>
      rw [hop] at h
      refine ih m2 h ?_
      cases op with
      | addHouse house => exact addHouse_nodup m m2 house hop hnd
      | removeHouse houseId =>
        simp only [runHouseOp, Option.some.injEq] at hop
        subst hop
        exact removeHouse_nodup m houseId hnd

/-- C23: after every sequence of addHouse and removeHouse calls that starts
from an empty house manager and completes, no two houses of the list have the
same id; addHouse of a house whose id is present leaves the list unchanged;
addHouse of a house with a new id appends it at the end; and after
removeHouse(id), getHouse(id) returns null and the list is the earlier one
without the house of that id, the other houses in their order. -/
theorem house_ids_unique (ops : List HouseOp) (m : HouseManager)
    (hrun : runHouseOps ⟨[]⟩ ops = some m) :
    (m.m_houses.map House.getId).Nodup ∧
    (∀ h : House, h.getId ∈ m.m_houses.map House.getId → m.addHouse (some h) = some m) ∧
    (∀ h : House, h.getId ∉ m.m_houses.map House.getId →
      m.addHouse (some h) = some ⟨m.m_houses ++ [h]⟩) ∧
    ∀ houseId : Nat, (m.removeHouse houseId).getHouse houseId = none ∧
      (m.removeHouse houseId).m_houses
        = m.m_houses.filter fun h => decide (h.getId ≠ houseId) := by
  have hnd : (m.m_houses.map House.getId).Nodup :=
    runHouseOps_nodup ops ⟨[]⟩ m hrun List.nodup_nil
  refine ⟨hnd, ?_, ?_, ?_⟩
  · intro h hin
    have hf : ¬ m.findHouse h.getId = none := fun e => (findHouseIn_none _ _).1 e hin
    simp only [HouseManager.addHouse, hf, if_false]
  · intro h hnin
    have hf : m.findHouse h.getId = none := (findHouseIn_none _ _).2 hnin
    simp only [HouseManager.addHouse, hf, if_true]
  · intro houseId
    have hrem : (m.removeHouse houseId).m_houses
        = m.m_houses.filter fun h => decide (h.getId ≠ houseId) := by
      rw [← erase_found_eq_filter m.m_houses houseId hnd]
      unfold HouseManager.removeHouse HouseManager.findHouse
      cases findHouseIn m.m_houses houseId with
      | none => rfl
      | some i => rfl
    refine ⟨?_, hrem⟩
    have hf : (m.removeHouse houseId).findHouse houseId = none := by
      unfold HouseManager.findHouse
      rw [findHouseIn_none, hrem]
      intro hin
      rw [List.mem_map] at hin
      obtain ⟨x, hx, hxid⟩ := hin
      rw [List.mem_filter] at hx
      simp only [ne_eq, decide_not, Bool.not_eq_true', decide_eq_false_iff_not] at hx
      exact hx.2 hxid
    simp only [HouseManager.getHouse, hf]

/-- The hypothesis of C23 holds for the sample sequence, which ends with the
houses 10, 30, 20. -/
theorem house_ids_unique_witness :
    runHouseOps ⟨[]⟩ sampleHouseOps = some sampleHouses ∧
    ((sampleHouses.m_houses.map House.getId).Nodup ∧
    (∀ h : House, h.getId ∈ sampleHouses.m_houses.map House.getId →
      sampleHouses.addHouse (some h) = some sampleHouses) ∧
    (∀ h : House, h.getId ∉ sampleHouses.m_houses.map House.getId →
      sampleHouses.addHouse (some h) = some ⟨sampleHouses.m_houses ++ [h]⟩) ∧
    ∀ houseId : Nat, (sampleHouses.removeHouse houseId).getHouse houseId = none ∧
      (sampleHouses.removeHouse houseId).m_houses
        = sampleHouses.m_houses.filter fun h => decide (h.getId ≠ houseId)) :=
  ⟨by decide, house_ids_unique sampleHouseOps sampleHouses (by decide)⟩

/-! ### Doors of a house -/

/-- Lookup in the door map after an assignment to the same key. -/
theorem doorFind_assign_self (m : List (Nat × Option Nat)) (k : Nat) (v : Option Nat) :
    doorFind (doorAssign m k v) k = some v := by
  simp [doorAssign, doorFind]

/-- Whatever the counter of the house, `addDoor` gives a non-null door the
counter as id and stores it under the incremented counter, another key. -/
theorem addDoor_id_and_key (h : House) (d : Item) :
    ((h.addDoor (some d)).2.map Item.getDoorId = some h.m_lastDoorId) ∧
    doorFind (h.addDoor (some d)).1.m_doors ((h.m_lastDoorId + 1) % UINT32_SIZE)
      = some (some d.addr) ∧
    (h.m_lastDoorId + 1) % UINT32_SIZE ≠ h.m_lastDoorId := by
  refine ⟨rfl, doorFind_assign_self _ _ _, ?_⟩
  unfold UINT32_SIZE
  omega

/-- C24, the failing input: on a newly built house (counter 0, no doors),
`addDoor` gives the sample door the id 0 and stores it under the key 1, so no
entry has the key 0. `removeDoorById(0)`, the removal by the id of the door,
does not throw; it creates an entry with key 0 that holds null, and the entry
with key 1 still holds the door. `removeDoorById(1)`, the removal by the key
of the door, throws. After a second door (id 1, key 2), the removal by the id
of the second door empties the entry of the first door. -/
theorem door_key_failing_input :
    (plainHouse 1 10).addDoor (some sampleDoor)
      = (⟨1, 10, [(1, some 77)], 1⟩, some ⟨77, 0⟩) ∧
    doorFind houseWithDoor.m_doors 0 = none ∧
    doorFind houseWithDoor.m_doors 1 = some (some sampleDoor.addr) ∧
    houseWithDoor.removeDoorById 0 = some ⟨1, 10, [(0, none), (1, some 77)], 1⟩ ∧
    houseWithDoor.removeDoorById 1 = none ∧
    houseWithDoor.addDoor (some otherDoor)
      = (⟨1, 10, [(2, some 78), (1, some 77)], 2⟩, some ⟨78, 1⟩) ∧
    houseWithTwoDoors.removeDoorById 1
      = some ⟨1, 10, [(1, none), (2, some 78)], 2⟩ := by
  decide

/-! ### Merge rule of the ungrouped path -/

/-- C15 as amended: for every `add` without buffer on a pool without forced
grouping that completes. If the list is not empty and the snapshot equals the
state of the last draw object, the number of draw objects is unchanged, the
new method is the last pending method of the last draw object, after what the
occlusion scan leaves of its pending methods, and its draw mode is TRIANGLES.
Otherwise exactly one draw object is appended, with the snapshot, the
requested draw mode, the pending list of the method alone and no buffer; the
draw object that was last at the call keeps its state, draw mode and buffer,
and its pending list is what the occlusion scan leaves of it. The scan leaves
a sublist that misses at most one method. In both cases the draw objects
before the one that was last at the call are unchanged. -/
theorem ungrouped_merge_rule (E : Ext) (w w1 : World) (tm : Matrix3) (color : Color)
    (texture : Option Texture) (method : DrawMethod) (drawMode : DrawMode)
    (hung : w.pool.m_forceGrouping = false)
    (h : add E w tm color texture method drawMode none = some w1) :
    (∀ init prev, w.pool.m_objects = init ++ [prev] →
      prev.state.same (w.pool.snapshot tm color texture) = true →
      ∃ methods, scanPending prev (w.pool.snapshot tm color texture) method = some methods ∧
        methods.Sublist prev.drawMethods ∧ prev.drawMethods.length ≤ methods.length + 1 ∧
        w1.pool.m_objects = init ++ [{ prev with drawMode := DrawMode.TRIANGLES,
                                                 drawMethods := methods ++ [method] }] ∧
        w1.pool.m_objects.length = w.pool.m_objects.length) ∧
    (w.pool.m_objects = [] →
      w1.pool.m_objects = [⟨w.pool.snapshot tm color texture, drawMode, [method], none⟩]) ∧
    (∀ init prev, w.pool.m_objects = init ++ [prev] →
      prev.state.same (w.pool.snapshot tm color texture) = false →
      ∃ methods, scanPending prev (w.pool.snapshot tm color texture) method = some methods ∧
        methods.Sublist prev.drawMethods ∧ prev.drawMethods.length ≤ methods.length + 1 ∧
        w1.pool.m_objects = init ++ [{ prev with drawMethods := methods }] ++
          [⟨w.pool.snapshot tm color texture, drawMode, [method], none⟩] ∧
        w1.pool.m_objects.length = w.pool.m_objects.length + 1) := by
  obtain ⟨hu, -, -, -⟩ := add_ungrouped E w w1 tm color texture method drawMode hung h
  rcases addUngrouped_cases _ _ _ _ _ hu with ⟨h0, h1⟩ | ⟨init, prev, methods, hl, hscan, hcase⟩
  · refine ⟨?_, fun _ => h1, ?_⟩
    · intro init prev hl
      rw [h0] at hl
      exact absurd hl (by simp)
    · intro init prev hl
      rw [h0] at hl
      exact absurd hl (by simp)
  · have hsub := scanPending_sublist prev _ method methods hscan
    have hlen := scanPending_length prev _ method methods hscan
    refine ⟨?_, ?_, ?_⟩
    · intro init2 prev2 hl2 hsame
      obtain ⟨hi, hp⟩ := List.append_inj' (hl.symm.trans hl2) rfl
      simp only [List.cons.injEq, and_true] at hp
      subst hi hp
      rcases hcase with ⟨-, hl1⟩ | ⟨hf, -⟩
      · exact ⟨methods, hscan, hsub, hlen, hl1, by rw [hl1, hl]; simp⟩
      · rw [hsame] at hf
        exact absurd hf (by simp)
    · intro h0
      rw [hl] at h0
      exact absurd h0 (by simp)
    · intro init2 prev2 hl2 hdiff
      obtain ⟨hi, hp⟩ := List.append_inj' (hl.symm.trans hl2) rfl
      simp only [List.cons.injEq, and_true] at hp
      subst hi hp
      rcases hcase with ⟨ht, -⟩ | ⟨-, hl1⟩
      · rw [hdiff] at ht
        exact absurd ht (by simp)
      · exact ⟨methods, hscan, hsub, hlen, hl1, by rw [hl1, hl]; simp⟩

/-- The hypotheses of the amended C15 hold when `tileB` follows `tileA` on the
MAP pool. -/
theorem ungrouped_merge_rule_witness :
    (∀ init prev, mapAfterTileA.pool.m_objects = init ++ [prev] →
      prev.state.same (mapAfterTileA.pool.snapshot identityMatrix Color.white
        (some glassTexture)) = true →
      ∃ methods, scanPending prev (mapAfterTileA.pool.snapshot identityMatrix Color.white
          (some glassTexture)) tileB = some methods ∧
        methods.Sublist prev.drawMethods ∧ prev.drawMethods.length ≤ methods.length + 1 ∧
        mapAfterTileB.pool.m_objects = init ++ [{ prev with drawMode := DrawMode.TRIANGLES,
                                                            drawMethods := methods ++ [tileB] }] ∧
        mapAfterTileB.pool.m_objects.length = mapAfterTileA.pool.m_objects.length) ∧
    (mapAfterTileA.pool.m_objects = [] →
      mapAfterTileB.pool.m_objects =
        [⟨mapAfterTileA.pool.snapshot identityMatrix Color.white (some glassTexture),
          DrawMode.TRIANGLES, [tileB], none⟩]) ∧
    (∀ init prev, mapAfterTileA.pool.m_objects = init ++ [prev] →
      prev.state.same (mapAfterTileA.pool.snapshot identityMatrix Color.white
        (some glassTexture)) = false →
      ∃ methods, scanPending prev (mapAfterTileA.pool.snapshot identityMatrix Color.white
          (some glassTexture)) tileB = some methods ∧
        methods.Sublist prev.drawMethods ∧ prev.drawMethods.length ≤ methods.length + 1 ∧
        mapAfterTileB.pool.m_objects = init ++ [{ prev with drawMethods := methods }] ++
          [⟨mapAfterTileA.pool.snapshot identityMatrix Color.white (some glassTexture),
            DrawMode.TRIANGLES, [tileB], none⟩] ∧
        mapAfterTileB.pool.m_objects.length = mapAfterTileA.pool.m_objects.length + 1) :=
  ungrouped_merge_rule sampleExt mapAfterTileA mapAfterTileB identityMatrix Color.white
    (some glassTexture) tileB DrawMode.TRIANGLES (by decide) (by decide)

/-- C15 as stated fails in the append case: the MAP pool (no forced grouping)
holds one draw object with the glass texture and the pending method `tileB`;
`tileO` is added without buffer with the opaque texture, a different state.
One draw object is appended, and the draw object before it, the first of the
list, is not unchanged: its pending method `tileB` is gone. -/
theorem ungrouped_merge_rule_counterexample :
    mapAfterTileB.pool.m_forceGrouping = false ∧
    mapAfterTileB.pool.m_objects.map (fun o => o.drawMethods) = [[tileB]] ∧
    (addCall sampleExt mapAfterTileB (texCall opaqueTexture tileO)).map
      (fun w => w.pool.m_objects.map fun o => o.drawMethods) = some [[], [tileO]] ∧
    (addCall sampleExt mapAfterTileB (texCall opaqueTexture tileO)).map
      (fun w => decide (w.pool.m_objects[0]? = mapAfterTileB.pool.m_objects[0]?)) = some false := by
  decide

end OTClient
